import Mathlib

/-!
# Huffman encoder / decoder (`treeBuilder.c`, `huffencode.c`, `huffdecode.c`)

A shallow embedding of the C sources and theorems about it.

Conventions of the embedding.

* `unsigned char` is a `Nat` below `256`, `unsigned int` a `Nat` below `2^32`,
  `unsigned long` a `Nat` below `2^64` (LP64); arithmetic that can wrap is reduced
  explicitly. An `unsigned long` is stored little-endian by `fwrite` / `fread`.
* A C array is the map from index to value (`Nat → Nat`, `Nat → SymbolNode`); only the
  indices the C array has are meaningful, and an access outside them is a `Fault`.
* A `struct SymbolNode *` is a value of `SymbolNode`: `null` or a node together with the
  trees its `left` and `right` fields point to. The `next` field only links the priority
  queue, which is a `List SymbolNode` (head first).
* A file is the list of its bytes. `fgetc` at end of file yields `EOF`, which the sources
  store in an `unsigned char`, i.e. `255`.
* Functions that can leave defined behaviour return `Except Fault _`.
-/

namespace Huffman

/-- Ways in which a run of the C program leaves defined behaviour. -/
inductive Fault where
  | nullDeref
  | outOfBounds
  | uninitRead
  | intOverflow
  | outOfFuel
deriving DecidableEq, Repr

/-- The modulus of `unsigned long`. -/
def ULONG : Nat := 2 ^ 64

/-- The modulus of `unsigned int`. -/
def UINT : Nat := 2 ^ 32

/-- A `struct SymbolNode *` (huffman.h): `NULL`, or a node with its fields. The array
`code[256]` is the map from index to entry. -/
inductive SymbolNode where
  | null : SymbolNode
  | node (freq : Nat) (symbol : Nat) (length : Nat) (code : Nat → Nat)
      (left right : SymbolNode) : SymbolNode

namespace SymbolNode

/-- Field `freq` (only read through non-null pointers). -/
def freq : SymbolNode → Nat
  | null => 0
  | node f _ _ _ _ _ => f

/-- Field `symbol`. -/
def symbol : SymbolNode → Nat
  | null => 0
  | node _ s _ _ _ _ => s

/-- Field `length`. -/
def length : SymbolNode → Nat
  | null => 0
  | node _ _ n _ _ _ => n

/-- Field `code`. -/
def code : SymbolNode → Nat → Nat
  | null => fun _ => 0
  | node _ _ _ c _ _ => c

/-- Field `left`. -/
def left : SymbolNode → SymbolNode
  | null => null
  | node _ _ _ _ l _ => l

/-- Field `right`. -/
def right : SymbolNode → SymbolNode
  | null => null
  | node _ _ _ _ _ r => r

/-- Test `p == NULL`. -/
def isNull : SymbolNode → Bool
  | null => true
  | node _ _ _ _ _ _ => false

end SymbolNode

open SymbolNode

/-! ## treeBuilder.c -/

/-- `makeSymbol(freq, symbol)`: a fresh node, length 0, all 256 code entries 0, no links. -/
def makeSymbol (freq symbol : Nat) : SymbolNode :=
  node freq symbol 0 (fun _ => 0) null null

/-- `smallestValue(root)`: the symbol reached by always descending left. -/
def smallestValue : SymbolNode → Nat
  | null => 0
  | node _ s _ _ null _ => s
  | node _ _ _ _ (node f s n c l r) _ => smallestValue (node f s n c l r)

/-- `insertPriority(head, insertNode)`: the new queue. -/
def insertPriority : List SymbolNode → SymbolNode → List SymbolNode
  | [], insertNode => [insertNode]
  | head :: next, insertNode =>
    if insertNode.freq < head.freq then insertNode :: head :: next
    else if insertNode.freq > head.freq then head :: insertPriority next insertNode
    else if smallestValue insertNode < smallestValue head then insertNode :: head :: next
    else head :: insertPriority next insertNode

/-- `combineNodes(left, right)`: a new root `makeSymbol(left->freq + right->freq, 'r')`
with the two children; the sum is an `unsigned long`. -/
def combineNodes (left right : SymbolNode) : SymbolNode :=
  node ((left.freq + right.freq) % ULONG) 114 0 (fun _ => 0) left right

/-- `popPriority(&head)`: the popped node and the new head; reads `(*head)->next`. -/
def popPriority : List SymbolNode → Except Fault (SymbolNode × List SymbolNode)
  | [] => .error .nullDeref
  | head :: next => .ok (head, next)

/-- The loop of `buildTree`; each iteration shortens the queue by one, so the queue length
is enough fuel. The test `head->next != NULL` reads through `head`. -/
def buildTreeLoop : Nat → List SymbolNode → Except Fault SymbolNode
  | _, [] => .error .nullDeref
  | _, [head] => .ok head
  | 0, _ :: _ :: _ => .error .outOfFuel
  | fuel + 1, head :: n :: rest =>
    match popPriority (head :: n :: rest) with
    | .error e => .error e
    | .ok (leftChild, head1) =>
      match popPriority head1 with
      | .error e => .error e
      | .ok (rightChild, head2) =>
        buildTreeLoop fuel (insertPriority head2 (combineNodes leftChild rightChild))

/-- `buildTree(head)`. -/
def buildTree (head : List SymbolNode) : Except Fault SymbolNode :=
  buildTreeLoop head.length head

/-- The copy loop of `fillCodes`: `for(i = 0; i < depth; i++) root->code[i] = prevCode[i]`. -/
def copyCode (prevCode : Nat → Nat) : Nat → (Nat → Nat) → (Nat → Nat)
  | 0, code => code
  | i + 1, code => Function.update (copyCode prevCode i code) i (prevCode i)

/-- `fillCodes(root, direction, depth, prevCode)`: the tree with the `length` and `code`
fields written. `code` has 256 entries, so a write at `depth >= 256` is out of bounds. -/
def fillCodes : SymbolNode → Nat → Int → (Nat → Nat) → Except Fault SymbolNode
  | null, _, _, _ => .ok null
  | node f s n c l r, direction, depth, prevCode =>
    if depth = -1 then
      match fillCodes l 0 (depth + 1) c with
      | .error e => .error e
      | .ok l1 =>
        match fillCodes r 1 (depth + 1) c with
        | .error e => .error e
        | .ok r1 => .ok (node f s n c l1 r1)
    else if depth < 0 ∨ 256 ≤ depth then .error .outOfBounds
    else
      let c1 := Function.update (copyCode prevCode depth.toNat c) depth.toNat direction
      match fillCodes l 0 (depth + 1) c1 with
      | .error e => .error e
      | .ok l1 =>
        match fillCodes r 1 (depth + 1) c1 with
        | .error e => .error e
        | .ok r1 => .ok (node f s (depth + 1).toNat c1 l1 r1)

/-- `isLeaf(node)`. -/
def isLeaf : SymbolNode → Bool
  | node _ _ _ _ null null => true
  | _ => false

/-- The queue `locHead` after the loop of `generateCodes` has handled the indices below
`i`. -/
def queueUpTo (freq : Nat → Nat) : Nat → List SymbolNode
  | 0 => []
  | i + 1 =>
    if freq i ≠ 0 then insertPriority (queueUpTo freq i) (makeSymbol (freq i) i)
    else queueUpTo freq i

/-- Reading through the pointer `symbols[i]` once the tree is complete. `symbols[i]` holds
the address of the node `makeSymbol(freq[i], i)`; nodes are never copied, only linked into
the tree and written by `fillCodes`, so the pointer designates the leaf of the final tree
that carries symbol `i` (combined nodes are not leaves). -/
def findLeaf (i : Nat) : SymbolNode → SymbolNode
  | null => null
  | node f s n c null null => if s = i then node f s n c null null else null
  | node _ _ _ _ l r =>
    match findLeaf i l with
    | null => findLeaf i r
    | found => found

/-- `generateCodes(freq, &head)`: the array `symbols` and the root stored in `*head`. -/
def generateCodes (freq : Nat → Nat) : Except Fault ((Nat → SymbolNode) × SymbolNode) :=
  match buildTree (queueUpTo freq 256) with
  | .error e => .error e
  | .ok locHead =>
    match fillCodes locHead 0 (-1) locHead.code with
    | .error e => .error e
    | .ok root =>
      .ok (fun i => if i < 256 ∧ freq i ≠ 0 then findLeaf i root else null, root)

/-- The statement `if(root == NULL) root = makeSymbol(0, 'r')` of `insertTree`. -/
def orFresh : SymbolNode → SymbolNode
  | null => makeSymbol 0 114
  | node f s n c l r => node f s n c l r

/-- The assignment `root->left = l`. -/
def withLeft : SymbolNode → SymbolNode → SymbolNode
  | null, _ => null
  | node f s n c _ r, l => node f s n c l r

/-- The assignment `root->right = r`. -/
def withRight : SymbolNode → SymbolNode → SymbolNode
  | null, _ => null
  | node f s n c l _, r => node f s n c l r

/-- The recursion of `insertTree`; `depth` grows by one per call and a read of
`newNode->code[depth]` at `depth >= 256` is out of bounds. -/
def insertTreeFuel : Nat → SymbolNode → SymbolNode → Nat → Except Fault SymbolNode
  | 0, _, _, _ => .error .outOfFuel
  | _ + 1, _, null, _ => .error .nullDeref
  | fuel + 1, root, node nf ns nlen ncode nl nr, depth =>
    if depth = nlen then .ok (node nf ns nlen ncode nl nr)
    else if 256 ≤ depth then .error .outOfBounds
    else if ncode depth = 0 then
      match insertTreeFuel fuel (orFresh root).left (node nf ns nlen ncode nl nr) (depth + 1) with
      | .error e => .error e
      | .ok l1 => .ok (withLeft (orFresh root) l1)
    else
      match insertTreeFuel fuel (orFresh root).right (node nf ns nlen ncode nl nr) (depth + 1) with
      | .error e => .error e
      | .ok r1 => .ok (withRight (orFresh root) r1)

/-- `insertTree(root, newNode, depth)`. -/
def insertTree (root newNode : SymbolNode) (depth : Nat) : Except Fault SymbolNode :=
  insertTreeFuel (256 - depth + 1) root newNode depth

/-! ## huffencode.c -/

/-- `fgetc(in)` stored in an `unsigned char`, and the rest of the file. -/
def fgetcByte : List Nat → Nat × List Nat
  | [] => (255, [])
  | b :: rest => (b % 256, rest)

/-- The loop of `countSymbols` over the bytes still to read. -/
def countSymbolsLoop : List Nat → (Nat → Nat) × Nat → (Nat → Nat) × Nat
  | [], acc => acc
  | currChar :: rest, (symbolCount, totalSymbols) =>
    countSymbolsLoop rest
      (Function.update symbolCount (currChar % 256) ((symbolCount (currChar % 256) + 1) % ULONG),
       (totalSymbols + 1) % ULONG)

/-- `countSymbols(inFile, &totalSymbols)`. The array comes from `malloc`, which does not
initialise it: `mem` is what the block holds when it is handed out. -/
def countSymbols (mem : Nat → Nat) (inFile : List Nat) : (Nat → Nat) × Nat :=
  countSymbolsLoop inFile (mem, 0)

/-- The inner loop of `writeCode` for byte `i`: `n` more rounds of
`currByte |= code[i*8+j]; currByte <<= 1`. -/
def writeCodeInner (code : Nat → Nat) (i : Nat) : Nat → Nat → Nat → Except Fault Nat
  | 0, _, currByte => .ok currByte
  | n + 1, j, currByte =>
    if 256 ≤ i * 8 + j then .error .outOfBounds
    else writeCodeInner code i n (j + 1) (((currByte ||| code (i * 8 + j)) <<< 1) % 256)

/-- One byte of `writeCode`: seven rounds of the inner loop, then the last bit. -/
def writeCodeByte (code : Nat → Nat) (i : Nat) : Except Fault Nat :=
  match writeCodeInner code i 7 0 0 with
  | .error e => .error e
  | .ok currByte =>
    if 256 ≤ i * 8 + 7 then .error .outOfBounds else .ok (currByte ||| code (i * 8 + 7))

/-- The outer loop of `writeCode`: `n` more bytes starting at byte `i`. -/
def writeCodeBytes (code : Nat → Nat) : Nat → Nat → Except Fault (List Nat)
  | 0, _ => .ok []
  | n + 1, i =>
    match writeCodeByte code i with
    | .error e => .error e
    | .ok b =>
      match writeCodeBytes code n (i + 1) with
      | .error e => .error e
      | .ok rest => .ok (b :: rest)

/-- `writeCode(out, symbol)`: the bytes written. -/
def writeCode : SymbolNode → Except Fault (List Nat)
  | null => .error .nullDeref
  | node _ _ length code _ _ =>
    let numBytes := if length % 8 = 0 then length / 8 + 1 - 1 else length / 8 + 1
    match writeCodeBytes code numBytes 0 with
    | .error e => .error e
    | .ok bytes => .ok (length % 256 :: bytes)

/-- The first loop of `writeHeader` over the indices below `i`:
`(numSymbols, numChars)`, an `unsigned char` and an `unsigned long`. -/
def headerCounts (codes : Nat → SymbolNode) : Nat → Nat × Nat
  | 0 => (0, 0)
  | i + 1 =>
    match codes i with
    | null => headerCounts codes i
    | node f _ _ _ _ _ =>
      (((headerCounts codes i).1 + 1) % 256, ((headerCounts codes i).2 + f) % ULONG)

/-- The second loop of `writeHeader` over the indices `i, i+1, ..., i+n-1`. -/
def headerEntries (codes : Nat → SymbolNode) : Nat → Nat → Except Fault (List Nat)
  | 0, _ => .ok []
  | n + 1, i =>
    match codes i with
    | null => headerEntries codes n (i + 1)
    | node f s len c l r =>
      match writeCode (node f s len c l r) with
      | .error e => .error e
      | .ok bytes =>
        match headerEntries codes n (i + 1) with
        | .error e => .error e
        | .ok rest => .ok (i % 256 :: bytes ++ rest)

/-- The eight bytes `fwrite(&numChars, sizeof(unsigned long), 1, out)` writes. -/
def ulongBytes (n : Nat) : List Nat :=
  (List.range 8).map (fun k => n / 256 ^ k % 256)

/-- `writeHeader(out, codes)`: the bytes written. -/
def writeHeader (codes : Nat → SymbolNode) : Except Fault (List Nat) :=
  match headerEntries codes 256 0 with
  | .error e => .error e
  | .ok entries =>
    .ok ((headerCounts codes 256).1 :: entries ++ ulongBytes (headerCounts codes 256).2)

/-- The local variables of `writeSymbols`, the unread input and the bytes written. -/
structure WriteState where
  input : List Nat
  out : List Nat
  totalSymbols : Nat
  byteLength : Nat
  currCodeLength : Nat
  currNode : SymbolNode
  currByte : Nat
  flagLastLoop : Bool

/-- The end of the loop body of `writeSymbols`: shift, place the next bit of the code,
count down. The index `currNode->length - currCodeLength` is `unsigned int`. -/
def placeBit (s : WriteState) : Except Fault (Bool × WriteState) :=
  match s.currNode with
  | null => .error .nullDeref
  | node _ _ length code _ _ =>
    if 256 ≤ (length + UINT - s.currCodeLength) % UINT then .error .outOfBounds
    else
      .ok (false,
        { s with
          currByte := ((s.currByte <<< 1) % 256) ||| code ((length + UINT - s.currCodeLength) % UINT)
          currCodeLength := (s.currCodeLength + UINT - 1) % UINT
          byteLength := s.byteLength - 1 })

/-- One pass through the body of `while(1)` in `writeSymbols`; the flag tells whether the
pass left the loop by `break`. -/
def writeSymbolsStep (codes : Nat → SymbolNode) (s : WriteState) :
    Except Fault (Bool × WriteState) :=
  let s1 : WriteState :=
    if s.byteLength = 0 then
      { s with out := s.out ++ [s.currByte], currByte := 0, byteLength := 8 }
    else s
  if s1.currCodeLength = 0 then
    let total := (s1.totalSymbols + ULONG - 1) % ULONG
    if s1.flagLastLoop then
      .ok (true, { s1 with input := (fgetcByte s1.input).2, totalSymbols := total })
    else
      match codes (fgetcByte s1.input).1 with
      | null => .error .nullDeref
      | node f sy length code l r =>
        placeBit
          { s1 with
            input := (fgetcByte s1.input).2
            totalSymbols := total
            flagLastLoop := decide (total = 0)
            currNode := node f sy length code l r
            currCodeLength := length }
  else placeBit s1

/-- The loop `while(1)` of `writeSymbols`, at most `fuel` passes. -/
def writeSymbolsLoop (codes : Nat → SymbolNode) : Nat → WriteState → Except Fault WriteState
  | 0, _ => .error .outOfFuel
  | fuel + 1, s =>
    match writeSymbolsStep codes s with
    | .error e => .error e
    | .ok (true, s1) => .ok s1
    | .ok (false, s1) => writeSymbolsLoop codes fuel s1

/-- `writeSymbols(in, out, codes, totalSymbols)`: the bytes written. A symbol takes at most
256 passes before the next one is fetched or the code index leaves the array, and the
counter reaches 0 after `totalSymbols` fetches (`2^64` when it starts at 0). -/
def writeSymbols (input : List Nat) (codes : Nat → SymbolNode) (totalSymbols : Nat) :
    Except Fault (List Nat) :=
  let fetches := if totalSymbols = 0 then ULONG else totalSymbols
  match writeSymbolsLoop codes (257 * fetches + 2)
      { input := input, out := [], totalSymbols := totalSymbols, byteLength := 8,
        currCodeLength := 0, currNode := null, currByte := 0, flagLastLoop := false } with
  | .error e => .error e
  | .ok s =>
    if s.byteLength ≠ 0 ∧ s.byteLength ≠ 8 then
      .ok (s.out ++ [(fun b => (b <<< 1) % 256)^[s.byteLength] s.currByte])
    else .ok s.out

/-- `encodeFile(in, out)`: the bytes written to `out` (the table printed on standard output
is left out). `mem` is the content of the block `countSymbols` obtains from `malloc`. -/
def encodeFile (mem : Nat → Nat) (input : List Nat) : Except Fault (List Nat) :=
  match generateCodes (countSymbols mem input).1 with
  | .error e => .error e
  | .ok (codes, _) =>
    match writeHeader codes with
    | .error e => .error e
    | .ok header =>
      match writeSymbols input codes (countSymbols mem input).2 with
      | .error e => .error e
      | .ok body => .ok (header ++ body)

/-! ## huffdecode.c -/

/-- The inner loop of `readHeader` for byte `i` up to bit `j`:
`newNode->code[i*8+j] = ((1 << (7-j)) & currByte) != 0`. -/
def unpackByte (i currByte : Nat) : Nat → (Nat → Nat) → (Nat → Nat)
  | 0, code => code
  | j + 1, code =>
    Function.update (unpackByte i currByte j code) (i * 8 + j)
      (if (1 <<< (7 - j)) &&& currByte ≠ 0 then 1 else 0)

/-- The outer loop of `readHeader`: `n` more code bytes starting at byte `i`. -/
def readCodeBytes : Nat → Nat → List Nat → (Nat → Nat) → (Nat → Nat) × List Nat
  | 0, _, input, code => (code, input)
  | n + 1, i, input, code =>
    readCodeBytes n (i + 1) (fgetcByte input).2 (unpackByte i (fgetcByte input).1 8 code)

/-- `readHeader(in, numSymbols, root)`: the tree and the rest of the file. -/
def readHeader : Nat → List Nat → SymbolNode → Except Fault (SymbolNode × List Nat)
  | 0, input, root => .ok (root, input)
  | numSymbols + 1, input, root =>
    let symbol := (fgetcByte input).1
    let in1 := (fgetcByte input).2
    let codeLength := (fgetcByte in1).1
    let in2 := (fgetcByte in1).2
    let numBytes := if codeLength % 8 ≠ 0 then codeLength / 8 + 1 else codeLength / 8
    let filled := readCodeBytes numBytes 0 in2 (fun _ => 0)
    match insertTree root (node 0 symbol codeLength filled.1 null null) 0 with
    | .error e => .error e
    | .ok root1 => readHeader numSymbols filled.2 root1

/-- The local variables of `decodeChars`, the unread input and the bytes written. -/
structure DecodeState where
  input : List Nat
  out : List Nat
  numChars : Int
  currNode : SymbolNode
  currByte : Nat
  byteLength : Nat

/-- One pass through the body of the loop of `decodeChars`. `isLeaf` reads through the
child just reached; `numChars--` on `INT_MIN` overflows. -/
def decodeCharsStep (root : SymbolNode) (s : DecodeState) : Except Fault DecodeState :=
  let s1 : DecodeState :=
    if s.byteLength = 0 then
      { s with input := (fgetcByte s.input).2, currByte := (fgetcByte s.input).1, byteLength := 8 }
    else s
  match s1.currNode with
  | null => .error .nullDeref
  | node _ _ _ _ l r =>
    match (if s1.currByte &&& (1 <<< (s1.byteLength - 1)) ≠ 0 then r else l) with
    | null => .error .nullDeref
    | node f sy n c cl cr =>
      if isLeaf (node f sy n c cl cr) then
        if s1.numChars = -(2 : Int) ^ 31 then .error .intOverflow
        else
          .ok { s1 with
                out := s1.out ++ [sy % 256]
                currNode := root
                numChars := s1.numChars - 1
                byteLength := s1.byteLength - 1 }
      else .ok { s1 with currNode := node f sy n c cl cr, byteLength := s1.byteLength - 1 }

/-- The loop `while(numChars != 0)` of `decodeChars`, at most `fuel` passes. -/
def decodeCharsLoop (root : SymbolNode) : Nat → DecodeState → Except Fault DecodeState
  | 0, s => if s.numChars = 0 then .ok s else .error .outOfFuel
  | fuel + 1, s =>
    if s.numChars = 0 then .ok s
    else
      match decodeCharsStep root s with
      | .error e => .error e
      | .ok s1 => decodeCharsLoop root fuel s1

/-- Number of nodes on the longest downward path. -/
def height : SymbolNode → Nat
  | null => 0
  | node _ _ _ _ l r => max (height l) (height r) + 1

/-- `decodeChars(in, out, numChars, root)`: the bytes written and the unread rest of the
input. Between two visits of the root the walk goes down, so a symbol takes at most
`height root` passes, and the counter leaves the loop or overflows within `2^31` symbols. -/
def decodeChars (input : List Nat) (numChars : Int) (root : SymbolNode) :
    Except Fault (List Nat × List Nat) :=
  match decodeCharsLoop root (2 ^ 31 * height root + 1)
      { input := input, out := [], numChars := numChars, currNode := root, currByte := 0,
        byteLength := 0 } with
  | .error e => .error e
  | .ok s => .ok (s.out, s.input)

/-- Conversion of an `unsigned long` to the `int` parameter of `decodeChars`. -/
def toInt32 (n : Nat) : Int :=
  if n % UINT < 2 ^ 31 then ((n % UINT : Nat) : Int) else ((n % UINT : Nat) : Int) - 2 ^ 32

/-- The `unsigned long` that `fread` assembles from eight bytes. -/
def ulongOfBytes : List Nat → Nat
  | [] => 0
  | b :: rest => b % 256 + 256 * ulongOfBytes rest

/-- `decodeFile(in, out)`: the bytes written to `out` and the unread rest of `in`. At end of
file the first `fgetc` gives `numSymbols = -1`, from which `readHeader` never reaches 0
before `numSymbols - 1` overflows; a short `fread` leaves `numChars` uninitialised. -/
def decodeFile (input : List Nat) : Except Fault (List Nat × List Nat) :=
  match input with
  | [] => .error .intOverflow
  | first :: in1 =>
    let numSymbols := if first % 256 = 0 then 256 else first % 256
    match readHeader numSymbols in1 null with
    | .error e => .error e
    | .ok (root, in2) =>
      if in2.length < 8 then .error .uninitRead
      else decodeChars (in2.drop 8) (toInt32 (ulongOfBytes (in2.take 8))) root

/-! ## Vocabulary for the statements -/

/-- Trees in which every node has no child or two children (and which are not `NULL`). -/
inductive IsFull : SymbolNode → Prop
  | leaf (f s n : Nat) (c : Nat → Nat) : IsFull (node f s n c null null)
  | inner (f s n : Nat) (c : Nat → Nat) (l r : SymbolNode) :
      IsFull l → IsFull r → IsFull (node f s n c l r)

/-- Trees the tree builder makes: a leaf from `makeSymbol` or a node from `combineNodes`. -/
inductive Built : SymbolNode → Prop
  | leaf (f s : Nat) : Built (makeSymbol f s)
  | comb (l r : SymbolNode) : Built l → Built r → Built (combineNodes l r)

/-- The `(symbol, freq)` pairs on the leaves, left to right. -/
def leafPairs : SymbolNode → List (Nat × Nat)
  | null => []
  | node f s _ _ null null => [(s, f)]
  | node _ _ _ _ l r => leafPairs l ++ leafPairs r

/-- The node reached from the root by a path (`false` = left, `true` = right); `null` when
the path leaves the tree. -/
def nodeAt : SymbolNode → List Bool → SymbolNode
  | t, [] => t
  | null, _ :: _ => null
  | node _ _ _ _ l r, b :: p => nodeAt (if b then r else l) p

/-- The first `length` entries of the `code` array of a node. -/
def codeBits (t : SymbolNode) : List Nat :=
  (List.range t.length).map t.code

/-- The table entries that are present: the indices `i < 256` with `freq[i] != 0`,
ascending. -/
def present (freq : Nat → Nat) : List Nat :=
  (List.range 256).filter (fun i => freq i ≠ 0)

/-- What `fillCodes` leaves in a subtree whose root is reached by the path `path`: every
node gets the length of its path and the path as the front of its code array. -/
def setCodes : List Nat → SymbolNode → SymbolNode
  | _, null => null
  | path, node f s _ c l r =>
    node f s path.length (fun k => path.getD k (c k))
      (setCodes (path ++ [0]) l) (setCodes (path ++ [1]) r)

/-- What `fillCodes(root, 0, -1, root->code)` leaves: the root keeps its fields, the nodes
below get their paths. -/
def fillFromRoot : SymbolNode → SymbolNode
  | null => null
  | node f s n c l r => node f s n c (setCodes [0] l) (setCodes [1] r)

/-- The frequency table of the input `"aaabbc"`: `a` 3 times, `b` twice, `c` once. -/
def sampleFreq : Nat → Nat :=
  fun i => if i = 97 then 3 else if i = 98 then 2 else if i = 99 then 1 else 0

/-- Value of a bit sequence read as a binary number, first bit most significant. -/
def bitsValue (bits : List Nat) : Nat :=
  bits.foldl (fun acc b => 2 * acc + b) 0

/-- Byte `i` of a bit sequence packed most-significant-bit-first: the bits `8i .. 8i+7`,
with zeros in the low-order positions where the sequence has ended. -/
def packedByte (bits : List Nat) (i : Nat) : Nat :=
  bitsValue ((bits.drop (8 * i)).take 8) * 2 ^ (8 - ((bits.drop (8 * i)).take 8).length)

/-- A bit sequence packed most-significant-bit-first into `ceil(n/8)` bytes, the last one
zero-padded in its low-order bits. -/
def packBits (bits : List Nat) : List Nat :=
  (List.range ((bits.length + 7) / 8)).map (packedByte bits)

/-- A small code table: `a` has the code `0`, `b` the code `1`, nothing else is present. -/
def sampleCodes : Nat → SymbolNode :=
  fun i =>
    if i = 97 then node 1 97 1 (fun _ => 0) null null
    else if i = 98 then node 1 98 1 (fun k => if k = 0 then 1 else 0) null null
    else null

/-- The indices of the entries of a code table that are present (`codes[i] != NULL`),
ascending. -/
def presentEntries (codes : Nat → SymbolNode) : List Nat :=
  (List.range 256).filter (fun i => !(codes i).isNull)

/-- The header layout of the specification for a code table, as a property of a byte
sequence: one byte with the number of present symbols (0 when that number is 256); for
each present symbol in ascending order the symbol byte, one byte with its code length and
the `ceil(length/8)` bytes of its code bits packed most-significant-bit-first with the
unused low-order bits zero; then an 8-byte field that holds the sum of the frequencies of
the present symbols. -/
def HeaderLayout (codes : Nat → SymbolNode) (bytes : List Nat) : Prop :=
  ∃ field : List Nat,
    bytes = (if (presentEntries codes).length = 256 then 0 else (presentEntries codes).length)
        :: ((presentEntries codes).flatMap
              (fun i => i :: (codes i).length :: packBits (codeBits (codes i))) ++ field) ∧
    (∀ b ∈ bytes, b < 256) ∧
    field.length = 8 ∧
    ulongOfBytes field = ((presentEntries codes).map (fun i => (codes i).freq)).sum

/-- A code table with one entry, `a` with the one-bit code `1`, whose code array holds 1
in every position. -/
def strayBitCodes : Nat → SymbolNode :=
  fun i => if i = 97 then node 1 97 1 (fun _ => 1) null null else null

/-- A code table with one entry whose code has length 256. -/
def longCodes : Nat → SymbolNode :=
  fun i => if i = 97 then node 1 97 256 (fun _ => 0) null null else null

/-- A code table with two entries whose frequencies sum to `2^64`. -/
def heavyCodes : Nat → SymbolNode :=
  fun i =>
    if i = 97 then node (2 ^ 63) 97 1 (fun _ => 0) null null
    else if i = 98 then node (2 ^ 63) 98 1 (fun k => if k = 0 then 1 else 0) null null
    else null

/-- A present code-table entry as the tree builder leaves it: a code of at most 255 bits,
bits in the first `length` positions of the code array, and zeros from there to the end
of the last code byte. -/
def EntryWellFormed (t : SymbolNode) : Prop :=
  t.length ≤ 255 ∧ (∀ k, k < t.length → t.code k ≤ 1) ∧
    (∀ k, t.length ≤ k → k < 8 * ((t.length + 7) / 8) → t.code k = 0)

/-- Encoding a file and decoding the result: `huffencode` followed by `huffdecode`. -/
def roundTrip (mem : Nat → Nat) (input : List Nat) : Except Fault (List Nat × List Nat) :=
  match encodeFile mem input with
  | .error e => .error e
  | .ok bytes => decodeFile bytes

/-- Results of runs can be compared by evaluation. -/
instance instDecidableEqExceptFault {α : Type} [DecidableEq α] :
    DecidableEq (Except Fault α)
  | .ok a, .ok b =>
    if h : a = b then isTrue (by rw [h]) else isFalse (by intro h2; cases h2; exact h rfl)
  | .error a, .error b =>
    if h : a = b then isTrue (by rw [h]) else isFalse (by intro h2; cases h2; exact h rfl)
  | .ok _, .error _ => isFalse (by intro h; cases h)
  | .error _, .ok _ => isFalse (by intro h; cases h)

/-! ## Auxiliary definitions for the proofs about the bit accumulators -/

/-- The bit accumulator of `writeSymbols` (bytes written, `currByte`, `byteLength`) after
one more bit: flush when the byte is full, then shift the bit in. -/
def pushBit (p : List Nat × Nat × Nat) (b : Nat) : List Nat × Nat × Nat :=
  if p.2.2 = 0 then (p.1 ++ [p.2.1], ((0 <<< 1) % 256) ||| b, 7)
  else (p.1, ((p.2.1 <<< 1) % 256) ||| b, p.2.2 - 1)

/-- The entries `code[i], ..., code[i+k-1]`. -/
def codeSlice (code : Nat → Nat) (i k : Nat) : List Nat :=
  (List.range' i k).map code

/-- The flush at the head of a pass of `writeSymbols`. -/
def flushAcc (p : List Nat × Nat × Nat) : List Nat × Nat × Nat :=
  if p.2.2 = 0 then (p.1 ++ [p.2.1], 0, 8) else p

/-- The bytes written once the loop of `writeSymbols` is left with the accumulator `p`. -/
def finishAcc (p : List Nat × Nat × Nat) : List Nat :=
  if p.2.2 ≠ 0 ∧ p.2.2 ≠ 8 then p.1 ++ [(fun b => (b <<< 1) % 256)^[p.2.2] p.2.1] else p.1


/-! ## Code trees: the prefix codes the tree of `generateCodes` is compared with -/

/-- A binary tree with a symbol on every leaf: a prefix-free binary code for the symbols
on its leaves. -/
inductive CodeTree where
  | leaf (s : Nat) : CodeTree
  | node (l r : CodeTree) : CodeTree
deriving DecidableEq

namespace CodeTree

/-- The symbols on the leaves, left to right. -/
def leaves : CodeTree → List Nat
  | leaf s => [s]
  | node l r => leaves l ++ leaves r

/-- The weighted code length of a tree whose root sits at depth `d`: the sum over the
leaves of the weight of the symbol times the depth of the leaf. -/
def weightedLength (w : Nat → Nat) : Nat → CodeTree → Nat
  | d, leaf s => w s * d
  | d, node l r => weightedLength w (d + 1) l + weightedLength w (d + 1) r

/-- The sum of the weights of the leaves. -/
def weight (w : Nat → Nat) (t : CodeTree) : Nat :=
  ((leaves t).map w).sum

/-- The weighted code length, by recursion on the tree: every node adds the weights of
its two subtrees. -/
def cost (w : Nat → Nat) : CodeTree → Nat
  | leaf _ => 0
  | node l r => cost w l + weight w l + (cost w r + weight w r)

/-- The number of leaves that carry `x`. -/
def cnt (t : CodeTree) (x : Nat) : Nat :=
  (leaves t).count x

/-- The sum of the depths of the leaves that carry `x`. -/
def dsum : CodeTree → Nat → Nat
  | leaf _, _ => 0
  | node l r, x => dsum l x + cnt l x + (dsum r x + cnt r x)

/-- The depth of the deepest leaf. -/
def height : CodeTree → Nat
  | leaf _ => 0
  | node l r => max (height l) (height r) + 1

/-- Renaming of the symbols. -/
def map (f : Nat → Nat) : CodeTree → CodeTree
  | leaf s => leaf (f s)
  | node l r => node (map f l) (map f r)

/-- The tree has a node whose children are the leaves `c` (left) and `d` (right). -/
def Sib : CodeTree → Nat → Nat → Prop
  | leaf _, _, _ => False
  | node l r, c, d => (l = leaf c ∧ r = leaf d) ∨ Sib l c d ∨ Sib r c d

/-- Every node whose children are the leaves `a` and `b` is replaced by the leaf `a`. -/
def mergeSib (a b : Nat) : CodeTree → CodeTree
  | leaf s => leaf s
  | node l r =>
    if (l = leaf a ∧ r = leaf b) ∨ (l = leaf b ∧ r = leaf a) then leaf a
    else node (mergeSib a b l) (mergeSib a b r)

end CodeTree

/-! ## Weighted code length of the tree that is built -/

/-- The sum of the frequencies on the leaves. -/
def leafSum (t : SymbolNode) : Nat :=
  ((leafPairs t).map Prod.snd).sum

/-- The weighted path length of a tree whose root sits at depth `d`: the sum over the
leaves of the frequency of the leaf times its depth. -/
def weightedPath : Nat → SymbolNode → Nat
  | _, null => 0
  | d, node f _ _ _ null null => f * d
  | d, node _ _ _ _ l r => weightedPath (d + 1) l + weightedPath (d + 1) r

/-- The `(symbol, freq, length)` fields of the leaves, left to right. -/
def leafInfo : SymbolNode → List (Nat × Nat × Nat)
  | null => []
  | node f s n _ null null => [(s, f, n)]
  | node _ _ _ _ l r => leafInfo l ++ leafInfo r

/-- The weighted code length of a code table for a frequency table: the sum over the
present symbols of the frequency times the length of the assigned code. -/
def weightedCodeLength (freq : Nat → Nat) (codes : Nat → SymbolNode) : Nat :=
  ((present freq).map (fun i => freq i * (codes i).length)).sum

/-- A frequency table whose entries sum to more than `2^64`. -/
def overflowFreq : Nat → Nat :=
  fun i =>
    if i = 97 then 2 ^ 63 else if i = 98 then 2 ^ 63
    else if i = 99 then 2 ^ 63 + 1 else if i = 100 then 2 ^ 63 + 1 else 0

/-- The leaf a header entry describes: symbol `s` with the code `p` (`false` = 0 = left). -/
def codeLeaf (f s : Nat) (p : List Bool) : SymbolNode :=
  node f s p.length (fun k => (p.map Bool.toNat).getD k 0) null null

/-! ## Auxiliary definitions for the proofs about the decoder -/

/-- The low `n` bits of a byte, most significant first: what the decoder still has to read
of `currByte` when `byteLength = n`. -/
def lowBits (b : Nat) : Nat → List Nat
  | 0 => []
  | n + 1 => (b / 2 ^ n % 2) :: lowBits b n

/-- The tree `insertTree(root, leaf, 0)` returns for a leaf whose code is the path `p`:
missing nodes on the way are made fresh, the leaf replaces what was at the end. -/
def insertAt : SymbolNode → List Bool → SymbolNode → SymbolNode
  | _, [], leaf => leaf
  | root, false :: p, leaf => withLeft (orFresh root) (insertAt (orFresh root).left p leaf)
  | root, true :: p, leaf => withRight (orFresh root) (insertAt (orFresh root).right p leaf)

/-- The header entries `readHeader` expects for a list of (symbol, code) pairs. -/
def entryBytes (L : List (Nat × List Bool)) : List Nat :=
  L.flatMap (fun e => e.1 :: e.2.length :: packBits (e.2.map Bool.toNat))

/-- Neither path is a prefix of the other. -/
def Diverge (p q : List Bool) : Prop := ¬ p <+: q ∧ ¬ q <+: p

/-- The head of a pass of `decodeChars`: fetch a byte when `currByte` is used up. -/
def refill (s : DecodeState) : DecodeState :=
  if s.byteLength = 0 then
    { s with input := (fgetcByte s.input).2, currByte := (fgetcByte s.input).1, byteLength := 8 }
  else s

/-- The bit reader of `decodeChars` after one bit. -/
def advance (s : DecodeState) : DecodeState :=
  { refill s with byteLength := (refill s).byteLength - 1 }

/-- The bits `decodeChars` still has to read: the rest of `currByte`, then the bytes not
yet fetched. -/
def pendingBits (s : DecodeState) : List Nat :=
  lowBits s.currByte s.byteLength ++ s.input.flatMap (fun b => lowBits b 8)

/-- The sum of the code lengths of the symbols of a text. -/
def totalBits (path : Nat → List Bool) (S : List Nat) : Nat :=
  (S.map (fun b => (path b).length)).sum

/-! ## Vocabulary for the statements about the queue and the rebuilt tree -/

/-- A frequency table with one non-zero entry: the file `"a"`. -/
def singleFreq : Nat → Nat :=
  fun i => if i = 97 then 1 else 0

/-- The order of the priority queue: the key `(freq, smallestValue)` of `a` is less than or
equal to the key of `b`, compared lexicographically. -/
def keyLE (a b : SymbolNode) : Prop :=
  a.freq < b.freq ∨ (a.freq = b.freq ∧ smallestValue a ≤ smallestValue b)

/-- The key `(freq, smallestValue)` of `a` is strictly less than the key of `b`. -/
def keyLT (a b : SymbolNode) : Prop :=
  a.freq < b.freq ∨ (a.freq = b.freq ∧ smallestValue a < smallestValue b)

/-- The order of the queue can be decided. -/
instance instDecidableKeyLE (a b : SymbolNode) : Decidable (keyLE a b) :=
  inferInstanceAs
    (Decidable (a.freq < b.freq ∨ (a.freq = b.freq ∧ smallestValue a ≤ smallestValue b)))

/-- The strict order of the queue can be decided. -/
instance instDecidableKeyLT (a b : SymbolNode) : Decidable (keyLT a b) :=
  inferInstanceAs
    (Decidable (a.freq < b.freq ∨ (a.freq = b.freq ∧ smallestValue a < smallestValue b)))

/-- A queue of four leaves sorted by key, with two equal keys. -/
def sampleQueue : List SymbolNode :=
  [makeSymbol 1 99, makeSymbol 2 98, node 2 98 1 (fun _ => 1) null null, makeSymbol 3 97]

/-- Two trees have the same shape and the same symbol on every leaf: the same paths lead to
a node in both, and where one has a leaf the other carries the same symbol. -/
def SameShape (t u : SymbolNode) : Prop :=
  ∀ p : List Bool, (nodeAt t p = null ↔ nodeAt u p = null) ∧
    (isLeaf (nodeAt t p) = true → (nodeAt u p).symbol = (nodeAt t p).symbol)

/-- The calls `root = insertTree(root, leaf, 0)` for a list of (symbol, code) pairs in
turn, the leaf of a pair being the node `readHeader` makes for it. -/
def insertEntries : List (Nat × List Bool) → SymbolNode → Except Fault SymbolNode
  | [], root => .ok root
  | e :: L, root =>
    match insertTree root (codeLeaf 0 e.1 e.2) 0 with
    | .error err => .error err
    | .ok root1 => insertEntries L root1

/-- The code of a table entry as a path: entry 0 is a left step, anything else a right
step. -/
def pathOf (t : SymbolNode) : List Bool :=
  (codeBits t).map (fun b => decide (b ≠ 0))

/-- A code table in which all 256 byte values are present: byte `i` has the eight bits of
`i` as its code. -/
def byteCodes : Nat → SymbolNode :=
  fun i => codeLeaf 1 i ((lowBits i 8).map (fun b => decide (b ≠ 0)))

/-! ## Vocabulary for the statements about the walk of the decoder -/

/-- The node `t` is an inner node of the tree `root`: it is reached from the root, is not
`NULL` and is not a leaf. -/
def InnerNode (root t : SymbolNode) : Prop :=
  ∃ p : List Bool, nodeAt root p = t ∧ t ≠ null ∧ isLeaf t = false

/-- The frequency table of the input `"aaabc"`: `a` 3 times, `b` and `c` once. -/
def skewFreq : Nat → Nat :=
  fun i => if i = 97 then 3 else if i = 98 then 1 else if i = 99 then 1 else 0

/-! ## Basic facts about trees -/

theorem isFull_exists_node {t : SymbolNode} (h : IsFull t) :
    ∃ f s n c l r, t = node f s n c l r := by
  cases h
  · exact ⟨_, _, _, _, _, _, rfl⟩
  · exact ⟨_, _, _, _, _, _, rfl⟩

theorem isFull_ne_null {t : SymbolNode} (h : IsFull t) : t ≠ null := by
  cases h <;> simp

theorem built_isFull {t : SymbolNode} (h : Built t) : IsFull t := by
  induction h with
  | leaf f s => exact IsFull.leaf _ _ _ _
  | comb l r _ _ ihl ihr => exact IsFull.inner _ _ _ _ l r ihl ihr

theorem built_length {t : SymbolNode} (h : Built t) : t.length = 0 := by
  cases h <;> rfl

theorem leafPairs_inner (f s n : Nat) (c : Nat → Nat) {l : SymbolNode} (r : SymbolNode)
    (hl : IsFull l) : leafPairs (node f s n c l r) = leafPairs l ++ leafPairs r := by
  obtain ⟨f1, s1, n1, c1, l1, r1, rfl⟩ := isFull_exists_node hl
  simp [leafPairs]

theorem leafPairs_ne_nil {t : SymbolNode} (h : IsFull t) : leafPairs t ≠ [] := by
  induction h with
  | leaf f s n c => simp [leafPairs]
  | inner f s n c l r hl hr ihl ihr =>
    rw [leafPairs_inner f s n c r hl]
    simp [ihl]

theorem leafPairs_makeSymbol (f s : Nat) : leafPairs (makeSymbol f s) = [(s, f)] := rfl

theorem leafPairs_combineNodes {l : SymbolNode} (r : SymbolNode) (hl : IsFull l) :
    leafPairs (combineNodes l r) = leafPairs l ++ leafPairs r :=
  leafPairs_inner _ _ _ _ r hl

theorem isLeaf_inner (f s n : Nat) (c : Nat → Nat) {l : SymbolNode} (r : SymbolNode)
    (hl : IsFull l) : isLeaf (node f s n c l r) = false := by
  obtain ⟨f1, s1, n1, c1, l1, r1, rfl⟩ := isFull_exists_node hl
  rfl

/-- A full tree is no higher than it has leaves. -/
theorem height_le_leaves {t : SymbolNode} (h : IsFull t) : height t ≤ (leafPairs t).length := by
  induction h with
  | leaf f s n c => simp [height, leafPairs]
  | inner f s n c l r hl hr ihl ihr =>
    rw [leafPairs_inner f s n c r hl]
    have h1 := List.length_pos.mpr (leafPairs_ne_nil hl)
    have h2 := List.length_pos.mpr (leafPairs_ne_nil hr)
    simp only [height, List.length_append]
    omega

/-! ## The priority queue and `buildTree` -/

theorem insertPriority_perm (q : List SymbolNode) (t : SymbolNode) :
    (insertPriority q t).Perm (t :: q) := by
  induction q with
  | nil => simp [insertPriority]
  | cons h q ih =>
    simp only [insertPriority]
    split_ifs
    · exact List.Perm.refl _
    · exact ((List.Perm.cons h ih).trans (List.Perm.swap t h q))
    · exact List.Perm.refl _
    · exact ((List.Perm.cons h ih).trans (List.Perm.swap t h q))

theorem insertPriority_length (q : List SymbolNode) (t : SymbolNode) :
    (insertPriority q t).length = q.length + 1 := by
  simpa using (insertPriority_perm q t).length_eq

theorem queueUpTo_mem (freq : Nat → Nat) (k : Nat) (t : SymbolNode)
    (h : t ∈ queueUpTo freq k) : ∃ i, i < k ∧ freq i ≠ 0 ∧ t = makeSymbol (freq i) i := by
  induction k with
  | zero => simp [queueUpTo] at h
  | succ k ih =>
    simp only [queueUpTo] at h
    by_cases hf : freq k = 0
    · rw [if_neg (by simpa using hf)] at h
      rcases ih h with ⟨i, hi, h1, h2⟩
      exact ⟨i, by omega, h1, h2⟩
    · rw [if_pos hf, (insertPriority_perm _ _).mem_iff] at h
      rcases List.mem_cons.mp h with h | h
      · exact ⟨k, by omega, hf, h⟩
      · rcases ih h with ⟨i, hi, h1, h2⟩
        exact ⟨i, by omega, h1, h2⟩

theorem queueUpTo_leafPairs (freq : Nat → Nat) (k : Nat) :
    ((queueUpTo freq k).flatMap leafPairs).Perm
      (((List.range k).filter (fun i => freq i ≠ 0)).map (fun i => (i, freq i))) := by
  induction k with
  | zero => simp [queueUpTo]
  | succ k ih =>
    rw [List.range_succ, List.filter_append, List.map_append]
    simp only [queueUpTo]
    by_cases hf : freq k = 0
    · rw [if_neg (by simpa using hf)]
      have h0 : List.filter (fun i => decide (freq i ≠ 0)) [k] = [] := by simp [hf]
      rw [h0]
      simpa using ih
    · rw [if_pos hf]
      have h0 : List.filter (fun i => decide (freq i ≠ 0)) [k] = [k] := by simp [hf]
      rw [h0]
      have h1 := (insertPriority_perm (queueUpTo freq k) (makeSymbol (freq k) k)).flatMap_right
        leafPairs
      refine h1.trans ?_
      simp only [List.flatMap_cons, leafPairs_makeSymbol, List.map_cons, List.map_nil]
      refine (List.perm_append_comm).trans ?_
      exact List.Perm.append ih (List.Perm.refl _)

theorem queueUpTo_length_le (freq : Nat → Nat) (k : Nat) : (queueUpTo freq k).length ≤ k := by
  induction k with
  | zero => simp [queueUpTo]
  | succ k ih =>
    simp only [queueUpTo]
    by_cases hf : freq k = 0
    · rw [if_neg (by simpa using hf)]; omega
    · rw [if_pos hf, insertPriority_length]; omega

theorem queueUpTo_ne_nil (freq : Nat → Nat) (k : Nat) (h : ∃ i, i < k ∧ freq i ≠ 0) :
    queueUpTo freq k ≠ [] := by
  intro hq
  have hp := queueUpTo_leafPairs freq k
  rw [hq] at hp
  rcases h with ⟨i, hi, hf⟩
  have hmem : (i, freq i) ∈
      ((List.range k).filter (fun i => freq i ≠ 0)).map (fun i => (i, freq i)) := by
    simp only [List.mem_map, List.mem_filter, List.mem_range]
    exact ⟨i, ⟨hi, by simpa using hf⟩, rfl⟩
  have := hp.symm.subset hmem
  simp at this

/-- The loop of `buildTree` ends with a tree made of all the trees of the queue. -/
theorem buildTreeLoop_built (fuel : Nat) (q : List SymbolNode) (hne : q ≠ [])
    (hq : ∀ t ∈ q, Built t) (hfuel : q.length ≤ fuel + 1) :
    ∃ t, buildTreeLoop fuel q = .ok t ∧ Built t ∧
      (leafPairs t).Perm (q.flatMap leafPairs) := by
  induction fuel generalizing q with
  | zero =>
    match q, hne, hfuel with
    | [t], _, _ => exact ⟨t, rfl, hq t (by simp), by simp⟩
    | _ :: _ :: _, _, h => simp at h
  | succ fuel ih =>
    match q, hne, hfuel with
    | [t], _, _ => exact ⟨t, rfl, hq t (by simp), by simp⟩
    | a :: b :: rest, _, hlen =>
      have ha : Built a := hq a (by simp)
      have hb : Built b := hq b (by simp)
      have hperm := insertPriority_perm rest (combineNodes a b)
      have hq2 : ∀ t ∈ insertPriority rest (combineNodes a b), Built t := by
        intro t ht
        rcases List.mem_cons.mp (hperm.subset ht) with h | h
        · rw [h]; exact Built.comb a b ha hb
        · exact hq t (by simp [h])
      have hne2 : insertPriority rest (combineNodes a b) ≠ [] := by
        intro h0
        have := insertPriority_length rest (combineNodes a b)
        rw [h0] at this
        simp at this
      have hlen2 : (insertPriority rest (combineNodes a b)).length ≤ fuel + 1 := by
        rw [insertPriority_length]
        simp at hlen
        omega
      rcases ih _ hne2 hq2 hlen2 with ⟨t, h1, h2, h3⟩
      refine ⟨t, ?_, h2, ?_⟩
      · simpa [buildTreeLoop, popPriority] using h1
      · refine h3.trans ?_
        refine (hperm.flatMap_right leafPairs).trans ?_
        simp only [List.flatMap_cons, leafPairs_combineNodes b (built_isFull ha)]
        simp

theorem buildTree_built (q : List SymbolNode) (hne : q ≠ []) (hq : ∀ t ∈ q, Built t) :
    ∃ t, buildTree q = .ok t ∧ Built t ∧ (leafPairs t).Perm (q.flatMap leafPairs) :=
  buildTreeLoop_built q.length q hne hq (by omega)

/-! ## `fillCodes` -/

theorem copyCode_apply (prev c : Nat → Nat) (d k : Nat) :
    copyCode prev d c k = if k < d then prev k else c k := by
  induction d with
  | zero => simp [copyCode]
  | succ d ih =>
    simp only [copyCode, Function.update_apply, ih]
    by_cases h1 : k = d
    · subst h1; simp
    · by_cases h2 : k < d
      · have : k < d + 1 := by omega
        simp [h1, h2, this]
      · have : ¬ k < d + 1 := by omega
        simp [h1, h2, this]

theorem height_pos_of_node (f s n : Nat) (c : Nat → Nat) (l r : SymbolNode) :
    height (node f s n c l r) = max (height l) (height r) + 1 := rfl

/-- Below the root `fillCodes` does not fault as long as the tree fits into 256 levels, and
it writes the paths. -/
theorem fillCodes_setCodes (t : SymbolNode) :
    ∀ (dir : Nat) (path : List Nat) (prev : Nat → Nat),
      (∀ k, k < path.length → prev k = path.getD k 0) →
      (t ≠ null → path.length + height t ≤ 256) →
      fillCodes t dir (path.length : Int) prev = .ok (setCodes (path ++ [dir]) t) := by
  induction t with
  | null => intro dir path prev _ _; rfl
  | node f s n c l r ihl ihr =>
    intro dir path prev hprev hh
    have hh1 := hh (by simp)
    rw [height_pos_of_node] at hh1
    have hd : path.length < 256 := by omega
    have hc : Function.update (copyCode prev path.length c) path.length dir
        = fun k => (path ++ [dir]).getD k (c k) := by
      funext k
      rw [Function.update_apply, copyCode_apply]
      by_cases h1 : k = path.length
      · subst h1
        simp [List.getD_eq_getElem?_getD]
      · by_cases h2 : k < path.length
        · rw [if_neg h1, if_pos h2, hprev k h2]
          simp [List.getD_eq_getElem?_getD, List.getElem?_append_left h2, h2]
        · rw [if_neg h1, if_neg h2]
          have h3 : (path ++ [dir]).length ≤ k := by simp; omega
          simp [List.getD_eq_getElem?_getD, List.getElem?_eq_none h3]
    have hlen : ((path.length : Int) + 1) = (((path ++ [dir]).length : Nat) : Int) := by simp
    have hprev2 : ∀ k, k < (path ++ [dir]).length →
        (fun k => (path ++ [dir]).getD k (c k)) k = (path ++ [dir]).getD k 0 := by
      intro k hk
      simp only [List.getD_eq_getElem?_getD, List.getElem?_eq_getElem hk, Option.getD_some]
    have hl := ihl 0 (path ++ [dir]) (fun k => (path ++ [dir]).getD k (c k)) hprev2
      (by intro _; simp only [List.length_append, List.length_singleton]; omega)
    have hr := ihr 1 (path ++ [dir]) (fun k => (path ++ [dir]).getD k (c k)) hprev2
      (by intro _; simp only [List.length_append, List.length_singleton]; omega)
    have hne1 : ¬ ((path.length : Int) = -1) := by omega
    have hne2 : ¬ ((path.length : Int) < 0 ∨ (256 : Int) ≤ path.length) := by omega
    simp only [fillCodes, hne1, hne2, if_false, Int.toNat_ofNat, hc]
    rw [hlen, hl, hr]
    simp [setCodes]

/-- The call `fillCodes(root, 0, -1, root->code)` on a tree of at most 257 levels. -/
theorem fillCodes_root (t : SymbolNode) (hh : height t ≤ 257) :
    fillCodes t 0 (-1) t.code = .ok (fillFromRoot t) := by
  cases t with
  | null => rfl
  | node f s n c l r =>
    rw [height_pos_of_node] at hh
    have hl := fillCodes_setCodes l 0 [] c (by simp) (by intro _; simp; omega)
    have hr := fillCodes_setCodes r 1 [] c (by simp) (by intro _; simp; omega)
    simp only [List.length_nil, Nat.cast_zero, List.nil_append] at hl hr
    simp only [fillCodes, SymbolNode.code, if_true]
    have h0 : ((-1 : Int) + 1) = 0 := by norm_num
    rw [h0, hl, hr]
    rfl

theorem setCodes_length (path : List Nat) {t : SymbolNode} (h : t ≠ null) :
    (setCodes path t).length = path.length := by
  cases t with
  | null => exact absurd rfl h
  | node f s n c l r => rfl

theorem setCodes_codeBits (path : List Nat) {t : SymbolNode} (h : t ≠ null) :
    codeBits (setCodes path t) = path := by
  cases t with
  | null => exact absurd rfl h
  | node f s n c l r =>
    simp only [codeBits, setCodes, SymbolNode.length, SymbolNode.code]
    apply List.ext_getElem
    · simp
    · intro k h1 h2
      simp only [List.length_map, List.length_range] at h1
      simp [List.getD_eq_getElem?_getD, List.getElem?_eq_getElem h1]

theorem setCodes_eq_null (path : List Nat) (t : SymbolNode) :
    setCodes path t = null ↔ t = null := by
  cases t <;> simp [setCodes]

theorem setCodes_symbol (path : List Nat) (t : SymbolNode) :
    (setCodes path t).symbol = t.symbol := by
  cases t <;> rfl

theorem setCodes_freq (path : List Nat) (t : SymbolNode) :
    (setCodes path t).freq = t.freq := by
  cases t <;> rfl

theorem setCodes_isLeaf (path : List Nat) (t : SymbolNode) :
    isLeaf (setCodes path t) = isLeaf t := by
  cases t with
  | null => rfl
  | node f s n c l r => cases l <;> cases r <;> rfl

theorem setCodes_leafPairs (t : SymbolNode) :
    ∀ path : List Nat, leafPairs (setCodes path t) = leafPairs t := by
  induction t with
  | null => intro path; rfl
  | node f s n c l r ihl ihr =>
    intro path
    cases l with
    | null =>
      cases r with
      | null => rfl
      | node f2 s2 n2 c2 l2 r2 =>
        have := ihr (path ++ [1])
        simp only [setCodes] at this
        simp only [setCodes, leafPairs, this]
    | node f1 s1 n1 c1 l1 r1 =>
      have h1 := ihl (path ++ [0])
      have h2 := ihr (path ++ [1])
      simp only [setCodes] at h1
      simp only [setCodes, leafPairs, h1, h2]

theorem setCodes_isFull {t : SymbolNode} (h : IsFull t) :
    ∀ path : List Nat, IsFull (setCodes path t) := by
  induction h with
  | leaf f s n c => intro path; exact IsFull.leaf _ _ _ _
  | inner f s n c l r _ _ ihl ihr =>
    intro path
    exact IsFull.inner _ _ _ _ _ _ (ihl _) (ihr _)

theorem nodeAt_null (p : List Bool) : nodeAt null p = null := by
  cases p <;> rfl

theorem nodeAt_nil (t : SymbolNode) : nodeAt t [] = t := by
  cases t <;> rfl

theorem nodeAt_append (t : SymbolNode) (p q : List Bool) :
    nodeAt t (p ++ q) = nodeAt (nodeAt t p) q := by
  induction p generalizing t with
  | nil => simp [nodeAt_nil]
  | cons b p ih =>
    cases t with
    | null => simp [nodeAt, nodeAt_null]
    | node f s n c l r => simp [nodeAt, ih]

theorem nodeAt_setCodes (p : List Bool) :
    ∀ (t : SymbolNode) (path : List Nat),
      nodeAt (setCodes path t) p = setCodes (path ++ p.map Bool.toNat) (nodeAt t p) := by
  induction p with
  | nil => intro t path; simp [nodeAt_nil]
  | cons b p ih =>
    intro t path
    cases t with
    | null => simp [nodeAt, setCodes]
    | node f s n c l r =>
      cases b
      · simp [nodeAt, setCodes, ih]
      · simp [nodeAt, setCodes, ih]

theorem nodeAt_fillFromRoot_cons (t : SymbolNode) (b : Bool) (p : List Bool) :
    nodeAt (fillFromRoot t) (b :: p)
      = setCodes (b.toNat :: p.map Bool.toNat) (nodeAt t (b :: p)) := by
  cases t with
  | null => simp [fillFromRoot, nodeAt, setCodes]
  | node f s n c l r =>
    cases b
    · simp [fillFromRoot, nodeAt, nodeAt_setCodes]
    · simp [fillFromRoot, nodeAt, nodeAt_setCodes]

theorem fillFromRoot_eq_null (t : SymbolNode) : fillFromRoot t = null ↔ t = null := by
  cases t <;> simp [fillFromRoot]

theorem nodeAt_fillFromRoot_eq_null (t : SymbolNode) (p : List Bool) :
    nodeAt (fillFromRoot t) p = null ↔ nodeAt t p = null := by
  cases p with
  | nil => simp [nodeAt_nil, fillFromRoot_eq_null]
  | cons b p => rw [nodeAt_fillFromRoot_cons, setCodes_eq_null]

theorem nodeAt_fillFromRoot_symbol (t : SymbolNode) (p : List Bool) :
    (nodeAt (fillFromRoot t) p).symbol = (nodeAt t p).symbol := by
  cases p with
  | nil => cases t <;> rfl
  | cons b p => rw [nodeAt_fillFromRoot_cons, setCodes_symbol]

theorem nodeAt_fillFromRoot_freq (t : SymbolNode) (p : List Bool) :
    (nodeAt (fillFromRoot t) p).freq = (nodeAt t p).freq := by
  cases p with
  | nil => cases t <;> rfl
  | cons b p => rw [nodeAt_fillFromRoot_cons, setCodes_freq]

/-- In the tree `fillCodes` leaves, a node reached by the path `p` has length `|p|` and the
path as its code, provided the root had length 0. -/
theorem nodeAt_fillFromRoot_code (t : SymbolNode) (h0 : t.length = 0) (p : List Bool)
    (hp : nodeAt (fillFromRoot t) p ≠ null) :
    (nodeAt (fillFromRoot t) p).length = p.length ∧
      codeBits (nodeAt (fillFromRoot t) p) = p.map Bool.toNat := by
  cases p with
  | nil =>
    cases t with
    | null => simp [nodeAt_nil, fillFromRoot] at hp
    | node f s n c l r =>
      simp only [SymbolNode.length] at h0
      subst h0
      simp [nodeAt_nil, fillFromRoot, codeBits, SymbolNode.length]
  | cons b p =>
    rw [nodeAt_fillFromRoot_cons] at hp ⊢
    have hne : nodeAt t (b :: p) ≠ null := fun h => hp (by rw [h]; rfl)
    rw [setCodes_length _ hne, setCodes_codeBits _ hne]
    simp

theorem fillFromRoot_leafPairs (t : SymbolNode) : leafPairs (fillFromRoot t) = leafPairs t := by
  cases t with
  | null => rfl
  | node f s n c l r =>
    cases l with
    | null =>
      cases r with
      | null => rfl
      | node f2 s2 n2 c2 l2 r2 =>
        have := setCodes_leafPairs (node f2 s2 n2 c2 l2 r2) [1]
        simp only [setCodes] at this
        simp only [fillFromRoot, setCodes, leafPairs, this]
    | node f1 s1 n1 c1 l1 r1 =>
      have h1 := setCodes_leafPairs (node f1 s1 n1 c1 l1 r1) [0]
      have h2 := setCodes_leafPairs r [1]
      simp only [setCodes] at h1
      simp only [fillFromRoot, setCodes, leafPairs, h1, h2]

theorem fillFromRoot_isFull {t : SymbolNode} (h : IsFull t) : IsFull (fillFromRoot t) := by
  cases h with
  | leaf f s n c => exact IsFull.leaf _ _ _ _
  | inner f s n c l r hl hr =>
    exact IsFull.inner _ _ _ _ _ _ (setCodes_isFull hl _) (setCodes_isFull hr _)

/-! ## `findLeaf` and `generateCodes` -/

theorem findLeaf_inner (i f s n : Nat) (c : Nat → Nat) {l : SymbolNode} (r : SymbolNode)
    (hl : IsFull l) :
    findLeaf i (node f s n c l r)
      = if (findLeaf i l).isNull then findLeaf i r else findLeaf i l := by
  obtain ⟨f1, s1, n1, c1, l1, r1, rfl⟩ := isFull_exists_node hl
  simp only [findLeaf]
  cases h : findLeaf i (node f1 s1 n1 c1 l1 r1) <;> simp [findLeaf, h, SymbolNode.isNull]

theorem isNull_iff (t : SymbolNode) : t.isNull = true ↔ t = null := by
  cases t <;> simp [SymbolNode.isNull]

theorem nodeAt_inner_left (f s n : Nat) (c : Nat → Nat) (l r : SymbolNode) (p : List Bool) :
    nodeAt (node f s n c l r) (false :: p) = nodeAt l p := by
  simp [nodeAt]

theorem nodeAt_inner_right (f s n : Nat) (c : Nat → Nat) (l r : SymbolNode) (p : List Bool) :
    nodeAt (node f s n c l r) (true :: p) = nodeAt r p := by
  simp [nodeAt]

/-- What `findLeaf` finds in a full tree is a leaf of that tree with the symbol asked for. -/
theorem findLeaf_found {t : SymbolNode} (h : IsFull t) (i : Nat) (hf : findLeaf i t ≠ null) :
    isLeaf (findLeaf i t) = true ∧ (findLeaf i t).symbol = i ∧
      ((findLeaf i t).symbol, (findLeaf i t).freq) ∈ leafPairs t ∧
      ∃ p, nodeAt t p = findLeaf i t := by
  induction h with
  | leaf f s n c =>
    simp only [findLeaf] at hf ⊢
    by_cases hs : s = i
    · simp only [hs, if_true]
      exact ⟨rfl, rfl, by simp [leafPairs, SymbolNode.symbol, SymbolNode.freq], [], rfl⟩
    · simp [hs] at hf
  | inner f s n c l r hl hr ihl ihr =>
    rw [findLeaf_inner i f s n c r hl] at hf ⊢
    rw [leafPairs_inner f s n c r hl]
    by_cases h0 : findLeaf i l = null
    · rw [if_pos ((isNull_iff _).mpr h0)] at hf ⊢
      obtain ⟨h1, h2, h3, p, h4⟩ := ihr hf
      exact ⟨h1, h2, List.mem_append_right _ h3, true :: p, by rw [nodeAt_inner_right, h4]⟩
    · rw [if_neg (fun h => h0 ((isNull_iff _).mp h))] at hf ⊢
      obtain ⟨h1, h2, h3, p, h4⟩ := ihl hf
      exact ⟨h1, h2, List.mem_append_left _ h3, false :: p, by rw [nodeAt_inner_left, h4]⟩

theorem findLeaf_ne_null {t : SymbolNode} (h : IsFull t) (i f : Nat)
    (hi : (i, f) ∈ leafPairs t) : findLeaf i t ≠ null := by
  induction h with
  | leaf f1 s n c =>
    simp only [leafPairs, List.mem_singleton, Prod.mk.injEq] at hi
    simp [findLeaf, hi.1]
  | inner f1 s n c l r hl hr ihl ihr =>
    rw [leafPairs_inner f1 s n c r hl] at hi
    rw [findLeaf_inner i f1 s n c r hl]
    by_cases h0 : findLeaf i l = null
    · rw [if_pos ((isNull_iff _).mpr h0)]
      rcases List.mem_append.mp hi with h | h
      · exact absurd h0 (ihl h)
      · exact ihr h
    · rw [if_neg (fun h => h0 ((isNull_iff _).mp h))]; exact h0

theorem present_pairs_length (freq : Nat → Nat) :
    ((present freq).map (fun i => (i, freq i))).length ≤ 256 := by
  simp only [present, List.length_map]
  exact (List.length_filter_le _ _).trans (by simp)

/-- With a non-zero entry in the table, `generateCodes` returns: the tree of `buildTree`
with the codes filled in, and the table of its leaves. -/
theorem generateCodes_ok (freq : Nat → Nat) (h : ∃ i, i < 256 ∧ freq i ≠ 0) :
    ∃ t, Built t ∧ buildTree (queueUpTo freq 256) = .ok t ∧
      (leafPairs t).Perm ((present freq).map (fun i => (i, freq i))) ∧
      generateCodes freq = .ok
        (fun i => if i < 256 ∧ freq i ≠ 0 then findLeaf i (fillFromRoot t) else null,
         fillFromRoot t) := by
  have hq : ∀ t ∈ queueUpTo freq 256, Built t := by
    intro t ht
    obtain ⟨i, _, _, rfl⟩ := queueUpTo_mem freq 256 t ht
    exact Built.leaf _ _
  obtain ⟨t, h1, h2, h3⟩ := buildTree_built _ (queueUpTo_ne_nil freq 256 h) hq
  have h4 := h3.trans (queueUpTo_leafPairs freq 256)
  refine ⟨t, h2, h1, h4, ?_⟩
  have hh : height t ≤ 257 := by
    have := height_le_leaves (built_isFull h2)
    have := h4.length_eq
    have := present_pairs_length freq
    simp only [present] at *
    omega
  simp only [generateCodes, h1, fillCodes_root t hh]


theorem isLeaf_nodeAt_cons {t : SymbolNode} (h : isLeaf t = true) (b : Bool) (p : List Bool) :
    nodeAt t (b :: p) = null := by
  cases t with
  | null => rfl
  | node f s n c l r =>
    cases l with
    | null =>
      cases r with
      | null => cases b <;> simp [nodeAt, nodeAt_null]
      | node _ _ _ _ _ _ => simp [isLeaf] at h
    | node _ _ _ _ _ _ => simp [isLeaf] at h

theorem map_toNat_injective : Function.Injective (List.map Bool.toNat) := by
  apply List.map_injective_iff.mpr
  intro a b h
  cases a <;> cases b <;> simp_all

/-- C9. After `fillCodes` is run on the root (depth -1) of a tree built by `buildTree` from
a queue of up to 257 leaf nodes, the tree has the same nodes as before, and every node has
as its `length` its depth from the root (0 for the root) and as the first `length` entries
of its `code` array the path from the root to it, 0 for a left step and 1 for a right
step. -/
theorem fillCodes_paths (q : List SymbolNode) (hne : q ≠ [])
    (hleaf : ∀ t ∈ q, ∃ f s, t = makeSymbol f s) (hlen : q.length ≤ 257) :
    ∃ t t1, buildTree q = .ok t ∧ fillCodes t 0 (-1) t.code = .ok t1 ∧
      ∀ p : List Bool,
        (nodeAt t1 p = null ↔ nodeAt t p = null) ∧
        (nodeAt t1 p).symbol = (nodeAt t p).symbol ∧
        (nodeAt t1 p).freq = (nodeAt t p).freq ∧
        (nodeAt t1 p ≠ null →
          (nodeAt t1 p).length = p.length ∧ codeBits (nodeAt t1 p) = p.map Bool.toNat) := by
  have hq : ∀ t ∈ q, Built t := by
    intro t ht
    obtain ⟨f, s, rfl⟩ := hleaf t ht
    exact Built.leaf f s
  obtain ⟨t, h1, h2, h3⟩ := buildTree_built q hne hq
  have hcount : (q.flatMap leafPairs).length = q.length := by
    clear hne hlen hq h1 h3
    induction q with
    | nil => rfl
    | cons a q ih =>
      obtain ⟨f, s, rfl⟩ := hleaf (a) (by simp)
      simp only [List.flatMap_cons, List.length_append, leafPairs_makeSymbol, List.length_cons,
        List.length_nil]
      rw [ih (fun t ht => hleaf t (by simp [ht]))]
      omega
  have hh : height t ≤ 257 := by
    have := height_le_leaves (built_isFull h2)
    have := h3.length_eq
    omega
  refine ⟨t, fillFromRoot t, h1, fillCodes_root t hh, fun p => ⟨?_, ?_, ?_, ?_⟩⟩
  · exact nodeAt_fillFromRoot_eq_null t p
  · exact nodeAt_fillFromRoot_symbol t p
  · exact nodeAt_fillFromRoot_freq t p
  · exact nodeAt_fillFromRoot_code t (built_length h2) p

theorem fillCodes_paths_witness :
    ∃ t t1, buildTree [makeSymbol 1 97, makeSymbol 2 98] = .ok t ∧
      fillCodes t 0 (-1) t.code = .ok t1 ∧
      ∀ p : List Bool,
        (nodeAt t1 p = null ↔ nodeAt t p = null) ∧
        (nodeAt t1 p).symbol = (nodeAt t p).symbol ∧
        (nodeAt t1 p).freq = (nodeAt t p).freq ∧
        (nodeAt t1 p ≠ null →
          (nodeAt t1 p).length = p.length ∧ codeBits (nodeAt t1 p) = p.map Bool.toNat) :=
  fillCodes_paths [makeSymbol 1 97, makeSymbol 2 98] (by simp)
    (by
      intro t ht
      simp only [List.mem_cons, List.mem_singleton, List.not_mem_nil, or_false] at ht
      rcases ht with rfl | rfl
      · exact ⟨1, 97, rfl⟩
      · exact ⟨2, 98, rfl⟩)
    (by simp)

/-- C8. For every frequency table with a non-zero entry, `generateCodes` returns an array
whose entry `i` is present exactly when `freq[i] != 0`; a present entry is a leaf of the
returned tree with symbol `i` and frequency `freq[i]`; and the leaves of the tree are, up
to order, exactly the present symbols with their frequencies, each once. -/
theorem generateCodes_table (freq : Nat → Nat) (h : ∃ i, i < 256 ∧ freq i ≠ 0) :
    ∃ codes root, generateCodes freq = .ok (codes, root) ∧
      (∀ i, i < 256 →
        (codes i ≠ null ↔ freq i ≠ 0) ∧
        (codes i ≠ null →
          (∃ p, nodeAt root p = codes i) ∧ isLeaf (codes i) = true ∧
            (codes i).symbol = i ∧ (codes i).freq = freq i)) ∧
      (leafPairs root).Perm ((present freq).map (fun i => (i, freq i))) ∧
      ((present freq).map (fun i => (i, freq i))).Nodup := by
  obtain ⟨t, h1, _, h3, h4⟩ := generateCodes_ok freq h
  have hfull := fillFromRoot_isFull (built_isFull h1)
  have hperm : (leafPairs (fillFromRoot t)).Perm ((present freq).map (fun i => (i, freq i))) := by
    rw [fillFromRoot_leafPairs]; exact h3
  refine ⟨_, _, h4, ?_, hperm, ?_⟩
  · intro i hi
    by_cases hf : freq i = 0
    · simp [hi, hf]
    · have hmem : (i, freq i) ∈ leafPairs (fillFromRoot t) := by
        apply hperm.symm.subset
        simp only [present, List.mem_map, List.mem_filter, List.mem_range]
        exact ⟨i, ⟨hi, by simpa using hf⟩, rfl⟩
      have hne := findLeaf_ne_null hfull i (freq i) hmem
      simp only [hi, hf, ne_eq, not_false_eq_true, and_self, if_true, hne, true_implies,
        true_and, iff_true]
      obtain ⟨k1, k2, k3, k4⟩ := findLeaf_found hfull i hne
      refine ⟨k4, k1, k2, ?_⟩
      have := hperm.subset k3
      simp only [List.mem_map, Prod.mk.injEq] at this
      obtain ⟨j, _, hj1, hj2⟩ := this
      rw [← hj2, ← k2, ← hj1]
  · apply List.Nodup.map
    · intro a b hab
      simp only [Prod.mk.injEq] at hab
      exact hab.1
    · exact (List.nodup_range 256).filter _

theorem generateCodes_table_witness :
    (∃ i, i < 256 ∧ sampleFreq i ≠ 0) ∧ ∃ codes root,
      generateCodes sampleFreq = .ok (codes, root) ∧
      (∀ i, i < 256 →
        (codes i ≠ null ↔ sampleFreq i ≠ 0) ∧
        (codes i ≠ null →
          (∃ p, nodeAt root p = codes i) ∧ isLeaf (codes i) = true ∧
            (codes i).symbol = i ∧
            (codes i).freq = sampleFreq i)) ∧
      (leafPairs root).Perm
        ((present sampleFreq).map
          (fun i => (i, sampleFreq i))) ∧
      ((present sampleFreq).map
          (fun i => (i, sampleFreq i))).Nodup :=
  ⟨⟨97, by decide, by decide⟩, generateCodes_table sampleFreq ⟨97, by decide, by decide⟩⟩

/-- C4. For every frequency table with a non-zero entry, the code table `generateCodes`
returns is prefix-free: for two distinct present symbols `x` and `y`, the code of `x` (the
first `length` entries of its code array) is not a prefix of the code of `y`. -/
theorem generateCodes_prefix_free (freq : Nat → Nat) (h : ∃ i, i < 256 ∧ freq i ≠ 0) :
    ∃ codes root, generateCodes freq = .ok (codes, root) ∧
      ∀ x y, x < 256 → y < 256 → freq x ≠ 0 → freq y ≠ 0 → x ≠ y →
        ¬ (codeBits (codes x) <+: codeBits (codes y)) := by
  obtain ⟨t, h1, _, h3, h4⟩ := generateCodes_ok freq h
  have hfull := fillFromRoot_isFull (built_isFull h1)
  have hperm : (leafPairs (fillFromRoot t)).Perm ((present freq).map (fun i => (i, freq i))) := by
    rw [fillFromRoot_leafPairs]; exact h3
  refine ⟨_, _, h4, ?_⟩
  intro x y hx hy hfx hfy hxy hpre
  have key : ∀ i, i < 256 → freq i ≠ 0 →
      findLeaf i (fillFromRoot t) ≠ null ∧ isLeaf (findLeaf i (fillFromRoot t)) = true ∧
      (findLeaf i (fillFromRoot t)).symbol = i ∧
      ∃ p, nodeAt (fillFromRoot t) p = findLeaf i (fillFromRoot t) ∧
        codeBits (findLeaf i (fillFromRoot t)) = p.map Bool.toNat := by
    intro i hi hf
    have hmem : (i, freq i) ∈ leafPairs (fillFromRoot t) := by
      apply hperm.symm.subset
      simp only [present, List.mem_map, List.mem_filter, List.mem_range]
      exact ⟨i, ⟨hi, by simpa using hf⟩, rfl⟩
    have hne := findLeaf_ne_null hfull i (freq i) hmem
    obtain ⟨k1, k2, _, p, k4⟩ := findLeaf_found hfull i hne
    refine ⟨hne, k1, k2, p, k4, ?_⟩
    have := nodeAt_fillFromRoot_code t (built_length h1) p (by rw [k4]; exact hne)
    rw [k4] at this
    exact this.2
  simp only [hx, hy, hfx, hfy, ne_eq, not_false_eq_true, and_self, if_true] at hpre
  obtain ⟨_, lx, sx, px, hpx, cx⟩ := key x hx hfx
  obtain ⟨ny, _, sy, py, hpy, cy⟩ := key y hy hfy
  rw [cx, cy] at hpre
  obtain ⟨r, hr⟩ := hpre
  obtain ⟨p1, p2, hp, hm1, _⟩ := List.map_eq_append_iff.mp hr.symm
  have hp1 : p1 = px := map_toNat_injective hm1
  subst hp1
  cases p2 with
  | nil =>
    rw [List.append_nil] at hp
    subst hp
    rw [hpx] at hpy
    rw [hpy] at sx
    exact hxy (sx.symm.trans sy)
  | cons b p2 =>
    rw [hp, nodeAt_append, hpx, isLeaf_nodeAt_cons lx] at hpy
    exact ny hpy.symm

theorem generateCodes_prefix_free_witness :
    (∃ i, i < 256 ∧ sampleFreq i ≠ 0) ∧ ∃ codes root,
      generateCodes sampleFreq = .ok (codes, root) ∧
      ∀ x y, x < 256 → y < 256 →
        sampleFreq x ≠ 0 →
        sampleFreq y ≠ 0 → x ≠ y →
        ¬ (codeBits (codes x) <+: codeBits (codes y)) :=
  ⟨⟨97, by decide, by decide⟩, generateCodes_prefix_free sampleFreq ⟨97, by decide, by decide⟩⟩


/-! ## `writeSymbols` -/

theorem shift_or_bit (v b : Nat) (hv : v < 128) (hb : b ≤ 1) :
    ((v <<< 1) % 256) ||| b = 2 * v + b := by
  have h1 : v <<< 1 = 2 * v := by rw [Nat.shiftLeft_eq]; omega
  rw [h1, Nat.mod_eq_of_lt (by omega)]
  interval_cases b
  · simp
  · apply Nat.eq_of_testBit_eq
    intro i
    rw [Nat.testBit_or]
    cases i with
    | zero => simp [Nat.testBit_zero, Nat.add_mod]
    | succ i =>
      simp only [Nat.testBit_succ]
      have h2 : (2 * v + 1) / 2 = v := by omega
      have h3 : 2 * v / 2 = v := by omega
      rw [h2, h3]
      simp [Nat.testBit, Nat.shiftRight_eq_div_pow]

theorem iterate_shift (k v : Nat) (h : v * 2 ^ k < 256) :
    (fun b => (b <<< 1) % 256)^[k] v = v * 2 ^ k := by
  induction k generalizing v with
  | zero => simp
  | succ k ih =>
    rw [Function.iterate_succ_apply]
    have h1 : v <<< 1 = v * 2 := by simp [Nat.shiftLeft_eq]
    have h2 : v * 2 ^ (k + 1) = (v * 2) * 2 ^ k := by ring
    have h3 : v * 2 < 256 := by
      rw [h2] at h
      exact lt_of_le_of_lt (Nat.le_mul_of_pos_right _ (by positivity)) h
    rw [h1, Nat.mod_eq_of_lt h3, ih (v * 2) (by rw [← h2]; exact h), h2]


theorem foldl_value_lt (A : List Nat) (hA : ∀ b ∈ A, b ≤ 1) (v j : Nat) (hv : v < 2 ^ j) :
    A.foldl (fun acc b => 2 * acc + b) v < 2 ^ (j + A.length) := by
  induction A generalizing v j with
  | nil => simpa using hv
  | cons a A ih =>
    have ha := hA a (by simp)
    have h1 : 2 * v + a < 2 ^ (j + 1) := by rw [pow_succ]; omega
    have := ih (fun b hb => hA b (by simp [hb])) (2 * v + a) (j + 1) h1
    simp only [List.foldl_cons, List.length_cons]
    rw [show j + (A.length + 1) = j + 1 + A.length by omega]
    exact this

/-- Bits pushed into a byte that has room for them. -/
theorem foldl_pushBit_room (A : List Nat) (hA : ∀ b ∈ A, b ≤ 1) :
    ∀ (out : List Nat) (v bl : Nat), A.length ≤ bl → bl ≤ 8 → v < 2 ^ (8 - bl) →
      A.foldl pushBit (out, v, bl)
        = (out, A.foldl (fun acc b => 2 * acc + b) v, bl - A.length) := by
  induction A with
  | nil => intro out v bl _ _ _; simp
  | cons a A ih =>
    intro out v bl h1 h2 h3
    have ha := hA a (by simp)
    simp only [List.length_cons] at h1
    have hbl : bl ≠ 0 := by omega
    have hv : v < 128 := by
      have : 2 ^ (8 - bl) ≤ 2 ^ 7 := Nat.pow_le_pow_right (by omega) (by omega)
      omega
    have hstep : pushBit (out, v, bl) a = (out, 2 * v + a, bl - 1) := by
      simp [pushBit, hbl, shift_or_bit v a hv ha]
    have hv2 : 2 * v + a < 2 ^ (8 - (bl - 1)) := by
      have : 8 - (bl - 1) = (8 - bl) + 1 := by omega
      rw [this, pow_succ]; omega
    rw [List.foldl_cons, hstep, ih (fun b hb => hA b (by simp [hb])) out (2 * v + a) (bl - 1)
      (by omega) (by omega) hv2]
    simp only [List.foldl_cons, List.length_cons]
    congr 2
    omega

/-- Up to eight bits pushed at a byte boundary. -/
theorem foldl_pushBit_boundary (A : List Nat) (hA : ∀ b ∈ A, b ≤ 1) (hne : A ≠ [])
    (hlen : A.length ≤ 8) (p : List Nat × Nat × Nat) (hp : p.2.2 = 0 ∨ (p.2.1 = 0 ∧ p.2.2 = 8)) :
    A.foldl pushBit p = ((flushAcc p).1, bitsValue A, 8 - A.length) := by
  cases A with
  | nil => exact absurd rfl hne
  | cons a A =>
    have ha := hA a (by simp)
    have hfirst : pushBit p a = ((flushAcc p).1, a, 7) := by
      obtain ⟨out, v, bl⟩ := p
      rcases hp with h | ⟨h1, h2⟩
      · simp only at h; subst h
        simp [pushBit, flushAcc]
      · simp only at h1 h2; subst h1; subst h2
        simp [pushBit, flushAcc]
    simp only [List.length_cons] at hlen
    rw [List.foldl_cons, hfirst, foldl_pushBit_room A (fun b hb => hA b (by simp [hb])) _ a 7
      (by omega) (by omega) (by simp; omega)]
    simp only [bitsValue, List.foldl_cons, List.length_cons, Nat.mul_zero, Nat.zero_add]
    congr 2
    omega

theorem bitsValue_lt (A : List Nat) (hA : ∀ b ∈ A, b ≤ 1) : bitsValue A < 2 ^ A.length := by
  have := foldl_value_lt A hA 0 0 (by simp)
  simpa [bitsValue] using this

theorem packBits_nil : packBits [] = [] := by
  simp [packBits]

theorem packBits_short (B : List Nat) (hne : B ≠ []) (hlen : B.length ≤ 8) :
    packBits B = [bitsValue B * 2 ^ (8 - B.length)] := by
  have hpos : 0 < B.length := List.length_pos.mpr hne
  have h1 : (B.length + 7) / 8 = 1 := by omega
  rw [packBits, h1]
  simp [List.range_succ, packedByte, List.take_of_length_le hlen]

theorem packBits_append (A C : List Nat) (hA : A.length = 8) :
    packBits (A ++ C) = bitsValue A :: packBits C := by
  have h1 : ((A ++ C).length + 7) / 8 = (C.length + 7) / 8 + 1 := by
    simp only [List.length_append, hA]; omega
  simp only [packBits, h1, List.range_succ_eq_map, List.map_cons, List.map_map]
  congr 1
  · simp [packedByte, List.take_append_of_le_length (le_of_eq hA.symm), ← hA]
  · apply List.map_congr_left
    intro i _
    simp only [Function.comp, packedByte]
    have : 8 * (i + 1) = A.length + 8 * i := by omega
    rw [this, List.drop_append]

/-- The accumulator of `writeSymbols`, started at a byte boundary and finished as after the
loop, has written the packed bits. -/
theorem finishAcc_foldl (n : Nat) :
    ∀ (B : List Nat), B.length ≤ n → (∀ b ∈ B, b ≤ 1) →
      ∀ p : List Nat × Nat × Nat, (p.2.2 = 0 ∨ (p.2.1 = 0 ∧ p.2.2 = 8)) →
        finishAcc (flushAcc (B.foldl pushBit p)) = (flushAcc p).1 ++ packBits B := by
  induction n with
  | zero =>
    intro B hB _ p hp
    have : B = [] := List.length_eq_zero.mp (by omega)
    subst this
    obtain ⟨out, v, bl⟩ := p
    rcases hp with h | ⟨h1, h2⟩
    · simp only at h; subst h
      simp [flushAcc, finishAcc, packBits_nil]
    · simp only at h1 h2; subst h1; subst h2
      simp [flushAcc, finishAcc, packBits_nil]
  | succ n ih =>
    intro B hB hbits p hp
    by_cases hnil : B = []
    · exact ih B (by simp [hnil]) hbits p hp
    by_cases hshort : B.length < 8
    · rw [foldl_pushBit_boundary B hbits hnil (by omega) p hp, packBits_short B hnil (by omega)]
      have hpos : 0 < B.length := List.length_pos.mpr hnil
      have hlt := bitsValue_lt B hbits
      have hb1 : 8 - B.length ≠ 0 := by omega
      have hb2 : 8 - B.length ≠ 8 := by omega
      have hmul : bitsValue B * 2 ^ (8 - B.length) < 256 := by
        calc bitsValue B * 2 ^ (8 - B.length) < 2 ^ B.length * 2 ^ (8 - B.length) :=
              Nat.mul_lt_mul_of_pos_right hlt (by positivity)
          _ = 2 ^ 8 := by rw [← pow_add]; congr 1; omega
          _ = 256 := by norm_num
      simp [flushAcc, finishAcc, hb1, hb2, iterate_shift _ _ hmul]
    · have hsplit : B = B.take 8 ++ B.drop 8 := (List.take_append_drop 8 B).symm
      have hA : (B.take 8).length = 8 := by simp; omega
      have hbA : ∀ b ∈ B.take 8, b ≤ 1 := fun b hb => hbits b (List.mem_of_mem_take hb)
      have hbC : ∀ b ∈ B.drop 8, b ≤ 1 := fun b hb => hbits b (List.mem_of_mem_drop hb)
      have hAne : B.take 8 ≠ [] := by
        intro h0; rw [h0] at hA; simp at hA
      rw [hsplit, List.foldl_append,
        foldl_pushBit_boundary (B.take 8) hbA hAne (by omega) p hp, hA,
        packBits_append _ _ hA]
      have := ih (B.drop 8) (by simp; omega) hbC ((flushAcc p).1, bitsValue (B.take 8), 8 - 8)
        (Or.inl rfl)
      rw [this]
      simp [flushAcc]


theorem uint_sub (len k : Nat) (h1 : k ≤ len) (h2 : len ≤ 256) :
    (len + UINT - k) % UINT = len - k := by
  have : len + UINT - k = (len - k) + UINT := by omega
  rw [this, Nat.add_mod_right]
  apply Nat.mod_eq_of_lt
  simp only [UINT]; omega

theorem uint_pred (k : Nat) (h1 : 1 ≤ k) (h2 : k ≤ 256) : (k + UINT - 1) % UINT = k - 1 := by
  have : k + UINT - 1 = (k - 1) + UINT := by omega
  rw [this, Nat.add_mod_right]
  apply Nat.mod_eq_of_lt
  simp only [UINT]; omega

/-- A pass that places the next bit of the current code. -/
theorem writeSymbolsStep_place (codes : Nat → SymbolNode) (input out : List Nat)
    (total bl ccl cb : Nat) (flag : Bool) (f sy len : Nat) (code : Nat → Nat) (l r : SymbolNode)
    (h1 : 1 ≤ ccl) (h2 : ccl ≤ len) (h3 : len ≤ 256) :
    writeSymbolsStep codes ⟨input, out, total, bl, ccl, node f sy len code l r, cb, flag⟩
      = .ok (false,
          ⟨input, (pushBit (out, cb, bl) (code (len - ccl))).1, total,
            (pushBit (out, cb, bl) (code (len - ccl))).2.2, ccl - 1, node f sy len code l r,
            (pushBit (out, cb, bl) (code (len - ccl))).2.1, flag⟩) := by
  have hidx : ¬ 256 ≤ len - ccl := by omega
  have hccl : ccl ≠ 0 := by omega
  by_cases hb : bl = 0
  · subst hb
    simp [writeSymbolsStep, placeBit, pushBit, hccl, uint_sub len ccl h2 h3,
      uint_pred ccl h1 (by omega), hidx]
  · simp [writeSymbolsStep, placeBit, pushBit, hccl, uint_sub len ccl h2 h3,
      uint_pred ccl h1 (by omega), hidx, hb]

/-- The passes that place the last `k` bits of the current code. -/
theorem writeSymbolsLoop_place (codes : Nat → SymbolNode) (fuel : Nat) (input : List Nat)
    (total : Nat) (flag : Bool) (f sy len : Nat) (code : Nat → Nat) (l r : SymbolNode)
    (h3 : len ≤ 256) (k : Nat) :
    ∀ (out : List Nat) (cb bl : Nat), k ≤ len →
    writeSymbolsLoop codes (fuel + k) ⟨input, out, total, bl, k, node f sy len code l r, cb, flag⟩
      = writeSymbolsLoop codes fuel
          ⟨input, ((codeSlice code (len - k) k).foldl pushBit (out, cb, bl)).1, total,
            ((codeSlice code (len - k) k).foldl pushBit (out, cb, bl)).2.2, 0,
            node f sy len code l r,
            ((codeSlice code (len - k) k).foldl pushBit (out, cb, bl)).2.1, flag⟩ := by
  induction k with
  | zero => intro out cb bl _; simp [codeSlice]
  | succ k ih =>
    intro out cb bl hk
    have hstep := writeSymbolsStep_place codes input out total bl (k + 1) cb flag f sy len code
      l r (by omega) hk h3
    have hfuel : fuel + (k + 1) = (fuel + k) + 1 := by omega
    rw [hfuel, writeSymbolsLoop, hstep]
    simp only [Nat.add_sub_cancel]
    rw [ih _ _ _ (by omega)]
    have hs : codeSlice code (len - (k + 1)) (k + 1)
        = code (len - (k + 1)) :: codeSlice code (len - k) k := by
      simp only [codeSlice, List.range'_succ, List.map_cons]
      congr 3
      omega
    rw [hs, List.foldl_cons]


theorem ulong_pred (t : Nat) (h1 : 1 ≤ t) (h2 : t < ULONG) : (t + ULONG - 1) % ULONG = t - 1 := by
  have : t + ULONG - 1 = (t - 1) + ULONG := by omega
  rw [this, Nat.add_mod_right]
  exact Nat.mod_eq_of_lt (by omega)

theorem codeSlice_zero (t : SymbolNode) : codeSlice t.code 0 t.length = codeBits t := by
  simp [codeSlice, codeBits, List.range_eq_range']

/-- A pass that fetches the next input byte and places the first bit of its code. -/
theorem writeSymbolsStep_fetch (codes : Nat → SymbolNode) (c : Nat) (rest out : List Nat)
    (total bl cb : Nat) (cn : SymbolNode) (f sy len : Nat) (code : Nat → Nat) (l r : SymbolNode)
    (hc : c < 256) (hcodes : codes c = node f sy len code l r)
    (h1 : 1 ≤ len) (h3 : len ≤ 256) (ht1 : 1 ≤ total) (ht2 : total < ULONG) :
    writeSymbolsStep codes ⟨c :: rest, out, total, bl, 0, cn, cb, false⟩
      = .ok (false,
          ⟨rest, (pushBit (out, cb, bl) (code 0)).1, total - 1,
            (pushBit (out, cb, bl) (code 0)).2.2, len - 1, node f sy len code l r,
            (pushBit (out, cb, bl) (code 0)).2.1, decide (total - 1 = 0)⟩) := by
  have hidx : ¬ 256 ≤ len - len := by omega
  have hmod : c % 256 = c := Nat.mod_eq_of_lt hc
  by_cases hb : bl = 0
  · subst hb
    simp [writeSymbolsStep, placeBit, pushBit, fgetcByte, hmod, hcodes, uint_sub len len le_rfl h3,
      uint_pred len h1 h3, ulong_pred total ht1 ht2]
  · simp [writeSymbolsStep, placeBit, pushBit, fgetcByte, hmod, hcodes, uint_sub len len le_rfl h3,
      uint_pred len h1 h3, ulong_pred total ht1 ht2, hb]

/-- The passes that fetch one input byte and place all bits of its code. -/
theorem writeSymbolsLoop_symbol (codes : Nat → SymbolNode) (fuel c : Nat) (rest out : List Nat)
    (total bl cb : Nat) (cn : SymbolNode)
    (hc : c < 256) (hn : codes c ≠ null) (h1 : 1 ≤ (codes c).length)
    (h3 : (codes c).length ≤ 256) (ht1 : 1 ≤ total) (ht2 : total < ULONG) :
    writeSymbolsLoop codes (fuel + (codes c).length) ⟨c :: rest, out, total, bl, 0, cn, cb, false⟩
      = writeSymbolsLoop codes fuel
          ⟨rest, ((codeBits (codes c)).foldl pushBit (out, cb, bl)).1, total - 1,
            ((codeBits (codes c)).foldl pushBit (out, cb, bl)).2.2, 0, codes c,
            ((codeBits (codes c)).foldl pushBit (out, cb, bl)).2.1, decide (total - 1 = 0)⟩ := by
  cases hcodes : codes c with
  | null => exact absurd hcodes hn
  | node f sy len code l r =>
    rw [hcodes] at h1 h3
    simp only [SymbolNode.length] at h1 h3 ⊢
    have hstep := writeSymbolsStep_fetch codes c rest out total bl cb cn f sy len code l r hc
      hcodes h1 h3 ht1 ht2
    have hfuel : fuel + len = (fuel + (len - 1)) + 1 := by omega
    rw [hfuel, writeSymbolsLoop, hstep]
    simp only
    rw [writeSymbolsLoop_place codes fuel rest (total - 1) (decide (total - 1 = 0)) f sy len code
      l r h3 (len - 1) _ _ _ (by omega)]
    have hs : codeBits (node f sy len code l r) = code 0 :: codeSlice code (len - (len - 1)) (len - 1) := by
      rw [← codeSlice_zero]
      simp only [SymbolNode.code, SymbolNode.length, codeSlice]
      have : len = (len - 1) + 1 := by omega
      conv_lhs => rw [this, List.range'_succ]
      simp only [List.map_cons]
      congr 3
      omega
    rw [hs, List.foldl_cons]

/-- The break pass: the counter has reached 0 and the last code is complete. -/
theorem writeSymbolsStep_break (codes : Nat → SymbolNode) (out : List Nat)
    (total bl cb : Nat) (cn : SymbolNode) :
    writeSymbolsStep codes ⟨[], out, total, bl, 0, cn, cb, true⟩
      = .ok (true,
          ⟨[], (flushAcc (out, cb, bl)).1, (total + ULONG - 1) % ULONG,
            (flushAcc (out, cb, bl)).2.2, 0, cn, (flushAcc (out, cb, bl)).2.1, true⟩) := by
  by_cases hb : bl = 0
  · subst hb
    simp [writeSymbolsStep, flushAcc, fgetcByte]
  · simp [writeSymbolsStep, flushAcc, fgetcByte, hb]

/-- The whole loop of `writeSymbols` on an input whose bytes all have codes. -/
theorem writeSymbolsLoop_input (codes : Nat → SymbolNode) (fuel : Nat) (S : List Nat) :
    S ≠ [] → S.length < ULONG → (∀ b ∈ S, b < 256) →
    (∀ b ∈ S, codes b ≠ null ∧ 1 ≤ (codes b).length ∧ (codes b).length ≤ 256) →
    ∀ (out : List Nat) (bl cb : Nat) (cn : SymbolNode),
    ∃ s, writeSymbolsLoop codes (fuel + (S.flatMap (fun b => codeBits (codes b))).length + 1)
        ⟨S, out, S.length, bl, 0, cn, cb, false⟩ = .ok s ∧
      (s.out, s.currByte, s.byteLength)
        = flushAcc ((S.flatMap (fun b => codeBits (codes b))).foldl pushBit (out, cb, bl)) := by
  induction S with
  | nil => intro h; exact absurd rfl h
  | cons c S ih =>
    intro _ hlen hbyte hcode out bl cb cn
    obtain ⟨hn, h1, h3⟩ := hcode c (by simp)
    have hc := hbyte c (by simp)
    simp only [List.length_cons] at hlen
    have hbits : (codeBits (codes c)).length = (codes c).length := by simp [codeBits]
    simp only [List.flatMap_cons, List.length_append, hbits, List.foldl_append, List.length_cons]
    have hfuel : fuel + ((codes c).length + (S.flatMap (fun b => codeBits (codes b))).length) + 1
        = (fuel + (S.flatMap (fun b => codeBits (codes b))).length + 1) + (codes c).length := by
      omega
    rw [hfuel, writeSymbolsLoop_symbol codes _ c S out (S.length + 1) bl cb cn hc hn h1 h3
      (by omega) hlen]
    simp only [Nat.add_sub_cancel]
    by_cases hS : S = []
    · subst hS
      simp only [List.length_nil, decide_True, List.flatMap_nil, Nat.add_zero, List.foldl_nil]
      rw [writeSymbolsLoop, writeSymbolsStep_break]
      exact ⟨_, rfl, rfl⟩
    · have hl0 : ¬ S.length = 0 := fun h => hS (List.length_eq_zero.mp h)
      simp only [hl0, decide_False]
      exact ih hS (by omega) (fun b hb => hbyte b (by simp [hb])) (fun b hb => hcode b (by simp [hb]))
        _ _ _ _

theorem writeSymbolsLoop_mono (codes : Nat → SymbolNode) (d fuel : Nat) :
    ∀ (s r : WriteState), writeSymbolsLoop codes fuel s = .ok r →
      writeSymbolsLoop codes (fuel + d) s = .ok r := by
  induction fuel with
  | zero => intro s r h; simp [writeSymbolsLoop] at h
  | succ fuel ih =>
    intro s r h
    rw [show fuel + 1 + d = (fuel + d) + 1 by omega]
    rw [writeSymbolsLoop] at h ⊢
    cases hstep : writeSymbolsStep codes s with
    | error e => rw [hstep] at h; simp at h
    | ok res =>
      obtain ⟨b, s1⟩ := res
      rw [hstep] at h
      cases b with
      | true => simpa using h
      | false =>
        simp only at h ⊢
        exact ih s1 r h

theorem flatMap_codeBits_length_le (codes : Nat → SymbolNode) (S : List Nat)
    (hcode : ∀ b ∈ S, (codes b).length ≤ 256) :
    (S.flatMap (fun b => codeBits (codes b))).length ≤ 256 * S.length := by
  induction S with
  | nil => simp
  | cons c S ih =>
    have h1 := hcode c (by simp)
    have h2 := ih (fun b hb => hcode b (by simp [hb]))
    simp only [List.flatMap_cons, List.length_append, List.length_cons, codeBits, List.length_map,
      List.length_range]
    simp only [codeBits, List.length_map, List.length_range] at h2
    omega


/-! ## Claim C6 -/

/-- C6. For every input `S` of `n >= 1` bytes whose every byte has a code-table entry of
length at least 1 (a code of at most 256 entries, each of them a bit), `writeSymbols`
called with `totalSymbols = n` writes exactly the concatenation, in input order, of the
code bits of the bytes of `S`, packed most-significant-bit-first with the last byte
zero-padded in its low-order bits: `ceil(totalBits/8)` bytes, hence no extra byte when
the number of bits is a multiple of 8. -/
theorem writeSymbols_packs (S : List Nat) (codes : Nat → SymbolNode)
    (hne : S ≠ []) (hlen : S.length < 2 ^ 64) (hbyte : ∀ b ∈ S, b < 256)
    (hcode : ∀ b ∈ S, codes b ≠ null ∧ 1 ≤ (codes b).length ∧ (codes b).length ≤ 256 ∧
      ∀ k, k < (codes b).length → (codes b).code k ≤ 1) :
    writeSymbols S codes S.length = .ok (packBits (S.flatMap (fun b => codeBits (codes b)))) ∧
      (packBits (S.flatMap (fun b => codeBits (codes b)))).length
        = ((S.flatMap (fun b => codeBits (codes b))).length + 7) / 8 := by
  refine ⟨?_, by simp [packBits]⟩
  have hpos : 0 < S.length := List.length_pos.mpr hne
  have hl0 : S.length ≠ 0 := by omega
  have hcode1 : ∀ b ∈ S, codes b ≠ null ∧ 1 ≤ (codes b).length ∧ (codes b).length ≤ 256 :=
    fun b hb => ⟨(hcode b hb).1, (hcode b hb).2.1, (hcode b hb).2.2.1⟩
  have hbound := flatMap_codeBits_length_le codes S (fun b hb => (hcode b hb).2.2.1)
  obtain ⟨s, hs1, hs2⟩ := writeSymbolsLoop_input codes 0 S hne (by simpa [ULONG] using hlen) hbyte
    hcode1 [] 8 0 null
  have hmono := writeSymbolsLoop_mono codes
    (257 * S.length + 2 - (0 + (S.flatMap (fun b => codeBits (codes b))).length + 1)) _ _ _ hs1
  have hfuel : 0 + (S.flatMap (fun b => codeBits (codes b))).length + 1
      + (257 * S.length + 2 - (0 + (S.flatMap (fun b => codeBits (codes b))).length + 1))
      = 257 * S.length + 2 := by omega
  rw [hfuel] at hmono
  have hbits : ∀ b ∈ S.flatMap (fun b => codeBits (codes b)), b ≤ 1 := by
    intro b hb
    simp only [List.mem_flatMap, codeBits, List.mem_map, List.mem_range] at hb
    obtain ⟨c, hc, k, hk, rfl⟩ := hb
    exact (hcode c hc).2.2.2 k hk
  have hfin := finishAcc_foldl _ _ le_rfl hbits ([], 0, 8) (Or.inr ⟨rfl, rfl⟩)
  rw [← hs2] at hfin
  simp only [writeSymbols, hl0, if_false, hmono]
  simp only [finishAcc, flushAcc] at hfin
  simp only [List.nil_append, Nat.reduceEqDiff, if_false] at hfin
  rw [← hfin]
  by_cases hfl : s.byteLength ≠ 0 ∧ s.byteLength ≠ 8
  · rw [if_pos hfl, if_pos hfl]
  · rw [if_neg hfl, if_neg hfl]


theorem writeSymbols_packs_witness :
    ([97, 98] : List Nat) ≠ [] ∧ ([97, 98] : List Nat).length < 2 ^ 64 ∧
      (∀ b ∈ ([97, 98] : List Nat), b < 256) ∧
      (∀ b ∈ ([97, 98] : List Nat),
        sampleCodes b ≠ null ∧ 1 ≤ (sampleCodes b).length ∧ (sampleCodes b).length ≤ 256 ∧
          ∀ k, k < (sampleCodes b).length → (sampleCodes b).code k ≤ 1) ∧
      (writeSymbols [97, 98] sampleCodes ([97, 98] : List Nat).length
          = .ok (packBits (([97, 98] : List Nat).flatMap (fun b => codeBits (sampleCodes b)))) ∧
        (packBits (([97, 98] : List Nat).flatMap (fun b => codeBits (sampleCodes b)))).length
          = ((([97, 98] : List Nat).flatMap (fun b => codeBits (sampleCodes b))).length + 7) / 8) :=
  have h1 : ([97, 98] : List Nat) ≠ [] := by decide
  have h2 : ([97, 98] : List Nat).length < 2 ^ 64 := by decide
  have h3 : ∀ b ∈ ([97, 98] : List Nat), b < 256 := by decide
  have h4 : ∀ b ∈ ([97, 98] : List Nat),
      sampleCodes b ≠ null ∧ 1 ≤ (sampleCodes b).length ∧ (sampleCodes b).length ≤ 256 ∧
        ∀ k, k < (sampleCodes b).length → (sampleCodes b).code k ≤ 1 := by
    intro b hb
    simp only [List.mem_cons, List.mem_singleton, List.not_mem_nil, or_false] at hb
    rcases hb with rfl | rfl
    · refine ⟨by simp [sampleCodes], by simp [sampleCodes, SymbolNode.length],
        by simp [sampleCodes, SymbolNode.length], ?_⟩
      intro k _
      simp [sampleCodes, SymbolNode.code]
    · refine ⟨by simp [sampleCodes], by simp [sampleCodes, SymbolNode.length],
        by simp [sampleCodes, SymbolNode.length], ?_⟩
      intro k _
      by_cases hk : k = 0 <;> simp [sampleCodes, SymbolNode.code, hk]
  ⟨h1, h2, h3, h4, writeSymbols_packs [97, 98] sampleCodes h1 h2 h3 h4⟩

/-! ## `writeHeader` -/

theorem or_bit_even (v b : Nat) (hv : v < 128) (hb : b ≤ 1) : (2 * v) ||| b = 2 * v + b := by
  have h := shift_or_bit v b hv hb
  have h1 : v <<< 1 = 2 * v := by rw [Nat.shiftLeft_eq]; omega
  rw [h1, Nat.mod_eq_of_lt (by omega)] at h
  exact h

/-- The inner loop of `writeCode` on bits: `n` more rounds after `j`. -/
theorem writeCodeInner_bits (code : Nat → Nat) (i : Nat) (n : Nat) :
    ∀ (j v : Nat), j + n ≤ 7 → i * 8 + 7 < 256 → v < 2 ^ j →
      (∀ k, k < n → code (i * 8 + j + k) ≤ 1) →
      writeCodeInner code i n j (2 * v)
        = .ok (2 * (codeSlice code (i * 8 + j) n).foldl (fun acc b => 2 * acc + b) v) := by
  induction n with
  | zero => intro j v _ _ _ _; simp [writeCodeInner, codeSlice]
  | succ n ih =>
    intro j v hj hi hv hbits
    have hb := hbits 0 (by omega)
    simp only [Nat.add_zero] at hb
    have hv7 : v < 2 ^ 6 := lt_of_lt_of_le hv (Nat.pow_le_pow_right (by omega) (by omega))
    have hidx : ¬ 256 ≤ i * 8 + j := by omega
    have h1 : (2 * v) ||| code (i * 8 + j) = 2 * v + code (i * 8 + j) :=
      or_bit_even v _ (by omega) hb
    have h2 : ((2 * v + code (i * 8 + j)) <<< 1) % 256 = 2 * (2 * v + code (i * 8 + j)) := by
      rw [Nat.shiftLeft_eq, Nat.mod_eq_of_lt (by omega)]; omega
    have hv2 : 2 * v + code (i * 8 + j) < 2 ^ (j + 1) := by rw [pow_succ]; omega
    rw [writeCodeInner, if_neg hidx, h1, h2,
      ih (j + 1) (2 * v + code (i * 8 + j)) (by omega) hi hv2
        (fun k hk => by have := hbits (k + 1) (by omega); rwa [show i * 8 + j + (k + 1) = i * 8 + (j + 1) + k by omega] at this)]
    simp only [codeSlice, List.range'_succ, List.map_cons, List.foldl_cons]
    rfl

theorem codeSlice_succ_last (code : Nat → Nat) (i n : Nat) :
    codeSlice code i (n + 1) = codeSlice code i n ++ [code (i + n)] := by
  simp [codeSlice, List.range'_concat]

theorem bitsValue_append_singleton (A : List Nat) (b : Nat) :
    bitsValue (A ++ [b]) = 2 * bitsValue A + b := by
  simp [bitsValue, List.foldl_append]

/-- One byte of `writeCode` on bits. -/
theorem writeCodeByte_bits (code : Nat → Nat) (i : Nat) (hi : i * 8 + 7 < 256)
    (hbits : ∀ k, k < 8 → code (i * 8 + k) ≤ 1) :
    writeCodeByte code i = .ok (bitsValue (codeSlice code (i * 8) 8)) := by
  have h := writeCodeInner_bits code i 7 0 0 (by omega) hi (by simp)
    (fun k hk => by simpa using hbits k (by omega))
  simp only [Nat.mul_zero, Nat.add_zero] at h
  have hlt : bitsValue (codeSlice code (i * 8) 7) < 2 ^ 7 := by
    have := bitsValue_lt (codeSlice code (i * 8) 7) (by
      intro b hb
      simp only [codeSlice, List.mem_map, List.mem_range'_1] at hb
      obtain ⟨k, ⟨hk1, hk2⟩, rfl⟩ := hb
      have := hbits (k - i * 8) (by omega)
      rwa [show i * 8 + (k - i * 8) = k by omega] at this)
    simpa [codeSlice] using this
  have h7 := hbits 7 (by omega)
  rw [writeCodeByte, h]
  simp only [if_neg (show ¬ 256 ≤ i * 8 + 7 by omega)]
  rw [show (codeSlice code (i * 8) 7).foldl (fun acc b => 2 * acc + b) 0
      = bitsValue (codeSlice code (i * 8) 7) from rfl,
    or_bit_even _ _ (by simpa using hlt) h7, codeSlice_succ_last code (i * 8) 7,
    bitsValue_append_singleton]

/-- The outer loop of `writeCode` on bits. -/
theorem writeCodeBytes_bits (code : Nat → Nat) (n : Nat) :
    ∀ i, (i + n) * 8 ≤ 256 → (∀ k, i * 8 ≤ k → k < (i + n) * 8 → code k ≤ 1) →
      writeCodeBytes code n i
        = .ok ((List.range' i n).map (fun q => bitsValue (codeSlice code (q * 8) 8))) := by
  induction n with
  | zero => intro i _ _; simp [writeCodeBytes]
  | succ n ih =>
    intro i hi hbits
    rw [writeCodeBytes, writeCodeByte_bits code i (by omega)
      (fun k hk => hbits _ (by omega) (by omega)),
      ih (i + 1) (by omega) (fun k h1 h2 => hbits k (by omega) (by omega))]
    simp [List.range'_succ]


theorem codeSlice_length (code : Nat → Nat) (i n : Nat) : (codeSlice code i n).length = n := by
  simp [codeSlice]

theorem codeSlice_append (code : Nat → Nat) (i m n : Nat) :
    codeSlice code i (m + n) = codeSlice code i m ++ codeSlice code (i + m) n := by
  simp only [codeSlice, ← List.map_append, List.range'_append_1]
  rw [Nat.add_comm]

theorem codeSlice_drop (code : Nat → Nat) (i n a : Nat) (h : a ≤ n) :
    (codeSlice code i n).drop a = codeSlice code (i + a) (n - a) := by
  have : n = a + (n - a) := by omega
  conv_lhs => rw [this, codeSlice_append]
  exact List.drop_left' (codeSlice_length code i a)

theorem codeSlice_take (code : Nat → Nat) (i n a : Nat) (h : a ≤ n) :
    (codeSlice code i n).take a = codeSlice code i a := by
  have : n = a + (n - a) := by omega
  conv_lhs => rw [this, codeSlice_append]
  exact List.take_left' (codeSlice_length code i a)

theorem codeSlice_zeros (code : Nat → Nat) (i n : Nat) (h : ∀ k, i ≤ k → k < i + n → code k = 0) :
    codeSlice code i n = List.replicate n 0 := by
  apply List.ext_getElem
  · simp [codeSlice]
  · intro k h1 h2
    simp only [codeSlice, List.length_map, List.length_range'] at h1
    simp [codeSlice, h (i + k) (by omega) (by omega)]

theorem bitsValue_append_zeros (A : List Nat) (k : Nat) :
    bitsValue (A ++ List.replicate k 0) = bitsValue A * 2 ^ k := by
  induction k with
  | zero => simp
  | succ k ih =>
    rw [List.replicate_succ', ← List.append_assoc, bitsValue_append_singleton, ih, pow_succ]
    ring

/-- The code bytes `writeCode` writes are the packed code bits when the code array holds
bits and is zero from index `length` to the end of the last code byte. -/
theorem packedByte_codeBits (len : Nat) (code : Nat → Nat) (q : Nat) (hq : q < (len + 7) / 8)
    (hzero : ∀ k, len ≤ k → k < 8 * ((len + 7) / 8) → code k = 0) :
    packedByte (codeSlice code 0 len) q = bitsValue (codeSlice code (q * 8) 8) := by
  have hq8 : 8 * q < len := by omega
  simp only [packedByte]
  rw [codeSlice_drop code 0 len (8 * q) (by omega), Nat.zero_add, Nat.mul_comm 8 q]
  by_cases hfull : 8 ≤ len - q * 8
  · rw [codeSlice_take code (q * 8) _ 8 hfull, codeSlice_length]
    simp
  · have hr : len - q * 8 < 8 := by omega
    rw [List.take_of_length_le (by rw [codeSlice_length]; omega), codeSlice_length]
    have hs : codeSlice code (q * 8) 8 = codeSlice code (q * 8) (len - q * 8)
        ++ codeSlice code (q * 8 + (len - q * 8)) (8 - (len - q * 8)) := by
      rw [← codeSlice_append]
      congr 1
      omega
    rw [hs, codeSlice_zeros code (q * 8 + (len - q * 8)) _
      (fun k h1 h2 => hzero k (by omega) (by omega)), bitsValue_append_zeros]

theorem writeCode_bits (f s len : Nat) (code : Nat → Nat) (l r : SymbolNode) (hlen : len ≤ 256)
    (hbits : ∀ k, k < len → code k ≤ 1)
    (hzero : ∀ k, len ≤ k → k < 8 * ((len + 7) / 8) → code k = 0) :
    writeCode (node f s len code l r)
      = .ok (len % 256 :: packBits (codeBits (node f s len code l r))) := by
  have hnum : (if len % 8 = 0 then len / 8 + 1 - 1 else len / 8 + 1) = (len + 7) / 8 := by
    split_ifs <;> omega
  have hall : ∀ k, 0 * 8 ≤ k → k < (0 + (len + 7) / 8) * 8 → code k ≤ 1 := by
    intro k _ hk
    by_cases h : k < len
    · exact hbits k h
    · rw [hzero k (by omega) (by omega)]; omega
  simp only [writeCode, hnum]
  rw [writeCodeBytes_bits code ((len + 7) / 8) 0 (by omega) hall]
  simp only [← codeSlice_zero, SymbolNode.code, SymbolNode.length, packBits, codeSlice_length]
  congr 2
  rw [List.range_eq_range']
  apply List.map_congr_left
  intro q hq
  simp only [List.mem_range'_1] at hq
  exact (packedByte_codeBits len code q (by omega) hzero).symm


theorem ulongBytes_length (n : Nat) : (ulongBytes n).length = 8 := by
  simp [ulongBytes]

theorem ulongOfBytes_ulongBytes (n : Nat) (h : n < 2 ^ 64) : ulongOfBytes (ulongBytes n) = n := by
  simp only [ulongBytes, List.range, List.range.loop, List.map_cons, List.map_nil, ulongOfBytes,
    Nat.mod_mod]
  norm_num
  omega

theorem presentEntries_mem (codes : Nat → SymbolNode) (i : Nat) :
    i ∈ presentEntries codes ↔ i < 256 ∧ codes i ≠ null := by
  simp only [presentEntries, List.mem_filter, List.mem_range, Bool.not_eq_true',
    ← Bool.not_eq_true, isNull_iff, ne_eq]

/-- The first loop of `writeHeader`. -/
theorem headerCounts_eq (codes : Nat → SymbolNode) (k : Nat) :
    headerCounts codes k
      = ((((List.range k).filter (fun i => !(codes i).isNull)).length) % 256,
         ((((List.range k).filter (fun i => !(codes i).isNull)).map
            (fun i => (codes i).freq)).sum) % ULONG) := by
  induction k with
  | zero => simp [headerCounts]
  | succ k ih =>
    rw [List.range_succ, List.filter_append, headerCounts]
    cases hc : codes k with
    | null =>
      have h0 : List.filter (fun i => !(codes i).isNull) [k] = [] := by
        simp [hc, SymbolNode.isNull]
      rw [h0, List.append_nil]
      simpa [hc] using ih
    | node f s len c l r =>
      have h0 : List.filter (fun i => !(codes i).isNull) [k] = [k] := by
        simp [hc, SymbolNode.isNull]
      rw [h0]
      simp only [ih, List.length_append, List.length_singleton, List.map_append, List.map_cons,
        List.map_nil, List.sum_append, List.sum_cons, List.sum_nil, hc, SymbolNode.freq,
        Nat.add_zero]
      simp [Nat.add_mod]

/-- The second loop of `writeHeader` on well-formed entries. -/
theorem headerEntries_eq (codes : Nat → SymbolNode) (n : Nat) :
    ∀ i, i + n ≤ 256 →
      (∀ j, i ≤ j → j < i + n → codes j ≠ null → EntryWellFormed (codes j)) →
      headerEntries codes n i
        = .ok (((List.range' i n).filter (fun j => !(codes j).isNull)).flatMap
            (fun j => j :: (codes j).length :: packBits (codeBits (codes j)))) := by
  induction n with
  | zero => intro i _ _; simp [headerEntries]
  | succ n ih =>
    intro i hi hwf
    have hrest := ih (i + 1) (by omega) (fun j h1 h2 => hwf j (by omega) (by omega))
    rw [List.range'_succ, headerEntries]
    cases hc : codes i with
    | null =>
      rw [List.filter_cons_of_neg (by simp [hc, SymbolNode.isNull])]
      simpa using hrest
    | node f s len c l r =>
      obtain ⟨w1, w2, w3⟩ := hwf i le_rfl (by omega) (by simp [hc])
      rw [hc] at w1 w2 w3
      simp only [SymbolNode.length, SymbolNode.code] at w1 w2 w3
      rw [List.filter_cons_of_pos (by simp [hc, SymbolNode.isNull])]
      simp only [writeCode_bits f s len c l r (by omega) w2 w3, hrest, List.flatMap_cons, hc,
        SymbolNode.length]
      rw [Nat.mod_eq_of_lt (show i < 256 by omega), Nat.mod_eq_of_lt (show len < 256 by omega)]

theorem packBits_lt (B : List Nat) (hB : ∀ b ∈ B, b ≤ 1) : ∀ x ∈ packBits B, x < 256 := by
  intro x hx
  simp only [packBits, List.mem_map, List.mem_range] at hx
  obtain ⟨q, _, rfl⟩ := hx
  simp only [packedByte]
  have hlen : ((B.drop (8 * q)).take 8).length ≤ 8 := by simp
  have hlt := bitsValue_lt ((B.drop (8 * q)).take 8)
    (fun b hb => hB b (List.mem_of_mem_drop (List.mem_of_mem_take hb)))
  calc bitsValue ((B.drop (8 * q)).take 8) * 2 ^ (8 - ((B.drop (8 * q)).take 8).length)
      < 2 ^ ((B.drop (8 * q)).take 8).length * 2 ^ (8 - ((B.drop (8 * q)).take 8).length) :=
        Nat.mul_lt_mul_of_pos_right hlt (by positivity)
    _ = 2 ^ 8 := by rw [← pow_add]; congr 1; omega
    _ = 256 := by norm_num

theorem ulongBytes_lt (n : Nat) : ∀ x ∈ ulongBytes n, x < 256 := by
  intro x hx
  simp only [ulongBytes, List.mem_map] at hx
  obtain ⟨k, _, rfl⟩ := hx
  exact Nat.mod_lt _ (by norm_num)


/-! ## Claim C5 -/

/-- C5 (amended). For every code table whose present entries are well formed (a code of at
most 255 bits, bits in the code array, zeros from index `length` to the end of the last
code byte) and whose frequencies sum to less than `2^64`, the bytes `writeHeader` emits
are exactly: one byte with the number of present symbols (0 when that number is 256);
for each present symbol in ascending byte value the symbol byte, one byte with its code
length and the `ceil(length/8)` bytes of its code bits packed most-significant-bit-first
with the unused low-order bits of the last byte zero; then an 8-byte field holding the sum
of the frequencies of the present symbols. -/
theorem writeHeader_layout (codes : Nat → SymbolNode)
    (hwf : ∀ i, i < 256 → codes i ≠ null → EntryWellFormed (codes i))
    (hsum : ((presentEntries codes).map (fun i => (codes i).freq)).sum < 2 ^ 64) :
    ∃ bytes, writeHeader codes = .ok bytes ∧ HeaderLayout codes bytes := by
  have hent := headerEntries_eq codes 256 0 (by omega) (fun j _ h2 h3 => hwf j (by omega) h3)
  have hcnt := headerCounts_eq codes 256
  rw [← List.range_eq_range'] at hent
  have hle : (presentEntries codes).length ≤ 256 := by
    simp only [presentEntries]
    exact (List.length_filter_le _ _).trans (by simp)
  have hfirst : (headerCounts codes 256).1
      = if (presentEntries codes).length = 256 then 0 else (presentEntries codes).length := by
    rw [hcnt]
    simp only [presentEntries] at hle ⊢
    split_ifs with h
    · rw [h]
    · exact Nat.mod_eq_of_lt (by omega)
  have hsecond : (headerCounts codes 256).2
      = ((presentEntries codes).map (fun i => (codes i).freq)).sum := by
    rw [hcnt]
    simp only [presentEntries, ULONG] at hsum ⊢
    exact Nat.mod_eq_of_lt hsum
  refine ⟨_, by rw [writeHeader, hent], ?_⟩
  refine ⟨ulongBytes (headerCounts codes 256).2, ?_, ?_, ulongBytes_length _, ?_⟩
  · rw [hfirst]
    simp [presentEntries]
  · intro b hb
    simp only [List.cons_append, List.mem_cons, List.mem_append, List.mem_flatMap] at hb
    rcases hb with rfl | ⟨j, hj, hb⟩ | hb
    · rw [hfirst]
      split_ifs <;> omega
    · have hj2 := (presentEntries_mem codes j).mp (by simpa [presentEntries] using hj)
      obtain ⟨w1, w2, _⟩ := hwf j hj2.1 hj2.2
      rcases hb with rfl | rfl | hb
      · exact hj2.1
      · omega
      · refine packBits_lt _ ?_ b hb
        intro x hx
        simp only [codeBits, List.mem_map, List.mem_range] at hx
        obtain ⟨k, hk, rfl⟩ := hx
        exact w2 k hk
    · exact ulongBytes_lt _ b hb
  · rw [hsecond, ulongOfBytes_ulongBytes _ hsum]



theorem presentEntries_sampleCodes : presentEntries sampleCodes = [97, 98] := by
  decide

theorem presentEntries_strayBitCodes : presentEntries strayBitCodes = [97] := by
  decide

theorem presentEntries_longCodes : presentEntries longCodes = [97] := by
  decide

theorem presentEntries_heavyCodes : presentEntries heavyCodes = [97, 98] := by
  decide

set_option maxRecDepth 100000 in
theorem writeHeader_strayBitCodes :
    writeHeader strayBitCodes = .ok [1, 97, 1, 255, 1, 0, 0, 0, 0, 0, 0, 0] := by
  rfl

set_option maxRecDepth 100000 in
theorem writeHeader_longCodes :
    writeHeader longCodes = .ok (1 :: 97 :: 0 :: (List.replicate 32 0 ++ [1, 0, 0, 0, 0, 0, 0, 0])) := by
  rfl

set_option maxRecDepth 100000 in
theorem writeHeader_heavyCodes :
    writeHeader heavyCodes = .ok [2, 97, 1, 0, 98, 1, 128, 0, 0, 0, 0, 0, 0, 0, 0] := by
  rfl


theorem packBits_single_one : packBits [1] = [128] := by
  decide

/-- C5 fails as stated for arbitrary code tables. With a code array that holds a 1 behind
the code, the unused low-order bits of the code byte are not zero (`255` is written, the
packed code is `128`); with a code of length 256 the length byte holds 0; with frequencies
that sum to `2^64` the 8-byte field holds 0. -/
theorem writeHeader_layout_fails :
    (¬ ∃ bytes, writeHeader strayBitCodes = .ok bytes ∧ HeaderLayout strayBitCodes bytes) ∧
    (¬ ∃ bytes, writeHeader longCodes = .ok bytes ∧ HeaderLayout longCodes bytes) ∧
    (¬ ∃ bytes, writeHeader heavyCodes = .ok bytes ∧ HeaderLayout heavyCodes bytes) := by
  refine ⟨?_, ?_, ?_⟩
  · rintro ⟨bytes, hb, field, heq, _, _, _⟩
    rw [writeHeader_strayBitCodes] at hb
    injection hb with hb
    subst hb
    rw [presentEntries_strayBitCodes] at heq
    have hc : codeBits (strayBitCodes 97) = [1] := by decide
    simp [hc, packBits_single_one] at heq
  · rintro ⟨bytes, hb, field, heq, _, _, _⟩
    rw [writeHeader_longCodes] at hb
    injection hb with hb
    subst hb
    rw [presentEntries_longCodes] at heq
    have hl : (longCodes 97).length = 256 := by decide
    simp [hl] at heq
  · rintro ⟨bytes, hb, field, heq, _, _, hsum⟩
    rw [writeHeader_heavyCodes] at hb
    injection hb with hb
    subst hb
    rw [presentEntries_heavyCodes] at heq hsum
    have hc1 : codeBits (heavyCodes 97) = [0] := by decide
    have hc2 : codeBits (heavyCodes 98) = [1] := by decide
    have hl1 : (heavyCodes 97).length = 1 := by decide
    have hl2 : (heavyCodes 98).length = 1 := by decide
    have hp0 : packBits [0] = [0] := by decide
    have hf : field = [0, 0, 0, 0, 0, 0, 0, 0] := by
      simp [hc1, hc2, hl1, hl2, hp0, packBits_single_one] at heq
      exact heq.symm
    subst hf
    have hf1 : (heavyCodes 97).freq = 2 ^ 63 := by decide
    have hf2 : (heavyCodes 98).freq = 2 ^ 63 := by decide
    simp [hf1, hf2, ulongOfBytes] at hsum

theorem writeHeader_layout_witness :
    (∀ i, i < 256 → sampleCodes i ≠ null → EntryWellFormed (sampleCodes i)) ∧
      ((presentEntries sampleCodes).map (fun i => (sampleCodes i).freq)).sum < 2 ^ 64 ∧
      ∃ bytes, writeHeader sampleCodes = .ok bytes ∧ HeaderLayout sampleCodes bytes :=
  have h1 : ∀ i, i < 256 → sampleCodes i ≠ null → EntryWellFormed (sampleCodes i) := by
    intro i _ hn
    by_cases ha : i = 97
    · subst ha
      refine ⟨by decide, fun k _ => by simp [sampleCodes, SymbolNode.code], fun k _ _ => by
        simp [sampleCodes, SymbolNode.code]⟩
    · by_cases hb : i = 98
      · subst hb
        refine ⟨by decide, fun k _ => ?_, fun k hk _ => ?_⟩
        · by_cases hk : k = 0 <;> simp [sampleCodes, SymbolNode.code, hk]
        · have hk0 : k ≠ 0 := by
            have : (sampleCodes 98).length = 1 := by decide
            omega
          simp [sampleCodes, SymbolNode.code, hk0]
      · simp [sampleCodes, ha, hb] at hn
  have h2 : ((presentEntries sampleCodes).map (fun i => (sampleCodes i).freq)).sum < 2 ^ 64 := by
    rw [presentEntries_sampleCodes]
    decide
  ⟨h1, h2, writeHeader_layout sampleCodes h1 h2⟩


/-! ## `countSymbols` -/

theorem countSymbolsLoop_spec (S : List Nat) (hS : ∀ c ∈ S, c < 256) :
    ∀ (tbl : Nat → Nat) (total : Nat),
      (∀ b, (countSymbolsLoop S (tbl, total)).1 b % ULONG = (tbl b + S.count b) % ULONG) ∧
      (countSymbolsLoop S (tbl, total)).2 % ULONG = (total + S.length) % ULONG := by
  induction S with
  | nil => intro tbl total; simp [countSymbolsLoop]
  | cons c S ih =>
    intro tbl total
    have hc := hS c (by simp)
    have hmod : c % 256 = c := Nat.mod_eq_of_lt hc
    obtain ⟨h1, h2⟩ := ih (fun b hb => hS b (by simp [hb]))
      (Function.update tbl c ((tbl c + 1) % ULONG)) ((total + 1) % ULONG)
    simp only [countSymbolsLoop, hmod]
    refine ⟨fun b => ?_, ?_⟩
    · rw [h1 b]
      by_cases hb : b = c
      · subst hb
        simp only [Function.update_same, List.count_cons_self]
        rw [Nat.add_mod, Nat.mod_mod, ← Nat.add_mod]
        congr 1
        omega
      · have : (c == b) = false := by simpa using fun h => hb h.symm
        simp [Function.update_noteq hb, List.count_cons, this]
    · rw [h2, Nat.add_mod, Nat.mod_mod, ← Nat.add_mod, List.length_cons]
      congr 1
      omega

theorem countSymbolsLoop_lt (S : List Nat) :
    ∀ (tbl : Nat → Nat) (total : Nat) (b : Nat), tbl b < ULONG →
      (countSymbolsLoop S (tbl, total)).1 b < ULONG := by
  induction S with
  | nil => intro tbl total b h; simpa [countSymbolsLoop] using h
  | cons c S ih =>
    intro tbl total b h
    simp only [countSymbolsLoop]
    apply ih
    rw [Function.update_apply]
    split_ifs
    · exact Nat.mod_lt _ (by simp [ULONG])
    · exact h

theorem countSymbolsLoop_total_lt (S : List Nat) :
    ∀ (tbl : Nat → Nat) (total : Nat), total < ULONG →
      (countSymbolsLoop S (tbl, total)).2 < ULONG := by
  induction S with
  | nil => intro tbl total h; simpa [countSymbolsLoop] using h
  | cons c S ih =>
    intro tbl total h
    simp only [countSymbolsLoop]
    exact ih _ _ (Nat.mod_lt _ (by simp [ULONG]))

/-- On a block that starts out zeroed, `countSymbols` counts: entry `b` is the number of
occurrences of `b` and the total is the length (for files shorter than `2^64` bytes). -/
theorem countSymbols_zeroed (S : List Nat) (hS : ∀ c ∈ S, c < 256) (hlen : S.length < 2 ^ 64) :
    (∀ b, (countSymbols (fun _ => 0) S).1 b = S.count b) ∧
      (countSymbols (fun _ => 0) S).2 = S.length := by
  obtain ⟨h1, h2⟩ := countSymbolsLoop_spec S hS (fun _ => 0) 0
  have hU : ULONG = 2 ^ 64 := rfl
  refine ⟨fun b => ?_, ?_⟩
  · have h3 := countSymbolsLoop_lt S (fun _ => 0) 0 b (by simp [ULONG])
    have h4 := h1 b
    have h5 : S.count b ≤ S.length := List.count_le_length _ _
    rw [Nat.mod_eq_of_lt h3, Nat.zero_add, Nat.mod_eq_of_lt (by omega)] at h4
    exact h4
  · have h3 := countSymbolsLoop_total_lt S (fun _ => 0) 0 (by simp [ULONG])
    rw [Nat.mod_eq_of_lt h3, Nat.zero_add, Nat.mod_eq_of_lt (by omega)] at h2
    exact h2

/-- C10 fails on the code: the array `countSymbols` returns is the uninitialised block from
`malloc` plus the counts. With a block that holds 5 at index 97, the input `"ab"` gives
entry 97 the value 6, while `a` occurs once; on the empty input entry 97 is 5. -/
theorem countSymbols_uninitialised :
    (countSymbols (fun i => if i = 97 then 5 else 0) [97, 98]).1 97 = 6 ∧
      List.count 97 [97, 98] = 1 ∧
      (countSymbols (fun i => if i = 97 then 5 else 0) []).1 97 = 5 := by
  decide

/-! ## Claims C1, C2, C7: runs of the encoder and the decoder -/

/-- C1 fails on the code for a file with a single byte value. For the input `"a"` (with
zeroed counters) the only symbol gets the code length 0, `currCodeLength--` in
`writeSymbols` wraps around and the loop reads `code[256]`: the encoder leaves defined
behaviour and nothing is decoded. A decoder given the header of that one-leaf tree
dereferences the `NULL` child of the root. -/
theorem encodeFile_single_symbol :
    encodeFile (fun _ => 0) [97] = .error .outOfBounds ∧
      roundTrip (fun _ => 0) [97] = .error .outOfBounds ∧
      decodeFile [1, 97, 0, 1, 0, 0, 0, 0, 0, 0, 0, 0] = .error .nullDeref := by
  decide!

theorem encodeFile_uninitialised :
    encodeFile (fun i => if i = 99 then 1 else 0) [97, 98]
      = .ok [3, 97, 2, 128, 98, 2, 192, 99, 1, 0, 3, 0, 0, 0, 0, 0, 0, 0, 176] := by
  decide!

theorem decodeFile_uninitialised :
    decodeFile [3, 97, 2, 128, 98, 2, 192, 99, 1, 0, 3, 0, 0, 0, 0, 0, 0, 0, 176]
      = .ok ([97, 98, 99], []) := by
  decide!

/-- C2 fails on the code when the block `countSymbols` gets from `malloc` is not zero. With
a block that holds 1 at index 99, the input `"ab"` is encoded with the counts `a:1 b:1 c:1`
and the total 3 in the header, and decoding yields `"abc"`. -/
theorem roundTrip_uninitialised :
    roundTrip (fun i => if i = 99 then 1 else 0) [97, 98] = .ok ([97, 98, 99], []) := by
  rw [roundTrip, encodeFile_uninitialised]
  exact decodeFile_uninitialised


theorem readHeader_two (rest : List Nat) :
    ∃ c1 c2, readHeader 2 ([97, 1, 0, 98, 1, 128] ++ rest) null
      = .ok (node 0 114 0 (fun _ => 0) (node 0 97 1 c1 null null) (node 0 98 1 c2 null null),
          rest) := by
  simp [readHeader, fgetcByte, readCodeBytes, insertTree, insertTreeFuel, makeSymbol, unpackByte,
    orFresh, withLeft, withRight, SymbolNode.left, SymbolNode.right]

theorem decodeCharsLoop_zero (root : SymbolNode) (fuel : Nat) (s : DecodeState)
    (h : s.numChars = 0) : decodeCharsLoop root fuel s = .ok s := by
  cases fuel <;> simp [decodeCharsLoop, h]

theorem decodeChars_zero (input : List Nat) (root : SymbolNode) :
    decodeChars input 0 root = .ok ([], input) := by
  rw [decodeChars, decodeCharsLoop_zero _ _ _ rfl]

theorem decodeFile_cons (first : Nat) (in1 : List Nat) :
    decodeFile (first :: in1)
      = match readHeader (if first % 256 = 0 then 256 else first % 256) in1 null with
        | .error e => .error e
        | .ok (root, in2) =>
          if in2.length < 8 then .error .uninitRead
          else decodeChars (in2.drop 8) (toInt32 (ulongOfBytes (in2.take 8))) root := rfl

/-- C7 fails on the code. `decodeFile` reads the 64-bit count and passes it to the `int`
parameter of `decodeChars`: for a stream whose count field holds `2^32` the parameter is 0
and no symbol is emitted, whatever the body. -/
theorem decodeFile_count_truncated (body : List Nat) :
    decodeFile ([2, 97, 1, 0, 98, 1, 128] ++ [0, 0, 0, 0, 1, 0, 0, 0] ++ body) = .ok ([], body) ∧
      ulongOfBytes [0, 0, 0, 0, 1, 0, 0, 0] = 2 ^ 32 := by
  refine ⟨?_, by decide⟩
  obtain ⟨c1, c2, h⟩ := readHeader_two ([0, 0, 0, 0, 1, 0, 0, 0] ++ body)
  simp only [List.cons_append, List.nil_append] at h ⊢
  have h2 : (if 2 % 256 = 0 then 256 else 2 % 256) = 2 := by decide
  have h3 : toInt32 (ulongOfBytes [0, 0, 0, 0, 1, 0, 0, 0]) = 0 := by decide
  have h4 : ¬ (0 :: 0 :: 0 :: 0 :: 1 :: 0 :: 0 :: 0 :: body).length < 8 := by simp
  rw [decodeFile_cons, h2, h]
  simp only [h4, if_false]
  have h5 : List.take 8 (0 :: 0 :: 0 :: 0 :: 1 :: 0 :: 0 :: 0 :: body) = [0, 0, 0, 0, 1, 0, 0, 0] := by
    simp
  have h6 : List.drop 8 (0 :: 0 :: 0 :: 0 :: 1 :: 0 :: 0 :: 0 :: body) = body := by simp
  rw [h5, h6, h3, decodeChars_zero]

namespace CodeTree

/-! ## Code trees -/

theorem leaves_ne_nil (t : CodeTree) : leaves t ≠ [] := by
  induction t with
  | leaf s => simp [leaves]
  | node l r ihl _ => simp [leaves, ihl]

theorem weight_node (w : Nat → Nat) (l r : CodeTree) :
    weight w (node l r) = weight w l + weight w r := by
  simp [weight, leaves]

theorem cnt_node (l r : CodeTree) (x : Nat) : cnt (node l r) x = cnt l x + cnt r x := by
  simp [cnt, leaves]

theorem weightedLength_eq (w : Nat → Nat) (t : CodeTree) :
    ∀ d, weightedLength w d t = cost w t + d * weight w t := by
  induction t with
  | leaf s => intro d; simp [weightedLength, cost, weight, leaves, Nat.mul_comm]
  | node l r ihl ihr =>
    intro d
    simp only [weightedLength, cost, ihl, ihr, weight_node]
    ring

theorem weightedLength_zero (w : Nat → Nat) (t : CodeTree) : weightedLength w 0 t = cost w t := by
  simp [weightedLength_eq]

/-- Changing the weight of one symbol changes the weight of a tree linearly. -/
theorem weight_update (w : Nat → Nat) (x v : Nat) (t : CodeTree) :
    weight (Function.update w x v) t + w x * cnt t x = weight w t + v * cnt t x := by
  simp only [weight, cnt]
  induction leaves t with
  | nil => simp
  | cons a L ih =>
    by_cases h : a = x
    · subst h
      simp only [List.map_cons, List.sum_cons, Function.update_same, List.count_cons_self]
      linarith [ih, Nat.mul_succ (w a) (List.count a L), Nat.mul_succ v (List.count a L)]
    · have hc : List.count x (a :: L) = List.count x L := by
        simp [List.count_cons, h]
      simp only [List.map_cons, List.sum_cons, Function.update_noteq h, hc]
      linarith [ih]

/-- Changing the weight of one symbol changes the cost of a tree linearly. -/
theorem cost_update (w : Nat → Nat) (x v : Nat) (t : CodeTree) :
    cost (Function.update w x v) t + w x * dsum t x = cost w t + v * dsum t x := by
  induction t with
  | leaf s => simp [cost, dsum]
  | node l r ihl ihr =>
    simp only [cost, dsum]
    have h1 := weight_update w x v l
    have h2 := weight_update w x v r
    have e1 : w x * (dsum l x + cnt l x + (dsum r x + cnt r x))
        = w x * dsum l x + w x * cnt l x + (w x * dsum r x + w x * cnt r x) := by ring
    have e2 : v * (dsum l x + cnt l x + (dsum r x + cnt r x))
        = v * dsum l x + v * cnt l x + (v * dsum r x + v * cnt r x) := by ring
    rw [e1, e2]
    linarith

theorem leaves_map (f : Nat → Nat) (t : CodeTree) : leaves (map f t) = (leaves t).map f := by
  induction t with
  | leaf s => rfl
  | node l r ihl ihr => simp [map, leaves, ihl, ihr]

theorem weight_map (w f : Nat → Nat) (t : CodeTree) : weight w (map f t) = weight (w ∘ f) t := by
  simp [weight, leaves_map, List.map_map]

theorem cost_map (w f : Nat → Nat) (t : CodeTree) : cost w (map f t) = cost (w ∘ f) t := by
  induction t with
  | leaf s => rfl
  | node l r ihl ihr => simp [map, cost, ihl, ihr, weight_map]

theorem dsum_le (t : CodeTree) (x : Nat) : dsum t x ≤ height t * cnt t x := by
  induction t with
  | leaf s => simp [dsum]
  | node l r ihl ihr =>
    simp only [dsum, height, cnt_node]
    have h1 : height l * cnt l x ≤ max (height l) (height r) * cnt l x :=
      Nat.mul_le_mul_right _ (le_max_left _ _)
    have h2 : height r * cnt r x ≤ max (height l) (height r) * cnt r x :=
      Nat.mul_le_mul_right _ (le_max_right _ _)
    have e : (max (height l) (height r) + 1) * (cnt l x + cnt r x)
        = max (height l) (height r) * cnt l x + cnt l x
          + (max (height l) (height r) * cnt r x + cnt r x) := by ring
    rw [e]
    omega

theorem cnt_pos_of_sib_left {t : CodeTree} {c d : Nat} (h : Sib t c d) : 0 < cnt t c := by
  induction t with
  | leaf s => exact absurd h (by simp [Sib])
  | node l r ihl ihr =>
    rw [cnt_node]
    rcases h with ⟨h1, _⟩ | h | h
    · subst h1; simp [cnt, leaves]
    · have := ihl h; omega
    · have := ihr h; omega

theorem cnt_pos_of_sib_right {t : CodeTree} {c d : Nat} (h : Sib t c d) : 0 < cnt t d := by
  induction t with
  | leaf s => exact absurd h (by simp [Sib])
  | node l r ihl ihr =>
    rw [cnt_node]
    rcases h with ⟨_, h1⟩ | h | h
    · subst h1; simp [cnt, leaves]
    · have := ihl h; omega
    · have := ihr h; omega

/-- A tree that is not a leaf has two sibling leaves at its greatest depth. -/
theorem exists_deepest_sib (t : CodeTree) (hl : ∀ s, t ≠ leaf s) :
    ∃ c d, Sib t c d ∧ height t ≤ dsum t c ∧ height t ≤ dsum t d := by
  induction t with
  | leaf s => exact absurd rfl (hl s)
  | node l r ihl ihr =>
    by_cases hll : ∃ s, l = leaf s
    · obtain ⟨c, rfl⟩ := hll
      by_cases hrl : ∃ s, r = leaf s
      · obtain ⟨d, rfl⟩ := hrl
        refine ⟨c, d, Or.inl ⟨rfl, rfl⟩, ?_, ?_⟩
        · simp [height, dsum, cnt, leaves]
        · simp [height, dsum, cnt, leaves]
      · obtain ⟨c1, d1, h1, h2, h3⟩ := ihr (fun s h => hrl ⟨s, h⟩)
        refine ⟨c1, d1, Or.inr (Or.inr h1), ?_, ?_⟩
        · have := cnt_pos_of_sib_left h1
          simp only [height, dsum, Nat.zero_max]
          omega
        · have := cnt_pos_of_sib_right h1
          simp only [height, dsum, Nat.zero_max]
          omega
    · by_cases hrl : ∃ s, r = leaf s
      · obtain ⟨d, rfl⟩ := hrl
        obtain ⟨c1, d1, h1, h2, h3⟩ := ihl (fun s h => hll ⟨s, h⟩)
        refine ⟨c1, d1, Or.inr (Or.inl h1), ?_, ?_⟩
        · have := cnt_pos_of_sib_left h1
          simp only [height, dsum, Nat.max_zero]
          omega
        · have := cnt_pos_of_sib_right h1
          simp only [height, dsum, Nat.max_zero]
          omega
      · by_cases hcmp : height r ≤ height l
        · obtain ⟨c1, d1, h1, h2, h3⟩ := ihl (fun s h => hll ⟨s, h⟩)
          refine ⟨c1, d1, Or.inr (Or.inl h1), ?_, ?_⟩
          · have := cnt_pos_of_sib_left h1
            simp only [height, dsum, max_eq_left hcmp]
            omega
          · have := cnt_pos_of_sib_right h1
            simp only [height, dsum, max_eq_left hcmp]
            omega
        · obtain ⟨c1, d1, h1, h2, h3⟩ := ihr (fun s h => hrl ⟨s, h⟩)
          refine ⟨c1, d1, Or.inr (Or.inr h1), ?_, ?_⟩
          · have := cnt_pos_of_sib_left h1
            simp only [height, dsum, max_eq_right (by omega : height l ≤ height r)]
            omega
          · have := cnt_pos_of_sib_right h1
            simp only [height, dsum, max_eq_right (by omega : height l ≤ height r)]
            omega

end CodeTree
namespace CodeTree

theorem comp_swap_eq_update (w : Nat → Nat) (x y : Nat) (hxy : x ≠ y) :
    w ∘ (Equiv.swap x y) = Function.update (Function.update w x (w y)) y (w x) := by
  funext z
  simp only [Function.comp, Function.update_apply]
  by_cases h1 : z = y
  · subst h1; simp
  · by_cases h2 : z = x
    · subst h2; simp [h1]
    · simp [h1, h2, Equiv.swap_apply_of_ne_of_ne h2 h1]

theorem map_id (t : CodeTree) : map (fun x => x) t = t := by
  induction t with
  | leaf s => rfl
  | node l r ihl ihr => simp [map, ihl, ihr]

/-- Exchanging a lighter, shallower symbol with a heavier, deeper one does not raise the
cost. -/
theorem cost_swap_le (w : Nat → Nat) (x y : Nat) (t : CodeTree) (hw : w x ≤ w y)
    (hd : dsum t x ≤ dsum t y) : cost w (map (Equiv.swap x y) t) ≤ cost w t := by
  by_cases hxy : x = y
  · subst hxy
    have : (⇑(Equiv.swap x x) : Nat → Nat) = fun z => z := by
      funext z; simp
    rw [this, map_id]
  · rw [cost_map, comp_swap_eq_update w x y hxy]
    have h1 := cost_update (Function.update w x (w y)) y (w x) t
    have h2 := cost_update w x (w y) t
    rw [Function.update_noteq (Ne.symm hxy)] at h1
    obtain ⟨p, hp⟩ := Nat.exists_eq_add_of_le hw
    obtain ⟨q, hq⟩ := Nat.exists_eq_add_of_le hd
    rw [hp, hq] at h1
    rw [hp] at h2 ⊢
    have e1 : (w x + p) * (dsum t x + q) = w x * dsum t x + w x * q + p * dsum t x + p * q := by
      ring
    have e2 : w x * (dsum t x + q) = w x * dsum t x + w x * q := by ring
    have e3 : (w x + p) * dsum t x = w x * dsum t x + p * dsum t x := by ring
    rw [e1, e2] at h1
    rw [e3] at h2
    have := Nat.zero_le (p * q)
    omega

theorem cnt_map_injective (f : Nat → Nat) (hf : Function.Injective f) (t : CodeTree) (x : Nat) :
    cnt (map f t) (f x) = cnt t x := by
  simp only [cnt, leaves_map]
  exact List.count_map_of_injective _ f hf x

theorem dsum_map_injective (f : Nat → Nat) (hf : Function.Injective f) (t : CodeTree) (x : Nat) :
    dsum (map f t) (f x) = dsum t x := by
  induction t with
  | leaf s => rfl
  | node l r ihl ihr => simp [map, dsum, ihl, ihr, cnt_map_injective f hf]

theorem dsum_map_swap (x y : Nat) (t : CodeTree) (z : Nat) :
    dsum (map (Equiv.swap x y) t) z = dsum t (Equiv.swap x y z) := by
  have := dsum_map_injective (Equiv.swap x y) (Equiv.injective _) t (Equiv.swap x y z)
  simpa using this

theorem sib_map (f : Nat → Nat) {t : CodeTree} {c d : Nat} (h : Sib t c d) :
    Sib (map f t) (f c) (f d) := by
  induction t with
  | leaf s => exact absurd h (by simp [Sib])
  | node l r ihl ihr =>
    rcases h with ⟨h1, h2⟩ | h | h
    · subst h1; subst h2
      exact Or.inl ⟨rfl, rfl⟩
    · exact Or.inr (Or.inl (ihl h))
    · exact Or.inr (Or.inr (ihr h))

theorem mem_leaves_iff_cnt (t : CodeTree) (x : Nat) : x ∈ leaves t ↔ 0 < cnt t x := by
  simp [cnt, List.count_pos_iff]

theorem cnt_eq_one {t : CodeTree} (hnd : (leaves t).Nodup) {x : Nat} (hx : x ∈ leaves t) :
    cnt t x = 1 :=
  List.count_eq_one_of_mem hnd hx

theorem cnt_eq_zero {t : CodeTree} {x : Nat} (hx : x ∉ leaves t) : cnt t x = 0 :=
  List.count_eq_zero_of_not_mem hx

theorem dsum_eq_zero {t : CodeTree} {x : Nat} (hx : x ∉ leaves t) : dsum t x = 0 := by
  have := dsum_le t x
  rw [cnt_eq_zero hx] at this
  omega

theorem leaves_map_swap_perm {t : CodeTree} (hnd : (leaves t).Nodup) {x y : Nat}
    (hx : x ∈ leaves t) (hy : y ∈ leaves t) :
    (leaves (map (Equiv.swap x y) t)).Perm (leaves t) := by
  rw [leaves_map]
  apply (List.perm_ext_iff_of_nodup (hnd.map (Equiv.injective _)) hnd).mpr
  intro z
  simp only [List.mem_map]
  constructor
  · rintro ⟨u, hu, rfl⟩
    by_cases h1 : u = x
    · subst h1; simpa using hy
    · by_cases h2 : u = y
      · subst h2; simpa using hx
      · rw [Equiv.swap_apply_of_ne_of_ne h1 h2]; exact hu
  · intro hz
    refine ⟨Equiv.swap x y z, ?_, by simp⟩
    by_cases h1 : z = x
    · subst h1; simpa using hy
    · by_cases h2 : z = y
      · subst h2; simpa using hx
      · rw [Equiv.swap_apply_of_ne_of_ne h1 h2]; exact hz

theorem sib_ne {t : CodeTree} (hnd : (leaves t).Nodup) {c d : Nat} (h : Sib t c d) : c ≠ d := by
  induction t with
  | leaf s => exact absurd h (by simp [Sib])
  | node l r ihl ihr =>
    simp only [leaves] at hnd
    rcases h with ⟨h1, h2⟩ | h | h
    · subst h1; subst h2
      simp only [leaves, List.singleton_append, List.nodup_cons, List.mem_singleton] at hnd
      exact hnd.1
    · exact ihl (List.Nodup.of_append_left hnd) h
    · exact ihr (List.Nodup.of_append_right hnd) h

end CodeTree
namespace CodeTree

theorem sib_mem_left {t : CodeTree} {c d : Nat} (h : Sib t c d) : c ∈ leaves t :=
  (mem_leaves_iff_cnt t c).mpr (cnt_pos_of_sib_left h)

theorem sib_mem_right {t : CodeTree} {c d : Nat} (h : Sib t c d) : d ∈ leaves t :=
  (mem_leaves_iff_cnt t d).mpr (cnt_pos_of_sib_right h)

theorem weight_update_of_not_mem (w : Nat → Nat) (x v : Nat) {t : CodeTree} (hx : x ∉ leaves t) :
    weight (Function.update w x v) t = weight w t := by
  have := weight_update w x v t
  rw [cnt_eq_zero hx] at this
  simpa using this

theorem cost_update_of_not_mem (w : Nat → Nat) (x v : Nat) {t : CodeTree} (hx : x ∉ leaves t) :
    cost (Function.update w x v) t = cost w t := by
  have := cost_update w x v t
  rw [dsum_eq_zero hx] at this
  simpa using this

theorem mergeSib_of_not_mem (a b : Nat) {t : CodeTree} (ha : a ∉ leaves t) :
    mergeSib a b t = t := by
  induction t with
  | leaf s => rfl
  | node l r ihl ihr =>
    simp only [leaves, List.mem_append, not_or] at ha
    have hc : ¬ ((l = leaf a ∧ r = leaf b) ∨ (l = leaf b ∧ r = leaf a)) := by
      rintro (⟨h, _⟩ | ⟨_, h⟩)
      · subst h; exact ha.1 (by simp [leaves])
      · subst h; exact ha.2 (by simp [leaves])
    simp only [mergeSib, if_neg hc, ihl ha.1, ihr ha.2]

/-- Merging the sibling leaves `a` and `b` into one leaf `a` that carries both weights:
the leaf `b` disappears and the cost drops by the two weights. -/
theorem mergeSib_spec (w : Nat → Nat) (a b : Nat) (hab : a ≠ b) (t : CodeTree)
    (hnd : (leaves t).Nodup) (hs : Sib t a b ∨ Sib t b a) :
    (leaves (mergeSib a b t)).Perm ((leaves t).erase b) ∧
      weight (Function.update w a (w a + w b)) (mergeSib a b t) = weight w t ∧
      cost (Function.update w a (w a + w b)) (mergeSib a b t) + w a + w b = cost w t := by
  induction t with
  | leaf s => rcases hs with h | h <;> exact absurd h (by simp [Sib])
  | node l r ihl ihr =>
    simp only [leaves] at hnd
    have hndl := List.Nodup.of_append_left hnd
    have hndr := List.Nodup.of_append_right hnd
    have hdisj : ∀ x, x ∈ leaves l → x ∉ leaves r := fun x h1 h2 =>
      (List.disjoint_of_nodup_append hnd) h1 h2
    by_cases hc : (l = leaf a ∧ r = leaf b) ∨ (l = leaf b ∧ r = leaf a)
    · simp only [mergeSib, if_pos hc]
      rcases hc with ⟨h1, h2⟩ | ⟨h1, h2⟩
      · subst h1; subst h2
        refine ⟨?_, ?_, ?_⟩
        · simp [leaves, hab]
        · simp [weight, leaves]
        · simp [cost, weight, leaves]
      · subst h1; subst h2
        refine ⟨?_, ?_, ?_⟩
        · simp [leaves]
        · simp [weight, leaves]; omega
        · simp [cost, weight, leaves]; omega
    · simp only [mergeSib, if_neg hc]
      have hs2 : (Sib l a b ∨ Sib l b a) ∨ (Sib r a b ∨ Sib r b a) := by
        rcases hs with h | h
        · rcases h with h | h | h
          · exact absurd (Or.inl h) hc
          · exact Or.inl (Or.inl h)
          · exact Or.inr (Or.inl h)
        · rcases h with h | h | h
          · exact absurd (Or.inr h) hc
          · exact Or.inl (Or.inr h)
          · exact Or.inr (Or.inr h)
      rcases hs2 with hs2 | hs2
      · have hal : a ∈ leaves l := by
          rcases hs2 with h | h
          · exact sib_mem_left h
          · exact sib_mem_right h
        have hbl : b ∈ leaves l := by
          rcases hs2 with h | h
          · exact sib_mem_right h
          · exact sib_mem_left h
        have har := hdisj a hal
        obtain ⟨i1, i2, i3⟩ := ihl hndl hs2
        rw [mergeSib_of_not_mem a b har]
        refine ⟨?_, ?_, ?_⟩
        · simp only [leaves]
          rw [List.erase_append_left _ hbl]
          exact List.Perm.append i1 (List.Perm.refl _)
        · rw [weight_node, weight_node, i2, weight_update_of_not_mem w a _ har]
        · simp only [cost]
          rw [i2, weight_update_of_not_mem w a _ har, cost_update_of_not_mem w a _ har]
          omega
      · have har : a ∈ leaves r := by
          rcases hs2 with h | h
          · exact sib_mem_left h
          · exact sib_mem_right h
        have hbr : b ∈ leaves r := by
          rcases hs2 with h | h
          · exact sib_mem_right h
          · exact sib_mem_left h
        have hal : a ∉ leaves l := fun h => hdisj a h har
        have hbl : b ∉ leaves l := fun h => hdisj b h hbr
        obtain ⟨i1, i2, i3⟩ := ihr hndr hs2
        rw [mergeSib_of_not_mem a b hal]
        refine ⟨?_, ?_, ?_⟩
        · simp only [leaves]
          rw [List.erase_append_right _ hbl]
          exact List.Perm.append (List.Perm.refl _) i1
        · rw [weight_node, weight_node, i2, weight_update_of_not_mem w a _ hal]
        · simp only [cost]
          rw [i2, weight_update_of_not_mem w a _ hal, cost_update_of_not_mem w a _ hal]
          omega

/-- The exchange step with the deepest siblings `c`, `d` named so that `a` can take the
place of `c` and `b` the place of `d`. -/
theorem exists_merged_of_sib (w : Nat → Nat) (t : CodeTree) (a b c d : Nat) (hab : a ≠ b)
    (hnd : (leaves t).Nodup) (ha : a ∈ leaves t) (hb : b ∈ leaves t)
    (hmin : ∀ x ∈ leaves t, x ≠ a → x ≠ b → w a ≤ w x ∧ w b ≤ w x)
    (hc : c ∈ leaves t) (hd : d ∈ leaves t) (hcd : c ≠ d) (had : a ≠ d) (hbc : b ≠ c)
    (hs : Sib t c d ∨ Sib t d c) (hhc : height t ≤ dsum t c) (hhd : height t ≤ dsum t d) :
    ∃ t1, (leaves t1).Perm ((leaves t).erase b) ∧
      cost (Function.update w a (w a + w b)) t1 + w a + w b ≤ cost w t := by
  have hda : dsum t a ≤ dsum t c := by
    have := dsum_le t a
    rw [cnt_eq_one hnd ha] at this
    omega
  have hdb : dsum t b ≤ dsum t d := by
    have := dsum_le t b
    rw [cnt_eq_one hnd hb] at this
    omega
  have hwac : w a ≤ w c := by
    by_cases h : c = a
    · rw [h]
    · exact (hmin c hc h (Ne.symm hbc)).1
  have hwbd : w b ≤ w d := by
    by_cases h : d = b
    · rw [h]
    · exact (hmin d hd (Ne.symm had) h).2
  -- first exchange: a takes the place of c
  have hp1 := leaves_map_swap_perm hnd ha hc
  have hnd1 : (leaves (map (Equiv.swap a c) t)).Nodup := hp1.nodup_iff.mpr hnd
  have hc1 := cost_swap_le w a c t hwac hda
  -- second exchange: b takes the place of d
  have hb1 : b ∈ leaves (map (Equiv.swap a c) t) := hp1.mem_iff.mpr hb
  have hd1 : d ∈ leaves (map (Equiv.swap a c) t) := hp1.mem_iff.mpr hd
  have hsb : Equiv.swap a c b = b := Equiv.swap_apply_of_ne_of_ne (Ne.symm hab) hbc
  have hsd : Equiv.swap a c d = d := Equiv.swap_apply_of_ne_of_ne (Ne.symm had) (Ne.symm hcd)
  have hdb1 : dsum (map (Equiv.swap a c) t) b ≤ dsum (map (Equiv.swap a c) t) d := by
    rw [dsum_map_swap, dsum_map_swap, hsb, hsd]; exact hdb
  have hp2 := leaves_map_swap_perm hnd1 hb1 hd1
  have hnd2 := hp2.nodup_iff.mpr hnd1
  have hc2 := cost_swap_le w b d (map (Equiv.swap a c) t) hwbd hdb1
  -- now a and b are siblings
  have hgc : Equiv.swap b d (Equiv.swap a c c) = a := by
    rw [Equiv.swap_apply_right]
    exact Equiv.swap_apply_of_ne_of_ne hab had
  have hgd : Equiv.swap b d (Equiv.swap a c d) = b := by
    rw [hsd, Equiv.swap_apply_right]
  have hs2 : Sib (map (Equiv.swap b d) (map (Equiv.swap a c) t)) a b ∨
      Sib (map (Equiv.swap b d) (map (Equiv.swap a c) t)) b a := by
    rcases hs with h | h
    · left
      have := sib_map (Equiv.swap b d) (sib_map (Equiv.swap a c) h)
      rwa [hgc, hgd] at this
    · right
      have := sib_map (Equiv.swap b d) (sib_map (Equiv.swap a c) h)
      rwa [hgc, hgd] at this
  obtain ⟨m1, _, m3⟩ := mergeSib_spec w a b hab _ hnd2 hs2
  refine ⟨_, m1.trans ((hp2.trans hp1).erase b), ?_⟩
  omega

/-- The exchange argument: in a tree with distinct leaves, two symbols `a`, `b` of least
weight can be made siblings and merged; the merged tree, with `a` carrying both weights,
costs at most the cost of the tree minus the two weights. -/
theorem exists_merged (w : Nat → Nat) (t : CodeTree) (a b : Nat) (hab : a ≠ b)
    (hnd : (leaves t).Nodup) (ha : a ∈ leaves t) (hb : b ∈ leaves t)
    (hmin : ∀ x ∈ leaves t, x ≠ a → x ≠ b → w a ≤ w x ∧ w b ≤ w x) :
    ∃ t1, (leaves t1).Perm ((leaves t).erase b) ∧
      cost (Function.update w a (w a + w b)) t1 + w a + w b ≤ cost w t := by
  have hleaf : ∀ s, t ≠ leaf s := by
    intro s hs
    subst hs
    simp only [leaves, List.mem_singleton] at ha hb
    exact hab (ha.trans hb.symm)
  obtain ⟨c, d, hs, hhc, hhd⟩ := exists_deepest_sib t hleaf
  have hc := sib_mem_left hs
  have hd := sib_mem_right hs
  have hcd := sib_ne hnd hs
  by_cases h : a ≠ d ∧ b ≠ c
  · exact exists_merged_of_sib w t a b c d hab hnd ha hb hmin hc hd hcd h.1 h.2 (Or.inl hs) hhc hhd
  · have h2 : a ≠ c ∧ b ≠ d := by
      by_cases h3 : a = d
      · subst h3
        exact ⟨Ne.symm hcd, Ne.symm hab⟩
      · have h4 : b = c := by
          by_contra h5
          exact h ⟨h3, h5⟩
        subst h4
        exact ⟨hab, hcd⟩
    exact exists_merged_of_sib w t a b d c hab hnd ha hb hmin hd hc (Ne.symm hcd) h2.1 h2.2
      (Or.inr hs) hhd hhc

end CodeTree

/-! ## The queue is sorted and the tree of `buildTree` is optimal -/

theorem insertPriority_sorted (q : List SymbolNode) (t : SymbolNode)
    (hq : q.Pairwise (fun x y => x.freq ≤ y.freq)) :
    (insertPriority q t).Pairwise (fun x y => x.freq ≤ y.freq) := by
  induction q with
  | nil => simp [insertPriority]
  | cons h q ih =>
    have hq1 := List.pairwise_cons.mp hq
    simp only [insertPriority]
    have hfront : t.freq ≤ h.freq →
        (t :: h :: q).Pairwise (fun x y => x.freq ≤ y.freq) := by
      intro hle
      refine List.pairwise_cons.mpr ⟨?_, hq⟩
      intro y hy
      rcases List.mem_cons.mp hy with rfl | hy
      · exact hle
      · exact hle.trans (hq1.1 y hy)
    have hback : h.freq ≤ t.freq →
        (h :: insertPriority q t).Pairwise (fun x y => x.freq ≤ y.freq) := by
      intro hle
      refine List.pairwise_cons.mpr ⟨?_, ih hq1.2⟩
      intro y hy
      rcases List.mem_cons.mp ((insertPriority_perm q t).subset hy) with rfl | hy
      · exact hle
      · exact hq1.1 y hy
    split_ifs with h1 h2 h3
    · exact hfront (by omega)
    · exact hback (by omega)
    · exact hfront (by omega)
    · exact hback (by omega)

theorem queueUpTo_sorted (freq : Nat → Nat) (k : Nat) :
    (queueUpTo freq k).Pairwise (fun x y => x.freq ≤ y.freq) := by
  induction k with
  | zero => simp [queueUpTo]
  | succ k ih =>
    simp only [queueUpTo]
    split_ifs
    · exact insertPriority_sorted _ _ ih
    · exact ih

theorem smallestValue_makeSymbol (f s : Nat) : smallestValue (makeSymbol f s) = s := rfl

theorem smallestValue_inner (f s n : Nat) (c : Nat → Nat) {l : SymbolNode} (r : SymbolNode)
    (hl : IsFull l) : smallestValue (node f s n c l r) = smallestValue l := by
  obtain ⟨f1, s1, n1, c1, l1, r1, rfl⟩ := isFull_exists_node hl
  simp [smallestValue]

theorem smallestValue_combineNodes {l : SymbolNode} (r : SymbolNode) (hl : IsFull l) :
    smallestValue (combineNodes l r) = smallestValue l :=
  smallestValue_inner _ _ _ _ r hl

theorem smallestValue_mem {t : SymbolNode} (h : IsFull t) :
    smallestValue t ∈ (leafPairs t).map Prod.fst := by
  induction h with
  | leaf f s n c => simp [smallestValue, leafPairs]
  | inner f s n c l r hl hr ihl ihr =>
    rw [smallestValue_inner f s n c r hl, leafPairs_inner f s n c r hl, List.map_append]
    exact List.mem_append_left _ ihl

theorem leafSum_makeSymbol (f s : Nat) : leafSum (makeSymbol f s) = f := by
  simp [leafSum, leafPairs_makeSymbol]

theorem leafSum_combineNodes {l : SymbolNode} (r : SymbolNode) (hl : IsFull l) :
    leafSum (combineNodes l r) = leafSum l + leafSum r := by
  simp [leafSum, leafPairs_combineNodes r hl]

theorem weightedPath_inner (d f s n : Nat) (c : Nat → Nat) {l : SymbolNode} (r : SymbolNode)
    (hl : IsFull l) :
    weightedPath d (node f s n c l r) = weightedPath (d + 1) l + weightedPath (d + 1) r := by
  obtain ⟨f1, s1, n1, c1, l1, r1, rfl⟩ := isFull_exists_node hl
  simp [weightedPath]

theorem leafSum_inner (f s n : Nat) (c : Nat → Nat) {l : SymbolNode} (r : SymbolNode)
    (hl : IsFull l) : leafSum (node f s n c l r) = leafSum l + leafSum r := by
  simp [leafSum, leafPairs_inner f s n c r hl]

theorem weightedPath_shift {t : SymbolNode} (h : IsFull t) :
    ∀ d, weightedPath d t = weightedPath 0 t + d * leafSum t := by
  induction h with
  | leaf f s n c => intro d; simp [weightedPath, leafSum, leafPairs, Nat.mul_comm]
  | inner f s n c l r hl hr ihl ihr =>
    intro d
    rw [weightedPath_inner d f s n c r hl, weightedPath_inner 0 f s n c r hl,
      leafSum_inner f s n c r hl, ihl (d + 1), ihr (d + 1), ihl (0 + 1), ihr (0 + 1)]
    ring

theorem weightedPath_combineNodes {l r : SymbolNode} (hl : IsFull l) (hr : IsFull r) :
    weightedPath 0 (combineNodes l r)
      = weightedPath 0 l + leafSum l + (weightedPath 0 r + leafSum r) := by
  rw [combineNodes, weightedPath_inner 0 _ _ _ _ r hl, weightedPath_shift hl 1,
    weightedPath_shift hr 1]
  ring

/-- Trees with disjoint leaves have distinct leftmost symbols. -/
theorem smallestValue_nodup (q : List SymbolNode) (hq : ∀ t ∈ q, IsFull t)
    (hnd : ((q.flatMap leafPairs).map Prod.fst).Nodup) : (q.map smallestValue).Nodup := by
  induction q with
  | nil => simp
  | cons a q ih =>
    simp only [List.flatMap_cons, List.map_append] at hnd
    rw [List.map_cons, List.nodup_cons]
    refine ⟨?_, ih (fun t ht => hq t (by simp [ht])) (List.Nodup.of_append_right hnd)⟩
    intro hmem
    obtain ⟨t, ht, hrep⟩ := List.mem_map.mp hmem
    have h1 := smallestValue_mem (hq a (by simp))
    have h2 := smallestValue_mem (hq t (by simp [ht]))
    rw [hrep] at h2
    have h3 : smallestValue a ∈ (q.flatMap leafPairs).map Prod.fst := by
      simp only [List.mem_map, List.mem_flatMap] at h2 ⊢
      obtain ⟨x, hx, hx2⟩ := h2
      exact ⟨x, ⟨t, ht, hx⟩, hx2⟩
    exact (List.disjoint_of_nodup_append hnd) h1 h3


/-- The loop of `buildTree`, on a queue that is sorted by frequency and whose frequencies
add up without overflow, ends with a tree that costs no more than any way of joining the
trees of the queue: `u` is a code tree over the leftmost symbols of the queued trees, each
weighted with the frequency of its tree. -/
theorem buildTreeLoop_optimal (fuel : Nat) :
    ∀ (q : List SymbolNode), q ≠ [] →
      (∀ t ∈ q, Built t ∧ t.freq = leafSum t) →
      q.Pairwise (fun x y => x.freq ≤ y.freq) →
      ((q.flatMap leafPairs).map Prod.fst).Nodup →
      (q.map SymbolNode.freq).sum < ULONG →
      q.length ≤ fuel + 1 →
      ∃ T, buildTreeLoop fuel q = .ok T ∧
        ∀ (w : Nat → Nat) (u : CodeTree), (∀ t ∈ q, w (smallestValue t) = t.freq) →
          (CodeTree.leaves u).Perm (q.map smallestValue) →
          weightedPath 0 T ≤ CodeTree.cost w u + (q.map (weightedPath 0)).sum := by
  induction fuel with
  | zero =>
    intro q hne hq _ _ _ hlen
    match q, hne, hlen with
    | [t], _, _ =>
      refine ⟨t, rfl, ?_⟩
      intro w u _ _
      simp
    | _ :: _ :: _, _, h => simp at h
  | succ fuel ih =>
    intro q hne hq hsorted hnd hsum hlen
    match q, hne, hlen, hq, hsorted, hnd, hsum with
    | [t], _, _, _, _, _, _ =>
      refine ⟨t, rfl, ?_⟩
      intro w u _ _
      simp
    | a :: b :: rest, _, hlen, hq, hsorted, hnd, hsum =>
      obtain ⟨hab, hfa⟩ := hq a (by simp)
      obtain ⟨hbb, hfb⟩ := hq b (by simp)
      have hfulla := built_isFull hab
      have hfullb := built_isFull hbb
      have hs1 := List.pairwise_cons.mp hsorted
      have hs2 := List.pairwise_cons.mp hs1.2
      simp only [List.map_cons, List.sum_cons] at hsum
      have hcfreq : (combineNodes a b).freq = a.freq + b.freq := by
        show (a.freq + b.freq) % ULONG = a.freq + b.freq
        exact Nat.mod_eq_of_lt (by omega)
      have hperm := insertPriority_perm rest (combineNodes a b)
      -- the invariants for the next queue
      have hq2 : ∀ t ∈ insertPriority rest (combineNodes a b), Built t ∧ t.freq = leafSum t := by
        intro t ht
        rcases List.mem_cons.mp (hperm.subset ht) with h | h
        · subst h
          exact ⟨Built.comb a b hab hbb, by rw [hcfreq, leafSum_combineNodes b hfulla, hfa, hfb]⟩
        · exact hq t (by simp [h])
      have hne2 : insertPriority rest (combineNodes a b) ≠ [] := by
        intro h0
        have := insertPriority_length rest (combineNodes a b)
        rw [h0] at this
        simp at this
      have hsorted2 := insertPriority_sorted rest (combineNodes a b) hs2.2
      have hleaves : ((insertPriority rest (combineNodes a b)).flatMap leafPairs).Perm
          ((a :: b :: rest).flatMap leafPairs) := by
        refine (hperm.flatMap_right leafPairs).trans ?_
        simp only [List.flatMap_cons, leafPairs_combineNodes b hfulla]
        simp
      have hnd2 : (((insertPriority rest (combineNodes a b)).flatMap leafPairs).map
          Prod.fst).Nodup := ((hleaves.map Prod.fst).nodup_iff).mpr hnd
      have hsum2 : ((insertPriority rest (combineNodes a b)).map SymbolNode.freq).sum < ULONG := by
        rw [(hperm.map SymbolNode.freq).sum_eq]
        simp only [List.map_cons, List.sum_cons, hcfreq]
        omega
      have hlen2 : (insertPriority rest (combineNodes a b)).length ≤ fuel + 1 := by
        rw [insertPriority_length]
        simp at hlen
        omega
      obtain ⟨T, hT, hopt⟩ := ih _ hne2 hq2 hsorted2 hnd2 hsum2 hlen2
      refine ⟨T, by simpa [buildTreeLoop, popPriority] using hT, ?_⟩
      intro w u hw hu
      -- the leftmost symbols are distinct
      have hrepnd := smallestValue_nodup (a :: b :: rest)
        (fun t ht => built_isFull (hq t ht).1) hnd
      simp only [List.map_cons, List.nodup_cons, List.mem_cons, not_or] at hrepnd
      obtain ⟨⟨hrab, hra_rest⟩, hrb_rest, _⟩ := hrepnd
      have hund : (CodeTree.leaves u).Nodup := by
        refine (hu.nodup_iff).mpr ?_
        exact smallestValue_nodup (a :: b :: rest) (fun t ht => built_isFull (hq t ht).1) hnd
      have hua : smallestValue a ∈ CodeTree.leaves u := hu.symm.subset (by simp)
      have hub : smallestValue b ∈ CodeTree.leaves u := hu.symm.subset (by simp)
      have hwa : w (smallestValue a) = a.freq := hw a (by simp)
      have hwb : w (smallestValue b) = b.freq := hw b (by simp)
      have hmin : ∀ x ∈ CodeTree.leaves u, x ≠ smallestValue a → x ≠ smallestValue b →
          w (smallestValue a) ≤ w x ∧ w (smallestValue b) ≤ w x := by
        intro x hx hxa hxb
        have hx2 := hu.subset hx
        simp only [List.map_cons, List.mem_cons] at hx2
        rcases hx2 with h | h | h
        · exact absurd h hxa
        · exact absurd h hxb
        · obtain ⟨t, ht, rfl⟩ := List.mem_map.mp h
          rw [hwa, hwb, hw t (by simp [ht])]
          exact ⟨(hs1.1 b (by simp)).trans (hs2.1 t ht), hs2.1 t ht⟩
      obtain ⟨u1, hu1, hcost⟩ := CodeTree.exists_merged w u (smallestValue a) (smallestValue b)
        hrab hund hua hub hmin
      -- the merged tree is a code tree for the next queue
      have hu1' : (CodeTree.leaves u1).Perm
          ((insertPriority rest (combineNodes a b)).map smallestValue) := by
        refine hu1.trans ?_
        refine ((hu.erase (smallestValue b)).trans ?_).trans (hperm.map smallestValue).symm
        simp only [List.map_cons, smallestValue_combineNodes b hfulla]
        rw [List.erase_cons_tail (by simpa using hrab), List.erase_cons_head]
      have hw1 : ∀ t ∈ insertPriority rest (combineNodes a b),
          Function.update w (smallestValue a) (w (smallestValue a) + w (smallestValue b))
            (smallestValue t) = t.freq := by
        intro t ht
        rcases List.mem_cons.mp (hperm.subset ht) with h | h
        · subst h
          rw [smallestValue_combineNodes b hfulla, Function.update_same, hwa, hwb, hcfreq]
        · have hne : smallestValue t ≠ smallestValue a := by
            intro heq
            exact hra_rest (by rw [← heq]; exact List.mem_map_of_mem _ h)
          rw [Function.update_noteq hne]
          exact hw t (by simp [h])
      have hfinal := hopt _ u1 hw1 hu1'
      rw [(hperm.map (weightedPath 0)).sum_eq] at hfinal
      simp only [List.map_cons, List.sum_cons, weightedPath_combineNodes hfulla hfullb] at hfinal ⊢
      have hcost2 : CodeTree.cost
          (Function.update w (smallestValue a) (w (smallestValue a) + w (smallestValue b))) u1
          + leafSum a + leafSum b ≤ CodeTree.cost w u := by
        rw [← hfa, ← hfb, ← hwa, ← hwb]
        exact hcost
      omega


theorem leafInfo_inner (f s n : Nat) (c : Nat → Nat) {l : SymbolNode} (r : SymbolNode)
    (hl : IsFull l) : leafInfo (node f s n c l r) = leafInfo l ++ leafInfo r := by
  obtain ⟨f1, s1, n1, c1, l1, r1, rfl⟩ := isFull_exists_node hl
  simp [leafInfo]

theorem leafInfo_pairs {t : SymbolNode} (h : IsFull t) :
    (leafInfo t).map (fun x => (x.1, x.2.1)) = leafPairs t := by
  induction h with
  | leaf f s n c => simp [leafInfo, leafPairs]
  | inner f s n c l r hl hr ihl ihr =>
    rw [leafInfo_inner f s n c r hl, leafPairs_inner f s n c r hl, List.map_append, ihl, ihr]

theorem setCodes_inner (path : List Nat) (f s n : Nat) (c : Nat → Nat) (l r : SymbolNode) :
    setCodes path (node f s n c l r)
      = node f s path.length (fun k => path.getD k (c k))
          (setCodes (path ++ [0]) l) (setCodes (path ++ [1]) r) := rfl

/-- After `fillCodes` the sum over the leaves of frequency times `length` is the weighted
path length. -/
theorem sum_leafInfo_setCodes {t : SymbolNode} (h : IsFull t) :
    ∀ path : List Nat,
      ((leafInfo (setCodes path t)).map (fun x => x.2.1 * x.2.2)).sum
        = weightedPath path.length t := by
  induction h with
  | leaf f s n c => intro path; simp [setCodes, leafInfo, weightedPath]
  | inner f s n c l r hl hr ihl ihr =>
    intro path
    rw [setCodes_inner, leafInfo_inner _ _ _ _ _ (setCodes_isFull hl _),
      weightedPath_inner _ f s n c r hl, List.map_append, List.sum_append, ihl, ihr]
    simp

theorem sum_leafInfo_fillFromRoot {t : SymbolNode} (h : IsFull t) (h0 : t.length = 0) :
    ((leafInfo (fillFromRoot t)).map (fun x => x.2.1 * x.2.2)).sum = weightedPath 0 t := by
  cases h with
  | leaf f s n c =>
    simp only [SymbolNode.length] at h0
    subst h0
    simp [fillFromRoot, setCodes, leafInfo, weightedPath]
  | inner f s n c l r hl hr =>
    have h1 := sum_leafInfo_setCodes hl [0]
    have h2 := sum_leafInfo_setCodes hr [1]
    simp only [List.length_singleton] at h1 h2
    rw [fillFromRoot, leafInfo_inner _ _ _ _ _ (setCodes_isFull hl _),
      weightedPath_inner _ f s n c r hl, List.map_append, List.sum_append, h1, h2]

theorem findLeaf_eq_null_of_not_mem {t : SymbolNode} (h : IsFull t) (i : Nat)
    (hi : i ∉ (leafInfo t).map (fun x => x.1)) : findLeaf i t = null := by
  induction h with
  | leaf f s n c =>
    simp only [leafInfo, List.map_cons, List.map_nil, List.mem_singleton] at hi
    simp [findLeaf, Ne.symm hi]
  | inner f s n c l r hl hr ihl ihr =>
    rw [leafInfo_inner f s n c r hl, List.map_append, List.mem_append, not_or] at hi
    rw [findLeaf_inner i f s n c r hl, ihl hi.1, ihr hi.2]
    simp [SymbolNode.isNull]

/-- In a tree with distinct leaf symbols `findLeaf` finds the leaf with the given symbol,
so the table entry has the `length` of that leaf. -/
theorem findLeaf_length {t : SymbolNode} (h : IsFull t)
    (hnd : ((leafInfo t).map (fun x => x.1)).Nodup) :
    ∀ x ∈ leafInfo t, (findLeaf x.1 t).length = x.2.2 := by
  induction h with
  | leaf f s n c =>
    intro x hx
    simp only [leafInfo, List.mem_singleton] at hx
    subst hx
    simp [findLeaf, SymbolNode.length]
  | inner f s n c l r hl hr ihl ihr =>
    intro x hx
    rw [leafInfo_inner f s n c r hl] at hx hnd
    rw [List.map_append] at hnd
    rw [findLeaf_inner x.1 f s n c r hl]
    rcases List.mem_append.mp hx with h1 | h1
    · have hne : findLeaf x.1 l ≠ null := by
        have hmem : (x.1, x.2.1) ∈ leafPairs l := by
          rw [← leafInfo_pairs hl]
          exact List.mem_map_of_mem (fun x => (x.1, x.2.1)) h1
        exact findLeaf_ne_null hl x.1 x.2.1 hmem
      rw [if_neg (fun h => hne ((isNull_iff _).mp h))]
      exact ihl (List.Nodup.of_append_left hnd) x h1
    · have hnot : x.1 ∉ (leafInfo l).map (fun x => x.1) := by
        intro hmem
        exact (List.disjoint_of_nodup_append hnd) hmem
          (List.mem_map_of_mem (fun x => x.1) h1)
      rw [findLeaf_eq_null_of_not_mem hl x.1 hnot]
      simp only [SymbolNode.isNull, if_true]
      exact ihr (List.Nodup.of_append_right hnd) x h1

theorem present_nodup (freq : Nat → Nat) : (present freq).Nodup :=
  (List.nodup_range 256).filter _

theorem present_mem (freq : Nat → Nat) (i : Nat) : i ∈ present freq ↔ i < 256 ∧ freq i ≠ 0 := by
  simp [present]

/-- The weighted code length of the table `generateCodes` returns is the weighted path
length of the tree `buildTree` built. -/
theorem weightedCodeLength_eq (freq : Nat → Nat) {t : SymbolNode} (ht : Built t)
    (hperm : (leafPairs t).Perm ((present freq).map (fun i => (i, freq i)))) :
    weightedCodeLength freq
        (fun i => if i < 256 ∧ freq i ≠ 0 then findLeaf i (fillFromRoot t) else null)
      = weightedPath 0 t := by
  have hfull := fillFromRoot_isFull (built_isFull ht)
  have hpairs : ((leafInfo (fillFromRoot t)).map (fun x => (x.1, x.2.1))).Perm
      ((present freq).map (fun i => (i, freq i))) := by
    rw [leafInfo_pairs hfull, fillFromRoot_leafPairs]; exact hperm
  have hsyms : ((leafInfo (fillFromRoot t)).map (fun x => x.1)).Perm (present freq) := by
    have := hpairs.map Prod.fst
    rw [List.map_map, List.map_map] at this
    have e1 : (Prod.fst ∘ fun (x : Nat × Nat × Nat) => (x.1, x.2.1)) = fun x => x.1 := rfl
    have e2 : (Prod.fst ∘ fun (i : Nat) => (i, freq i)) = fun i => i := rfl
    rw [e1, e2, List.map_id'] at this
    exact this
  have hnd : ((leafInfo (fillFromRoot t)).map (fun x => x.1)).Nodup :=
    (hsyms.nodup_iff).mpr (present_nodup freq)
  rw [← sum_leafInfo_fillFromRoot (built_isFull ht) (built_length ht), weightedCodeLength]
  have h1 := (hsyms.map (fun i => freq i *
    (if i < 256 ∧ freq i ≠ 0 then findLeaf i (fillFromRoot t) else null).length)).sum_eq
  rw [← h1, List.map_map]
  congr 1
  apply List.map_congr_left
  intro x hx
  have hx1 : x.1 ∈ present freq := hsyms.subset (List.mem_map_of_mem (fun x => x.1) hx)
  have hx2 := (present_mem freq x.1).mp hx1
  have hx3 : (x.1, x.2.1) ∈ (present freq).map (fun i => (i, freq i)) :=
    hpairs.subset (List.mem_map_of_mem (fun x => (x.1, x.2.1)) hx)
  have hx4 : x.2.1 = freq x.1 := by
    simp only [List.mem_map, Prod.mk.injEq] at hx3
    obtain ⟨j, _, hj1, hj2⟩ := hx3
    rw [← hj2, hj1]
  simp only [Function.comp, hx2, ne_eq, not_false_eq_true, and_self, if_true]
  rw [findLeaf_length hfull hnd x hx, hx4]


/-! ## Claim C3 -/

theorem queueUpTo_leaf_facts (freq : Nat → Nat) (k : Nat) :
    (queueUpTo freq k).map smallestValue = ((queueUpTo freq k).flatMap leafPairs).map Prod.fst ∧
    ((queueUpTo freq k).map SymbolNode.freq).sum
      = (((queueUpTo freq k).flatMap leafPairs).map Prod.snd).sum ∧
    ((queueUpTo freq k).map (weightedPath 0)).sum = 0 := by
  have hall := queueUpTo_mem freq k
  generalize queueUpTo freq k = q at hall
  induction q with
  | nil => simp
  | cons a q ih =>
    obtain ⟨i, _, _, rfl⟩ := hall a (by simp)
    obtain ⟨h1, h2, h3⟩ := ih (fun t ht => hall t (by simp [ht]))
    refine ⟨?_, ?_, ?_⟩
    · simp [h1, leafPairs_makeSymbol, smallestValue_makeSymbol]
    · simp only [List.map_cons, List.sum_cons, List.flatMap_cons, leafPairs_makeSymbol,
        List.singleton_append, h2]
      rfl
    · simp only [List.map_cons, List.sum_cons, h3]
      rfl

/-- C3 (amended). For every frequency table with at least two non-zero entries whose
entries sum to less than `2^64`, the code of `generateCodes` is optimal: its weighted code
length (the sum over the present symbols of frequency times code length) is at most the
weighted code length of every binary tree whose leaves are exactly the present symbols. -/
theorem generateCodes_optimal (freq : Nat → Nat)
    (htwo : ∃ i j, i < 256 ∧ j < 256 ∧ i ≠ j ∧ freq i ≠ 0 ∧ freq j ≠ 0)
    (hsum : ((present freq).map freq).sum < 2 ^ 64) :
    ∃ codes root, generateCodes freq = .ok (codes, root) ∧
      ∀ u : CodeTree, (CodeTree.leaves u).Perm (present freq) →
        weightedCodeLength freq codes ≤ CodeTree.weightedLength freq 0 u := by
  obtain ⟨i, _, hi, _, _, hfi, _⟩ := htwo
  have hex : ∃ i, i < 256 ∧ freq i ≠ 0 := ⟨i, hi, hfi⟩
  obtain ⟨t, hbuilt, hbuild, hperm, hgen⟩ := generateCodes_ok freq hex
  refine ⟨_, _, hgen, ?_⟩
  intro u hu
  rw [weightedCodeLength_eq freq hbuilt hperm, CodeTree.weightedLength_zero]
  -- the queue `generateCodes` hands to `buildTree`
  obtain ⟨hq1, hq2, hq3⟩ := queueUpTo_leaf_facts freq 256
  have hpairs := queueUpTo_leafPairs freq 256
  have hsyms : ((queueUpTo freq 256).map smallestValue).Perm (present freq) := by
    rw [hq1]
    have := hpairs.map Prod.fst
    rw [List.map_map] at this
    have e2 : (Prod.fst ∘ fun (i : Nat) => (i, freq i)) = fun i => i := rfl
    rw [e2, List.map_id'] at this
    exact this
  have hall : ∀ t ∈ queueUpTo freq 256, Built t ∧ t.freq = leafSum t := by
    intro t ht
    obtain ⟨j, _, _, rfl⟩ := queueUpTo_mem freq 256 t ht
    exact ⟨Built.leaf _ _, (leafSum_makeSymbol _ _).symm⟩
  have hnd : (((queueUpTo freq 256).flatMap leafPairs).map Prod.fst).Nodup := by
    rw [← hq1]
    exact (hsyms.nodup_iff).mpr (present_nodup freq)
  have hsum2 : ((queueUpTo freq 256).map SymbolNode.freq).sum < ULONG := by
    rw [hq2]
    have := (hpairs.map Prod.snd).sum_eq
    rw [List.map_map] at this
    have e2 : (Prod.snd ∘ fun (i : Nat) => (i, freq i)) = freq := rfl
    rw [e2] at this
    rw [this]
    exact hsum
  obtain ⟨T, hT, hopt⟩ := buildTreeLoop_optimal (queueUpTo freq 256).length _
    (queueUpTo_ne_nil freq 256 hex) hall (queueUpTo_sorted freq 256) hnd hsum2 (by omega)
  have hTt : T = t := by
    rw [buildTree, hT] at hbuild
    injection hbuild
  subst hTt
  have hw : ∀ t ∈ queueUpTo freq 256, freq (smallestValue t) = t.freq := by
    intro t ht
    obtain ⟨j, _, _, rfl⟩ := queueUpTo_mem freq 256 t ht
    rfl
  have := hopt freq u hw (hu.trans hsyms.symm)
  rw [hq3] at this
  simpa using this

theorem generateCodes_optimal_witness :
    (∃ i j, i < 256 ∧ j < 256 ∧ i ≠ j ∧ sampleFreq i ≠ 0 ∧ sampleFreq j ≠ 0) ∧
      ((present sampleFreq).map sampleFreq).sum < 2 ^ 64 ∧
      ∃ codes root, generateCodes sampleFreq = .ok (codes, root) ∧
        ∀ u : CodeTree, (CodeTree.leaves u).Perm (present sampleFreq) →
          weightedCodeLength sampleFreq codes ≤ CodeTree.weightedLength sampleFreq 0 u :=
  have h1 : ∃ i j, i < 256 ∧ j < 256 ∧ i ≠ j ∧ sampleFreq i ≠ 0 ∧ sampleFreq j ≠ 0 :=
    ⟨97, 98, by decide, by decide, by decide, by decide, by decide⟩
  have h2 : ((present sampleFreq).map sampleFreq).sum < 2 ^ 64 := by decide
  ⟨h1, h2, generateCodes_optimal sampleFreq h1 h2⟩

theorem overflowFreq_lengths :
    (match generateCodes overflowFreq with
      | .ok (codes, _) => [(codes 97).length, (codes 98).length, (codes 99).length,
          (codes 100).length]
      | .error _ => []) = [3, 3, 2, 1] := by
  decide!

/-- C3 fails as stated: frequencies are `unsigned long` and `combineNodes` adds them modulo
`2^64`. For the table `a: 2^63, b: 2^63, c: 2^63+1, d: 2^63+1` the node that joins `a` and
`b` gets the frequency 0, the codes get the lengths 3, 3, 2, 1, and the balanced tree has a
smaller weighted code length. -/
theorem generateCodes_not_optimal :
    ¬ ∃ codes root, generateCodes overflowFreq = .ok (codes, root) ∧
      ∀ u : CodeTree, (CodeTree.leaves u).Perm (present overflowFreq) →
        weightedCodeLength overflowFreq codes ≤ CodeTree.weightedLength overflowFreq 0 u := by
  rintro ⟨codes, root, hgen, hall⟩
  have hlen := overflowFreq_lengths
  rw [hgen] at hlen
  simp only [List.cons.injEq, and_true] at hlen
  obtain ⟨l1, l2, l3, l4⟩ := hlen
  have hp : present overflowFreq = [97, 98, 99, 100] := by decide
  have h := hall (.node (.node (.leaf 97) (.leaf 98)) (.node (.leaf 99) (.leaf 100)))
    (by rw [hp]; exact List.Perm.refl _)
  rw [weightedCodeLength, hp] at h
  simp only [List.map_cons, List.map_nil, List.sum_cons, List.sum_nil, l1, l2, l3, l4,
    CodeTree.weightedLength] at h
  have f1 : overflowFreq 97 = 2 ^ 63 := by decide
  have f2 : overflowFreq 98 = 2 ^ 63 := by decide
  have f3 : overflowFreq 99 = 2 ^ 63 + 1 := by decide
  have f4 : overflowFreq 100 = 2 ^ 63 + 1 := by decide
  rw [f1, f2, f3, f4] at h
  omega


/-! ## The code table of `generateCodes`, entry by entry -/

theorem nodeAt_length_lt_height (t : SymbolNode) :
    ∀ p : List Bool, nodeAt t p ≠ null → p.length < height t := by
  induction t with
  | null => intro p h; exact absurd (nodeAt_null p) h
  | node f s n c l r ihl ihr =>
    intro p h
    cases p with
    | nil => simp [height]
    | cons b p =>
      cases b
      · have := ihl p (by simpa [nodeAt] using h)
        simp only [height, List.length_cons]
        omega
      · have := ihr p (by simpa [nodeAt] using h)
        simp only [height, List.length_cons]
        omega

theorem built_nodeAt_code {t : SymbolNode} (h : Built t) :
    ∀ p : List Bool, (nodeAt t p).code = fun _ => 0 := by
  induction h with
  | leaf f s =>
    intro p
    cases p with
    | nil => rfl
    | cons b p => cases b <;> simp [makeSymbol, nodeAt, nodeAt_null, SymbolNode.code]
  | comb l r _ _ ihl ihr =>
    intro p
    cases p with
    | nil => rfl
    | cons b p => cases b <;> simp [combineNodes, nodeAt, ihl, ihr]

theorem setCodes_code (path : List Nat) {t : SymbolNode} (h : t ≠ null) (k : Nat) :
    (setCodes path t).code k = path.getD k (t.code k) := by
  cases t with
  | null => exact absurd rfl h
  | node f s n c l r => rfl

/-- A present entry of the table `generateCodes` returns, in terms of the path `p` of its
leaf: the code length is `|p|`, the code array holds the path and zeros behind it. -/
theorem generateCodes_entry {t : SymbolNode} (ht : Built t) (i : Nat)
    (hne : findLeaf i (fillFromRoot t) ≠ null) :
    ∃ p : List Bool, nodeAt (fillFromRoot t) p = findLeaf i (fillFromRoot t) ∧
      isLeaf (findLeaf i (fillFromRoot t)) = true ∧
      (findLeaf i (fillFromRoot t)).symbol = i ∧
      (findLeaf i (fillFromRoot t)).length = p.length ∧
      (findLeaf i (fillFromRoot t)).code = (fun k => (p.map Bool.toNat).getD k 0) ∧
      p.length < height t := by
  have hfull := fillFromRoot_isFull (built_isFull ht)
  obtain ⟨k1, k2, _, p, k4⟩ := findLeaf_found hfull i hne
  have hnn : nodeAt (fillFromRoot t) p ≠ null := by rw [k4]; exact hne
  have hcode := nodeAt_fillFromRoot_code t (built_length ht) p hnn
  have hnn2 : nodeAt t p ≠ null := fun h => hnn ((nodeAt_fillFromRoot_eq_null t p).mpr h)
  refine ⟨p, k4, k1, k2, by rw [← k4]; exact hcode.1, ?_, nodeAt_length_lt_height t p hnn2⟩
  rw [← k4]
  funext k
  cases p with
  | nil =>
    have := built_nodeAt_code ht []
    rw [nodeAt_nil] at this ⊢
    cases ht with
    | leaf f s => simp [fillFromRoot, makeSymbol, SymbolNode.code]
    | comb l r _ _ => simp [fillFromRoot, combineNodes, SymbolNode.code]
  | cons b q =>
    rw [nodeAt_fillFromRoot_cons, setCodes_code _ hnn2, built_nodeAt_code ht]
    simp


theorem isLeaf_eq_true_iff (t : SymbolNode) :
    isLeaf t = true ↔ ∃ f s n c, t = node f s n c null null := by
  cases t with
  | null => simp [isLeaf]
  | node f s n c l r =>
    cases l <;> cases r <;> simp [isLeaf]

theorem toNat_getD_le_one (p : List Bool) (k : Nat) : (p.map Bool.toNat).getD k 0 ≤ 1 := by
  rw [List.getD_eq_getElem?_getD]
  by_cases h : k < (p.map Bool.toNat).length
  · rw [List.getElem?_eq_getElem h]
    simp only [List.getElem_map, Option.getD_some]
    exact Bool.toNat_le _
  · rw [List.getElem?_eq_none (by omega)]
    simp

theorem codeBits_codeLeaf (f s : Nat) (p : List Bool) :
    codeBits (codeLeaf f s p) = p.map Bool.toNat := by
  simp only [codeBits, codeLeaf, SymbolNode.length, SymbolNode.code]
  apply List.ext_getElem
  · simp
  · intro k h1 h2
    simp only [List.length_map, List.length_range] at h1
    simp [List.getD_eq_getElem?_getD, List.getElem?_eq_getElem, h1]

theorem codeLeaf_wellFormed (f s : Nat) (p : List Bool) (hp : p.length ≤ 255) :
    EntryWellFormed (codeLeaf f s p) := by
  refine ⟨hp, fun k _ => toNat_getD_le_one p k, fun k hk _ => ?_⟩
  simp only [codeLeaf, SymbolNode.length, SymbolNode.code] at hk ⊢
  rw [List.getD_eq_getElem?_getD, List.getElem?_eq_none (by simpa using hk)]
  rfl

theorem isFull_nodeAt {t : SymbolNode} (h : IsFull t) :
    ∀ p : List Bool, nodeAt t p ≠ null → IsFull (nodeAt t p) := by
  induction h with
  | leaf f s n c =>
    intro p hp
    cases p with
    | nil => rw [nodeAt_nil]; exact IsFull.leaf f s n c
    | cons b p => exact absurd (isLeaf_nodeAt_cons (by rfl) b p) hp
  | inner f s n c l r hl hr ihl ihr =>
    intro p hp
    cases p with
    | nil => rw [nodeAt_nil]; exact IsFull.inner f s n c l r hl hr
    | cons b p =>
      cases b with
      | false => rw [nodeAt_inner_left] at hp ⊢; exact ihl p hp
      | true => rw [nodeAt_inner_right] at hp ⊢; exact ihr p hp

theorem exists_leaf_below {t : SymbolNode} (h : IsFull t) :
    ∃ q : List Bool, isLeaf (nodeAt t q) = true := by
  induction h with
  | leaf f s n c => exact ⟨[], by rw [nodeAt_nil]; rfl⟩
  | inner f s n c l r hl hr ihl ihr =>
    obtain ⟨q, hq⟩ := ihl
    exact ⟨false :: q, by rw [nodeAt_inner_left]; exact hq⟩

theorem leaf_mem_leafPairs {t : SymbolNode} (h : IsFull t) :
    ∀ p : List Bool, isLeaf (nodeAt t p) = true →
      ((nodeAt t p).symbol, (nodeAt t p).freq) ∈ leafPairs t := by
  induction h with
  | leaf f s n c =>
    intro p hp
    cases p with
    | nil => rw [nodeAt_nil]; simp [leafPairs, SymbolNode.symbol, SymbolNode.freq]
    | cons b p =>
      rw [isLeaf_nodeAt_cons (by rfl)] at hp
      simp [isLeaf] at hp
  | inner f s n c l r hl hr ihl ihr =>
    intro p hp
    rw [leafPairs_inner f s n c r hl]
    cases p with
    | nil =>
      rw [nodeAt_nil, isLeaf_inner f s n c r hl] at hp
      exact absurd hp (by simp)
    | cons b p =>
      cases b with
      | false =>
        rw [nodeAt_inner_left] at hp ⊢
        exact List.mem_append_left _ (ihl p hp)
      | true =>
        rw [nodeAt_inner_right] at hp ⊢
        exact List.mem_append_right _ (ihr p hp)

/-- In a full tree whose leaves carry distinct symbols a symbol sits on one leaf only. -/
theorem leaf_path_unique {t : SymbolNode} (h : IsFull t) :
    ((leafPairs t).map Prod.fst).Nodup → ∀ p q : List Bool,
      isLeaf (nodeAt t p) = true → isLeaf (nodeAt t q) = true →
      (nodeAt t p).symbol = (nodeAt t q).symbol → p = q := by
  induction h with
  | leaf f s n c =>
    intro _ p q hp hq _
    cases p with
    | cons b p => rw [isLeaf_nodeAt_cons (by rfl)] at hp; simp [isLeaf] at hp
    | nil =>
      cases q with
      | cons b q => rw [isLeaf_nodeAt_cons (by rfl)] at hq; simp [isLeaf] at hq
      | nil => rfl
  | inner f s n c l r hl hr ihl ihr =>
    intro hnd p q hp hq hsym
    rw [leafPairs_inner f s n c r hl, List.map_append] at hnd
    have hndl := List.Nodup.of_append_left hnd
    have hndr := List.Nodup.of_append_right hnd
    have hdis := List.disjoint_of_nodup_append hnd
    cases p with
    | nil => rw [nodeAt_nil, isLeaf_inner f s n c r hl] at hp; exact absurd hp (by simp)
    | cons b p =>
      cases q with
      | nil => rw [nodeAt_nil, isLeaf_inner f s n c r hl] at hq; exact absurd hq (by simp)
      | cons b2 q =>
        cases b <;> cases b2 <;>
          simp only [nodeAt_inner_left, nodeAt_inner_right] at hp hq hsym
        · rw [ihl hndl p q hp hq hsym]
        · have h1 := List.mem_map_of_mem Prod.fst (leaf_mem_leafPairs hl p hp)
          have h2 := List.mem_map_of_mem Prod.fst (leaf_mem_leafPairs hr q hq)
          simp only at h1 h2
          rw [hsym] at h1
          exact absurd h2 (hdis h1)
        · have h1 := List.mem_map_of_mem Prod.fst (leaf_mem_leafPairs hr p hp)
          have h2 := List.mem_map_of_mem Prod.fst (leaf_mem_leafPairs hl q hq)
          simp only at h1 h2
          rw [hsym] at h1
          exact absurd h1 (hdis h2)
        · rw [ihr hndr p q hp hq hsym]

theorem nodeAt_ne_null_of_append {t : SymbolNode} {p q : List Bool}
    (h : nodeAt t (p ++ q) ≠ null) : nodeAt t p ≠ null := by
  intro h0
  rw [nodeAt_append, h0, nodeAt_null] at h
  exact h rfl

/-- The table and the tree `generateCodes` returns, with the code path of every present
symbol: each present entry is the leaf with its symbol, frequency and code; the codes are
shorter than 256 bits and none is a prefix of another; the tree is full, its leaves are the
present symbols, and every node of it lies on the way to a present symbol. -/
theorem generateCodes_facts (freq : Nat → Nat) (h : ∃ i, i < 256 ∧ freq i ≠ 0) :
    ∃ (codes : Nat → SymbolNode) (root : SymbolNode) (path : Nat → List Bool),
      generateCodes freq = .ok (codes, root) ∧
      (∀ i, i < 256 → freq i = 0 → codes i = null) ∧
      (∀ i, i < 256 → freq i ≠ 0 →
        codes i = codeLeaf (freq i) i (path i) ∧ nodeAt root (path i) = codes i ∧
          (path i).length ≤ 255) ∧
      (∀ i j, i < 256 → j < 256 → freq i ≠ 0 → freq j ≠ 0 → i ≠ j →
        ¬ (path i <+: path j)) ∧
      ((∃ i j, i < 256 ∧ j < 256 ∧ i ≠ j ∧ freq i ≠ 0 ∧ freq j ≠ 0) →
        ∀ i, i < 256 → freq i ≠ 0 → path i ≠ []) ∧
      IsFull root ∧
      (leafPairs root).Perm ((present freq).map (fun i => (i, freq i))) ∧
      (∀ p, nodeAt root p ≠ null → ∃ i, i < 256 ∧ freq i ≠ 0 ∧ p <+: path i) := by
  obtain ⟨t, hbuilt, _, hperm, hgen⟩ := generateCodes_ok freq h
  have hfull := fillFromRoot_isFull (built_isFull hbuilt)
  have hperm2 : (leafPairs (fillFromRoot t)).Perm ((present freq).map (fun i => (i, freq i))) := by
    rw [fillFromRoot_leafPairs]; exact hperm
  have hheight : height t ≤ 256 := by
    have := height_le_leaves (built_isFull hbuilt)
    have := hperm.length_eq
    have := present_pairs_length freq
    omega
  have key : ∀ i, ∃ p : List Bool, i < 256 → freq i ≠ 0 →
      findLeaf i (fillFromRoot t) = codeLeaf (freq i) i p ∧
      nodeAt (fillFromRoot t) p = findLeaf i (fillFromRoot t) ∧ p.length ≤ 255 := by
    intro i
    by_cases hi : i < 256 ∧ freq i ≠ 0
    · have hmem : (i, freq i) ∈ leafPairs (fillFromRoot t) := by
        apply hperm2.symm.subset
        simp only [present, List.mem_map, List.mem_filter, List.mem_range]
        exact ⟨i, ⟨hi.1, by simpa using hi.2⟩, rfl⟩
      have hne := findLeaf_ne_null hfull i (freq i) hmem
      obtain ⟨p, e1, e2, e3, e4, e5, e6⟩ := generateCodes_entry hbuilt i hne
      obtain ⟨_, _, k3, _⟩ := findLeaf_found hfull i hne
      have hfreq : (findLeaf i (fillFromRoot t)).freq = freq i := by
        have := hperm2.subset k3
        simp only [List.mem_map, Prod.mk.injEq] at this
        obtain ⟨j, _, hj1, hj2⟩ := this
        rw [← hj2, ← e3, ← hj1]
      refine ⟨p, fun _ _ => ⟨?_, e1, by omega⟩⟩
      obtain ⟨f, s, n, c, hnode⟩ := (isLeaf_eq_true_iff _).mp e2
      rw [hnode] at e3 e4 e5 hfreq ⊢
      simp only [SymbolNode.symbol, SymbolNode.length, SymbolNode.code, SymbolNode.freq]
        at e3 e4 e5 hfreq
      rw [codeLeaf, e3, e4, e5, hfreq]
    · exact ⟨[], fun h1 h2 => absurd ⟨h1, h2⟩ hi⟩
  choose path hpath using key
  refine ⟨_, _, path, hgen, ?_, ?_, ?_, ?_, hfull, hperm2, ?_⟩
  · intro i _ hf
    simp [hf]
  · intro i hi hf
    obtain ⟨e1, e2, e3⟩ := hpath i hi hf
    simp only [hi, hf, ne_eq, not_false_eq_true, and_self, if_true]
    exact ⟨e1, e2, e3⟩
  · intro i j hi hj hfi hfj hij hpre
    obtain ⟨e1, e2, _⟩ := hpath i hi hfi
    obtain ⟨g1, g2, _⟩ := hpath j hj hfj
    obtain ⟨q, hq⟩ := hpre
    cases q with
    | nil =>
      rw [List.append_nil] at hq
      rw [← hq, e2, e1, g1] at g2
      simp only [codeLeaf, SymbolNode.node.injEq] at g2
      exact hij g2.2.1
    | cons b q =>
      rw [← hq, nodeAt_append, e2, e1] at g2
      rw [isLeaf_nodeAt_cons (by rfl), g1] at g2
      simp [codeLeaf] at g2
  · rintro ⟨a, b, ha, hb, hab, hfa, hfb⟩ i hi hf hnil
    obtain ⟨e1, e2, _⟩ := hpath i hi hf
    rw [hnil, nodeAt_nil] at e2
    -- the root is a leaf, so the tree has one leaf only
    have hone : (leafPairs (fillFromRoot t)).length = 1 := by
      rw [e2, e1]; rfl
    have hma : a ∈ present freq := (present_mem freq a).mpr ⟨ha, hfa⟩
    have hmb : b ∈ present freq := (present_mem freq b).mpr ⟨hb, hfb⟩
    have hlen := hperm2.length_eq
    rw [hone, List.length_map] at hlen
    obtain ⟨x, hx⟩ := List.length_eq_one.mp hlen.symm
    rw [hx] at hma hmb
    simp only [List.mem_singleton] at hma hmb
    exact hab (hma.trans hmb.symm)
  · intro p hp
    obtain ⟨q, hq⟩ := exists_leaf_below (isFull_nodeAt hfull p hp)
    rw [← nodeAt_append] at hq
    have hmem := hperm2.subset (leaf_mem_leafPairs hfull (p ++ q) hq)
    simp only [List.mem_map, Prod.mk.injEq] at hmem
    obtain ⟨i, hi, hi1, _⟩ := hmem
    obtain ⟨hi256, hfi⟩ := (present_mem freq i).mp hi
    obtain ⟨e1, e2, _⟩ := hpath i hi256 hfi
    have hnd : ((leafPairs (fillFromRoot t)).map Prod.fst).Nodup := by
      have h1 := (hperm2.map Prod.fst).nodup_iff
      rw [h1, List.map_map]
      exact (List.nodup_map_iff (f := Prod.fst ∘ fun i => (i, freq i))
        (fun a b hab => hab)).mpr (present_nodup freq)
    have hleaf2 : isLeaf (nodeAt (fillFromRoot t) (path i)) = true := by rw [e2, e1]; rfl
    have hsym : (nodeAt (fillFromRoot t) (p ++ q)).symbol
        = (nodeAt (fillFromRoot t) (path i)).symbol := by
      rw [← hi1, e2, e1]; rfl
    have := leaf_path_unique hfull hnd (p ++ q) (path i) hq hleaf2 hsym
    exact ⟨i, hi256, hfi, ⟨q, this⟩⟩


/-! ## The decoder on the output of the encoder -/

theorem lowBits_length (b n : Nat) : (lowBits b n).length = n := by
  induction n with
  | zero => rfl
  | succ n ih => simp [lowBits, ih]

theorem lowBits_le_one (b n : Nat) : ∀ x ∈ lowBits b n, x ≤ 1 := by
  induction n with
  | zero => simp [lowBits]
  | succ n ih =>
    intro x hx
    simp only [lowBits, List.mem_cons] at hx
    rcases hx with rfl | hx
    · omega
    · exact ih x hx

theorem and_shift_ne_zero (b n : Nat) : (b &&& (1 <<< n) ≠ 0) ↔ b / 2 ^ n % 2 = 1 := by
  rw [Nat.one_shiftLeft, Nat.and_two_pow]
  have := Nat.testBit_to_div_mod (x := b) (i := n)
  cases h : b.testBit n
  · rw [h] at this
    simp at this
    simp [this]
  · rw [h] at this
    simp at this
    simp [this]

theorem shift_and_ne_zero (b n : Nat) : ((1 <<< n) &&& b ≠ 0) ↔ b / 2 ^ n % 2 = 1 := by
  rw [Nat.and_comm]; exact and_shift_ne_zero b n

theorem lowBits_mul_two_pow (v k : Nat) : ∀ n, lowBits (v * 2 ^ k) (n + k) = lowBits v n ++ List.replicate k 0 := by
  intro n
  induction n with
  | zero =>
    simp only [Nat.zero_add, lowBits, List.nil_append]
    induction k generalizing v with
    | zero => rfl
    | succ k ih =>
      rw [lowBits, List.replicate_succ]
      have h1 : v * 2 ^ (k + 1) / 2 ^ k % 2 = 0 := by
        rw [pow_succ, ← Nat.mul_assoc, Nat.mul_assoc v, Nat.mul_comm (2 ^ k) 2, ← Nat.mul_assoc,
          Nat.mul_div_cancel _ (by positivity)]
        omega
      rw [h1]
      have h2 : v * 2 ^ (k + 1) = (v * 2) * 2 ^ k := by rw [pow_succ]; ring
      rw [h2, ih]
  | succ n ih =>
    have h0 : n + 1 + k = (n + k) + 1 := by omega
    rw [h0, lowBits, ih, lowBits, List.cons_append]
    congr 1
    rw [pow_add, Nat.mul_comm (2 ^ n) (2 ^ k), ← Nat.div_div_eq_div_mul,
      Nat.mul_div_cancel _ (by positivity)]

theorem lowBits_bitsValue (A : List Nat) (hA : ∀ b ∈ A, b ≤ 1) :
    lowBits (bitsValue A) A.length = A := by
  induction A using List.reverseRecOn with
  | nil => rfl
  | append_singleton A b ih =>
    have hb : b ≤ 1 := hA b (by simp)
    have hA1 : ∀ x ∈ A, x ≤ 1 := fun x hx => hA x (by simp [hx])
    rw [bitsValue_append_singleton]
    have key : ∀ n v, lowBits (2 * v + b) (n + 1) = lowBits v n ++ [b] := by
      intro n v
      induction n with
      | zero => simp [lowBits]; omega
      | succ n ihn =>
        rw [lowBits, ihn, lowBits, List.cons_append]
        congr 1
        rw [pow_succ, ← Nat.div_div_eq_div_mul, Nat.div_div_eq_div_mul _ _ 2, Nat.mul_comm (2 ^ n) 2,
          ← Nat.div_div_eq_div_mul]
        congr 2
        omega
    rw [List.length_append, List.length_singleton, key, ih hA1]

theorem lowBits_packed (A : List Nat) (hA : ∀ b ∈ A, b ≤ 1) (hlen : A.length ≤ 8) :
    lowBits (bitsValue A * 2 ^ (8 - A.length)) 8 = A ++ List.replicate (8 - A.length) 0 := by
  have h := lowBits_mul_two_pow (bitsValue A) (8 - A.length) A.length
  rw [show A.length + (8 - A.length) = 8 by omega, lowBits_bitsValue A hA] at h
  exact h

/-- Unpacking the bytes of a packed bit sequence gives the sequence back, followed by the
padding zeros. -/
theorem flatMap_lowBits_packBits (B : List Nat) (hB : ∀ b ∈ B, b ≤ 1) :
    (packBits B).flatMap (fun b => lowBits b 8) = B ++ List.replicate ((8 - B.length % 8) % 8) 0 := by
  obtain ⟨n, hn⟩ : ∃ n, B.length = n := ⟨_, rfl⟩
  induction n using Nat.strong_induction_on generalizing B with
  | _ n ih =>
    by_cases h8 : B.length ≤ 8
    · by_cases hnil : B = []
      · subst hnil; simp [packBits_nil]
      · have hpos : 0 < B.length := List.length_pos.mpr hnil
        rw [packBits_short B hnil h8]
        simp only [List.flatMap_cons, List.flatMap_nil, List.append_nil]
        rw [lowBits_packed B hB h8]
        congr 2
        omega
    · have hsplit : B = B.take 8 ++ B.drop 8 := (List.take_append_drop 8 B).symm
      have hA : (B.take 8).length = 8 := by simp; omega
      have hrec := ih (B.drop 8).length (by simp; omega) (B.drop 8)
        (fun b hb => hB b (List.mem_of_mem_drop hb)) rfl
      conv_lhs => rw [hsplit]
      rw [packBits_append _ _ hA, List.flatMap_cons, hrec]
      have h1 := lowBits_packed (B.take 8) (fun b hb => hB b (List.mem_of_mem_take hb)) (by omega)
      rw [hA] at h1
      simp only [Nat.sub_self, pow_zero, Nat.mul_one, List.replicate_zero, List.append_nil] at h1
      rw [h1, ← List.append_assoc, List.take_append_drop]
      congr 2
      simp only [List.length_drop]
      omega

theorem lowBits_getD (b : Nat) : ∀ n j, j < n → (lowBits b n).getD j 0 = b / 2 ^ (n - 1 - j) % 2 := by
  intro n
  induction n with
  | zero => intro j hj; omega
  | succ n ih =>
    intro j hj
    cases j with
    | zero => simp [lowBits]
    | succ j =>
      rw [lowBits, List.getD_cons_succ, ih j (by omega)]
      congr 3
      omega

theorem getD_append_zeros (A : List Nat) (m k : Nat) :
    (A ++ List.replicate m 0).getD k 0 = A.getD k 0 := by
  by_cases hk : k < A.length
  · rw [List.getD_append _ _ _ _ hk]
  · rw [List.getD_append_right _ _ _ _ (by omega), List.getD_eq_getElem?_getD,
      List.getD_eq_getElem?_getD, List.getElem?_eq_none (l := A) (by omega),
      List.getElem?_replicate]
    split_ifs <;> rfl

theorem unpackByte_apply (i b : Nat) (code : Nat → Nat) :
    ∀ j, j ≤ 8 → ∀ k, unpackByte i b j code k
      = if i * 8 ≤ k ∧ k < i * 8 + j then (lowBits b 8).getD (k - i * 8) 0 else code k := by
  intro j
  induction j with
  | zero => intro _ k; rw [unpackByte, if_neg (by omega)]
  | succ j ih =>
    intro hj k
    rw [unpackByte]
    by_cases hk : k = i * 8 + j
    · subst hk
      have hr : i * 8 ≤ i * 8 + j ∧ i * 8 + j < i * 8 + (j + 1) := ⟨by omega, by omega⟩
      rw [Function.update_same, if_pos hr, Nat.add_sub_cancel_left,
        lowBits_getD b 8 j (by omega)]
      have h7 : 8 - 1 - j = 7 - j := by omega
      rw [h7]
      by_cases hb : b / 2 ^ (7 - j) % 2 = 1
      · rw [if_pos ((shift_and_ne_zero b (7 - j)).mpr hb), hb]
      · rw [if_neg (fun h => hb ((shift_and_ne_zero b (7 - j)).mp h))]
        omega
    · rw [Function.update_noteq hk, ih (by omega)]
      by_cases h1 : i * 8 ≤ k ∧ k < i * 8 + j
      · rw [if_pos h1, if_pos ⟨h1.1, by omega⟩]
      · rw [if_neg h1, if_neg (by omega)]

theorem readCodeBytes_eq (bytes rest : List Nat) (hb : ∀ b ∈ bytes, b < 256) :
    ∀ i code, readCodeBytes bytes.length i (bytes ++ rest) code
      = (fun k => if i * 8 ≤ k ∧ k < (i + bytes.length) * 8
            then (bytes.flatMap (fun b => lowBits b 8)).getD (k - i * 8) 0 else code k, rest) := by
  induction bytes with
  | nil =>
    intro i code
    simp only [List.length_nil, readCodeBytes, List.nil_append, Nat.add_zero]
    congr 1
    funext k
    rw [if_neg (by omega)]
  | cons b bytes ih =>
    intro i code
    have hb0 : b < 256 := hb b (by simp)
    simp only [List.length_cons, readCodeBytes, List.cons_append, fgetcByte,
      Nat.mod_eq_of_lt hb0]
    rw [ih (fun x hx => hb x (by simp [hx]))]
    congr 1
    funext k
    rw [unpackByte_apply i b code 8 (by omega) k]
    simp only [List.flatMap_cons]
    by_cases h1 : i * 8 ≤ k ∧ k < i * 8 + 8
    · rw [if_neg (by omega), if_pos h1, if_pos ⟨h1.1, by omega⟩,
        List.getD_append _ _ _ _ (by rw [lowBits_length]; omega)]
    · rw [if_neg h1]
      by_cases h2 : (i + 1) * 8 ≤ k ∧ k < (i + 1 + bytes.length) * 8
      · rw [if_pos h2, if_pos ⟨by omega, by omega⟩,
          List.getD_append_right _ _ _ _ (by rw [lowBits_length]; omega), lowBits_length]
        congr 1
        omega
      · rw [if_neg h2, if_neg (by omega)]

/-- Reading back the code bytes `writeCode` wrote for the path `p` fills the code array of
the new node with the bits of `p`. -/
theorem readCodeBytes_packBits (p : List Bool) (rest : List Nat) :
    readCodeBytes ((p.length + 7) / 8) 0 (packBits (p.map Bool.toNat) ++ rest) (fun _ => 0)
      = (fun k => (p.map Bool.toNat).getD k 0, rest) := by
  have hbits : ∀ b ∈ p.map Bool.toNat, b ≤ 1 := by
    intro b hb
    simp only [List.mem_map] at hb
    obtain ⟨x, _, rfl⟩ := hb
    exact Bool.toNat_le x
  have hlen : (packBits (p.map Bool.toNat)).length = (p.length + 7) / 8 := by
    simp [packBits]
  have h := readCodeBytes_eq (packBits (p.map Bool.toNat)) rest (packBits_lt _ hbits) 0 (fun _ => 0)
  rw [hlen] at h
  rw [h, flatMap_lowBits_packBits _ hbits]
  congr 1
  funext k
  split_ifs with h1
  · rw [Nat.zero_mul, Nat.sub_zero, getD_append_zeros]
  · rw [List.getD_eq_getElem?_getD, List.getElem?_eq_none (by simp; omega)]
    rfl

theorem insertTreeFuel_eq (f s : Nat) (p : List Bool) (hp : p.length ≤ 256) :
    ∀ fuel root d, d ≤ p.length → p.length - d < fuel →
      insertTreeFuel fuel root (codeLeaf f s p) d
        = .ok (insertAt root (p.drop d) (codeLeaf f s p)) := by
  intro fuel
  induction fuel with
  | zero => intro root d _ h; omega
  | succ fuel ih =>
    intro root d hd hfuel
    rw [codeLeaf, insertTreeFuel, ← codeLeaf]
    by_cases hdl : d = p.length
    · rw [if_pos hdl, hdl, List.drop_length, insertAt]
    · have hlt : d < p.length := by omega
      rw [if_neg hdl, if_neg (by omega)]
      have hdrop : p.drop d = p[d] :: p.drop (d + 1) := List.drop_eq_getElem_cons hlt
      have hget : (p.map Bool.toNat).getD d 0 = p[d].toNat := by
        rw [List.getD_eq_getElem?_getD, List.getElem?_eq_getElem (by simpa using hlt)]
        simp
      rw [hget, hdrop]
      cases hbit : p[d] with
      | false =>
        simp only [Bool.toNat_false, if_true]
        rw [ih _ (d + 1) (by omega) (by omega), insertAt]
      | true =>
        simp only [Bool.toNat_true, if_false, one_ne_zero]
        rw [ih _ (d + 1) (by omega) (by omega), insertAt]

/-- `insertTree` at depth 0 on a leaf that carries the code `p`. -/
theorem insertTree_eq (f s : Nat) (p : List Bool) (hp : p.length ≤ 256) (root : SymbolNode) :
    insertTree root (codeLeaf f s p) 0 = .ok (insertAt root p (codeLeaf f s p)) := by
  rw [insertTree, insertTreeFuel_eq f s p hp _ root 0 (by omega) (by omega), List.drop_zero]

theorem nodeAt_insertAt_self (leaf : SymbolNode) (p : List Bool) :
    ∀ root, nodeAt (insertAt root p leaf) p = leaf := by
  induction p with
  | nil => intro root; rw [insertAt, nodeAt_nil]
  | cons b p ih =>
    intro root
    cases b with
    | false =>
      rw [insertAt]
      cases root <;> simp [orFresh, makeSymbol, withLeft, nodeAt, ih]
    | true =>
      rw [insertAt]
      cases root <;> simp [orFresh, makeSymbol, withRight, nodeAt, ih]

theorem nodeAt_insertAt_diverge (leaf : SymbolNode) (p : List Bool) :
    ∀ root q, Diverge p q → nodeAt (insertAt root p leaf) q = nodeAt root q := by
  induction p with
  | nil => intro root q h; exact absurd List.nil_prefix h.1
  | cons b p ih =>
    intro root q h
    cases q with
    | nil => exact absurd List.nil_prefix h.2
    | cons c q =>
      by_cases hbc : b = c
      · subst hbc
        have hsub : Diverge p q :=
          ⟨fun hp => h.1 ((List.prefix_cons_inj b).mpr hp),
            fun hp => h.2 ((List.prefix_cons_inj b).mpr hp)⟩
        cases b <;> rw [insertAt] <;> cases root <;>
          simp [orFresh, makeSymbol, withLeft, withRight, nodeAt, nodeAt_null, SymbolNode.left,
            SymbolNode.right, ih _ _ hsub]
      · cases b <;> cases c <;> simp at hbc <;> rw [insertAt] <;> cases root <;>
          simp [orFresh, makeSymbol, withLeft, withRight, nodeAt, nodeAt_null, SymbolNode.left,
            SymbolNode.right]

/-- The loop of `readHeader` on the entries of a list of (symbol, code) pairs: every entry
is inserted with `insertAt`, and the bytes behind the entries are left unread. -/
theorem readHeader_entries (L : List (Nat × List Bool)) (rest : List Nat)
    (hL : ∀ e ∈ L, e.1 < 256 ∧ e.2.length ≤ 255) :
    ∀ root, readHeader L.length (entryBytes L ++ rest) root
      = .ok (L.foldl (fun t e => insertAt t e.2 (codeLeaf 0 e.1 e.2)) root, rest) := by
  induction L with
  | nil => intro root; simp [readHeader, entryBytes]
  | cons e L ih =>
    intro root
    obtain ⟨h1, h2⟩ := hL e (by simp)
    have hnum : (if e.2.length % 8 ≠ 0 then e.2.length / 8 + 1 else e.2.length / 8)
        = (e.2.length + 7) / 8 := by
      split_ifs <;> omega
    have hbytes : entryBytes (e :: L) ++ rest
        = e.1 :: e.2.length :: (packBits (e.2.map Bool.toNat) ++ (entryBytes L ++ rest)) := by
      simp [entryBytes]
    rw [hbytes, List.length_cons, readHeader]
    simp only [fgetcByte, Nat.mod_eq_of_lt h1, Nat.mod_eq_of_lt (show e.2.length < 256 by omega),
      hnum, readCodeBytes_packBits]
    have hleaf : node 0 e.1 e.2.length (fun k => (e.2.map Bool.toNat).getD k 0) null null
        = codeLeaf 0 e.1 e.2 := rfl
    rw [hleaf, insertTree_eq 0 e.1 e.2 (by omega) root]
    simp only [List.foldl_cons]
    exact ih (fun x hx => hL x (by simp [hx])) _

theorem nodeAt_foldl_insertAt_diverge (L : List (Nat × List Bool)) (q : List Bool)
    (hq : ∀ e ∈ L, Diverge e.2 q) :
    ∀ root, nodeAt (L.foldl (fun t e => insertAt t e.2 (codeLeaf 0 e.1 e.2)) root) q
      = nodeAt root q := by
  induction L with
  | nil => intro root; rfl
  | cons e L ih =>
    intro root
    rw [List.foldl_cons, ih (fun x hx => hq x (by simp [hx])),
      nodeAt_insertAt_diverge _ _ _ _ (hq e (by simp))]

/-- After the entries of a prefix-free list have been inserted, every entry sits on the
leaf its code leads to. -/
theorem nodeAt_foldl_insertAt (L : List (Nat × List Bool))
    (hL : L.Pairwise (fun a b => Diverge a.2 b.2)) :
    ∀ root, ∀ e ∈ L,
      nodeAt (L.foldl (fun t e => insertAt t e.2 (codeLeaf 0 e.1 e.2)) root) e.2
        = codeLeaf 0 e.1 e.2 := by
  induction L with
  | nil => intro root e he; simp at he
  | cons a L ih =>
    intro root e he
    rw [List.pairwise_cons] at hL
    rw [List.foldl_cons]
    rcases List.mem_cons.mp he with rfl | he
    · rw [nodeAt_foldl_insertAt_diverge L e.2 (fun x hx => ⟨(hL.1 x hx).2, (hL.1 x hx).1⟩),
        nodeAt_insertAt_self]
    · exact ih hL.2 _ e he

theorem flatMap_lowBits_eq_nil (input : List Nat) (h : input.flatMap (fun b => lowBits b 8) = []) :
    input = [] := by
  cases input with
  | nil => rfl
  | cons b rest => simp [lowBits] at h

theorem pendingBits_advance (s : DecodeState) (x : Nat) (bits : List Nat)
    (hin : ∀ b ∈ s.input, b < 256) (hp : pendingBits s = x :: bits) :
    pendingBits (advance s) = bits ∧
      (((refill s).currByte &&& (1 <<< ((refill s).byteLength - 1)) ≠ 0) ↔ x = 1) ∧
      (∀ b ∈ (advance s).input, b < 256) ∧ (advance s).out = s.out ∧
      (advance s).numChars = s.numChars ∧ (advance s).currNode = s.currNode ∧
      (refill s).numChars = s.numChars ∧ (refill s).currNode = s.currNode := by
  obtain ⟨input, out, numChars, currNode, currByte, byteLength⟩ := s
  cases byteLength with
  | zero =>
    simp only [pendingBits, lowBits, List.nil_append] at hp
    cases input with
    | nil => simp at hp
    | cons c rest =>
      have hc : c < 256 := hin c (by simp)
      simp only [List.flatMap_cons, lowBits, List.cons_append, List.cons.injEq] at hp
      simp only [advance, refill, if_true, fgetcByte, Nat.mod_eq_of_lt hc, pendingBits, lowBits]
      refine ⟨?_, ?_, ?_, trivial, trivial, trivial, trivial, trivial⟩
      · simpa using hp.2
      · rw [and_shift_ne_zero]
        simp only [Nat.add_one_sub_one]
        rw [hp.1]
      · intro b hb; exact hin b (by simp [hb])
  | succ n =>
    simp only [pendingBits, lowBits, List.cons_append, List.cons.injEq] at hp
    simp only [advance, refill, Nat.add_one_ne_zero, if_false, pendingBits, Nat.add_one_sub_one]
    refine ⟨hp.2, ?_, hin, trivial, trivial, trivial, trivial, trivial⟩
    rw [and_shift_ne_zero, hp.1]

theorem decodeCharsStep_eq (root : SymbolNode) (s : DecodeState) :
    decodeCharsStep root s
      = match (refill s).currNode with
        | null => .error .nullDeref
        | node _ _ _ _ l r =>
          match (if (refill s).currByte &&& (1 <<< ((refill s).byteLength - 1)) ≠ 0 then r else l) with
          | null => .error .nullDeref
          | node f sy n c cl cr =>
            if isLeaf (node f sy n c cl cr) then
              if (refill s).numChars = -(2 : Int) ^ 31 then .error .intOverflow
              else
                .ok { advance s with
                      out := (advance s).out ++ [sy % 256]
                      currNode := root
                      numChars := (advance s).numChars - 1 }
            else .ok { advance s with currNode := node f sy n c cl cr } := rfl

/-- One pass of `decodeChars` follows the child the next pending bit selects. -/
theorem decodeCharsStep_bit (root : SymbolNode) (s : DecodeState) (x : Bool) (bits : List Nat)
    (hin : ∀ b ∈ s.input, b < 256) (hp : pendingBits s = x.toNat :: bits)
    (hchild : nodeAt s.currNode [x] ≠ null) (hnum : s.numChars ≠ -(2 : Int) ^ 31) :
    decodeCharsStep root s
      = if isLeaf (nodeAt s.currNode [x]) then
          .ok { advance s with
                out := s.out ++ [(nodeAt s.currNode [x]).symbol % 256]
                currNode := root
                numChars := s.numChars - 1 }
        else .ok { advance s with currNode := nodeAt s.currNode [x] } := by
  obtain ⟨h1, h2, h3, h4, h5, h6, h7, h8⟩ := pendingBits_advance s x.toNat bits hin hp
  rw [decodeCharsStep_eq, h8, h7]
  have hx : (x.toNat = 1) ↔ x = true := by cases x <;> simp
  cases hc : s.currNode with
  | null => rw [hc, nodeAt_null] at hchild; exact absurd rfl hchild
  | node f sy n c l r =>
    rw [hc] at hchild
    simp only [h2, hx]
    have hsel : (if x = true then r else l) = nodeAt (node f sy n c l r) [x] := by
      cases x <;> simp [nodeAt, nodeAt_nil]
    rw [hsel]
    cases hch : nodeAt (node f sy n c l r) [x] with
    | null => exact absurd hch hchild
    | node f2 sy2 n2 c2 l2 r2 =>
      simp only [h4, h5, if_neg hnum, SymbolNode.symbol]

/-- The walk of `decodeChars` from a node above a leaf, along the pending bits that lead to
the leaf: the symbol of the leaf is written and the walk is back at the root. -/
theorem decodeCharsLoop_walk (root : SymbolNode) (rest : List Nat) (fuel : Nat) :
    ∀ (p : List Bool) (s : DecodeState), p ≠ [] → isLeaf (nodeAt s.currNode p) = true →
      (∀ b ∈ s.input, b < 256) → pendingBits s = p.map Bool.toNat ++ rest → 0 < s.numChars →
      ∃ s1, decodeCharsLoop root (fuel + p.length) s = decodeCharsLoop root fuel s1 ∧
        s1.out = s.out ++ [(nodeAt s.currNode p).symbol % 256] ∧
        s1.numChars = s.numChars - 1 ∧ s1.currNode = root ∧ pendingBits s1 = rest ∧
        (∀ b ∈ s1.input, b < 256) := by
  intro p
  induction p with
  | nil => intro s h; exact absurd rfl h
  | cons x p ih =>
    intro s _ hleaf hin hp hnum
    have hsplit : nodeAt s.currNode (x :: p) = nodeAt (nodeAt s.currNode [x]) p := by
      rw [← nodeAt_append]; rfl
    have hchild : nodeAt s.currNode [x] ≠ null := by
      intro h
      rw [hsplit, h, nodeAt_null] at hleaf
      simp [isLeaf] at hleaf
    have hn0 : s.numChars ≠ 0 := by omega
    have hn1 : s.numChars ≠ -(2 : Int) ^ 31 := by
      have : (0 : Int) < 2 ^ 31 := by norm_num
      omega
    rw [List.map_cons, List.cons_append] at hp
    obtain ⟨h1, _, h3, h4, h5, _, _, _⟩ := pendingBits_advance s x.toNat _ hin hp
    have hstep := decodeCharsStep_bit root s x _ hin hp hchild hn1
    rw [List.length_cons, ← Nat.add_assoc, decodeCharsLoop, if_neg hn0, hstep]
    cases p with
    | nil =>
      rw [hsplit, nodeAt_nil] at hleaf
      rw [if_pos hleaf]
      refine ⟨_, rfl, ?_, rfl, rfl, h1, h3⟩
      rw [hsplit, nodeAt_nil]
    | cons y p =>
      have hnl : isLeaf (nodeAt s.currNode [x]) = false := by
        cases hl : isLeaf (nodeAt s.currNode [x]) with
        | false => rfl
        | true =>
          rw [hsplit, isLeaf_nodeAt_cons hl] at hleaf
          simp [isLeaf] at hleaf
      rw [hnl]
      simp only [Bool.false_eq_true, if_false]
      obtain ⟨s1, e1, e2, e3, e4, e5, e6⟩ := ih { advance s with currNode := nodeAt s.currNode [x] }
        (by simp) (by rw [← hsplit]; exact hleaf) h3 h1 (by rw [h5]; exact hnum)
      refine ⟨s1, e1, ?_, ?_, e4, e5, e6⟩
      · rw [e2, h4, hsplit]
      · rw [e3, h5]

/-- The loop of `decodeChars` on the packed codes of a text: it writes the text and stops
with only the padding bits unread. -/
theorem decodeCharsLoop_text (root : SymbolNode) (path : Nat → List Bool) (pad : List Nat) :
    ∀ (S : List Nat) (s : DecodeState) (fuel : Nat),
      (∀ b ∈ S, b < 256 ∧ path b ≠ [] ∧ isLeaf (nodeAt root (path b)) = true ∧
        (nodeAt root (path b)).symbol = b) →
      s.currNode = root → s.numChars = (S.length : Int) → (∀ b ∈ s.input, b < 256) →
      pendingBits s = S.flatMap (fun b => (path b).map Bool.toNat) ++ pad →
      ∃ s1, decodeCharsLoop root (fuel + totalBits path S) s = .ok s1 ∧
        s1.out = s.out ++ S ∧ pendingBits s1 = pad := by
  intro S
  induction S with
  | nil =>
    intro s fuel _ _ hnum _ hp
    refine ⟨s, decodeCharsLoop_zero _ _ _ (by simpa using hnum), by simp, by simpa using hp⟩
  | cons b S ih =>
    intro s fuel hS hcur hnum hin hp
    obtain ⟨hb, hne, hleaf, hsym⟩ := hS b (by simp)
    rw [List.flatMap_cons, List.append_assoc] at hp
    obtain ⟨s1, e1, e2, e3, e4, e5, e6⟩ := decodeCharsLoop_walk root _ (fuel + totalBits path S)
      (path b) s hne (by rw [hcur]; exact hleaf) hin hp (by rw [hnum]; simp)
    obtain ⟨s2, g1, g2, g3⟩ := ih s1 fuel (fun c hc => hS c (by simp [hc])) e4
      (by rw [e3, hnum]; simp) e6 e5
    refine ⟨s2, ?_, ?_, g3⟩
    · have hfuel : fuel + totalBits path (b :: S) = fuel + totalBits path S + (path b).length := by
        simp only [totalBits, List.map_cons, List.sum_cons]; omega
      rw [hfuel, e1, g1]
    · rw [g2, e2, hcur, hsym, Nat.mod_eq_of_lt hb, List.append_assoc, List.singleton_append]

theorem totalBits_le (root : SymbolNode) (path : Nat → List Bool) (S : List Nat)
    (hS : ∀ b ∈ S, nodeAt root (path b) ≠ null) : totalBits path S ≤ S.length * height root := by
  induction S with
  | nil => simp [totalBits]
  | cons b S ih =>
    have h1 := nodeAt_length_lt_height root (path b) (hS b (by simp))
    have h2 := ih (fun c hc => hS c (by simp [hc]))
    simp only [totalBits, List.map_cons, List.sum_cons, List.length_cons] at h2 ⊢
    rw [Nat.add_mul]
    omega

/-- `decodeChars` on the packed codes of a text with fewer than `2^31` symbols, with a tree
that has every symbol of the text on the leaf its code leads to: the text is written and
the input is read to its end. -/
theorem decodeChars_text (root : SymbolNode) (path : Nat → List Bool) (S : List Nat)
    (hlen : S.length < 2 ^ 31)
    (hS : ∀ b ∈ S, b < 256 ∧ path b ≠ [] ∧ isLeaf (nodeAt root (path b)) = true ∧
      (nodeAt root (path b)).symbol = b) :
    decodeChars (packBits (S.flatMap (fun b => (path b).map Bool.toNat))) (S.length : Int) root
      = .ok (S, []) := by
  have hbits : ∀ x ∈ S.flatMap (fun b => (path b).map Bool.toNat), x ≤ 1 := by
    intro x hx
    simp only [List.mem_flatMap, List.mem_map] at hx
    obtain ⟨_, _, y, _, rfl⟩ := hx
    exact Bool.toNat_le y
  have htot := totalBits_le root path S (fun b hb h => by
    have := (hS b hb).2.2.1
    rw [h] at this
    simp [isLeaf] at this)
  have hfuel : 2 ^ 31 * height root + 1
      = (2 ^ 31 * height root + 1 - totalBits path S) + totalBits path S := by
    have : S.length * height root ≤ 2 ^ 31 * height root := Nat.mul_le_mul_right _ (by omega)
    omega
  obtain ⟨s1, e1, e2, e3⟩ := decodeCharsLoop_text root path _ S
    { input := packBits (S.flatMap (fun b => (path b).map Bool.toNat)), out := [],
      numChars := (S.length : Int), currNode := root, currByte := 0, byteLength := 0 }
    (2 ^ 31 * height root + 1 - totalBits path S) hS rfl rfl (packBits_lt _ hbits)
    (by simp only [pendingBits, lowBits, List.nil_append]
        exact flatMap_lowBits_packBits _ hbits)
  rw [decodeChars, hfuel, e1]
  simp only [List.nil_append] at e2
  have hinput : s1.input = [] := by
    have hl := congrArg List.length e3
    simp only [pendingBits, List.length_append, lowBits_length, List.length_replicate] at hl
    have h8 : (s1.input.flatMap (fun b => lowBits b 8)).length = 8 * s1.input.length := by
      generalize s1.input = l
      induction l with
      | nil => rfl
      | cons c l ih => simp [lowBits_length, ih]; omega
    rw [h8] at hl
    have : s1.input.length = 0 := by omega
    exact List.length_eq_zero.mp this
  simp only [e2, hinput]

/-! ## Round trip on a zeroed counter block -/

theorem flatMap_congr_mem {α β : Type} (l : List α) (f g : α → List β)
    (h : ∀ x ∈ l, f x = g x) : l.flatMap f = l.flatMap g := by
  induction l with
  | nil => rfl
  | cons a l ih =>
    rw [List.flatMap_cons, List.flatMap_cons, h a (by simp), ih (fun x hx => h x (by simp [hx]))]

theorem sum_range_indicator (a n : Nat) :
    ((List.range n).map (fun i => if a = i then 1 else 0)).sum = if a < n then 1 else 0 := by
  induction n with
  | zero => simp
  | succ n ih =>
    rw [List.range_succ, List.map_append, List.sum_append, ih]
    simp only [List.map_cons, List.map_nil, List.sum_cons, List.sum_nil, Nat.add_zero]
    by_cases h1 : a < n
    · rw [if_pos h1, if_neg (by omega), if_pos (by omega)]
    · by_cases h2 : a = n
      · rw [if_neg h1, if_pos h2, if_pos (by omega)]
      · rw [if_neg h1, if_neg h2, if_neg (by omega)]

/-- The counts of the byte values sum to the length of the text. -/
theorem sum_count_range (n : Nat) (S : List Nat) (hS : ∀ b ∈ S, b < n) :
    ((List.range n).map (fun i => S.count i)).sum = S.length := by
  induction S with
  | nil => simp
  | cons a S ih =>
    have h1 : (fun i => (a :: S).count i) = fun i => S.count i + (if a = i then 1 else 0) := by
      funext i
      rw [List.count_cons]
      simp only [beq_iff_eq]
    rw [h1, List.sum_map_add, ih (fun b hb => hS b (by simp [hb])), sum_range_indicator,
      if_pos (hS a (by simp)), List.length_cons]

theorem sum_present (freq : Nat → Nat) :
    ((present freq).map freq).sum = ((List.range 256).map freq).sum := by
  simp only [present]
  generalize List.range 256 = l
  induction l with
  | nil => rfl
  | cons a l ih =>
    by_cases h : freq a = 0
    · rw [List.filter_cons_of_neg (by simpa using h), ih, List.map_cons, List.sum_cons, h,
        Nat.zero_add]
    · rw [List.filter_cons_of_pos (by simpa using h), List.map_cons, List.sum_cons, ih,
        List.map_cons, List.sum_cons]

theorem two_le_length_of_mem {l : List Nat} {a b : Nat} (ha : a ∈ l) (hb : b ∈ l) (hab : a ≠ b) :
    2 ≤ l.length := by
  match l, ha, hb with
  | [x], ha, hb =>
    rw [List.mem_singleton] at ha hb
    exact absurd (ha.trans hb.symm) hab
  | _ :: _ :: _, _, _ => simp

theorem isLeaf_codeLeaf (f s : Nat) (p : List Bool) : isLeaf (codeLeaf f s p) = true := rfl

theorem toInt32_of_lt (n : Nat) (h : n < 2 ^ 31) : toInt32 n = (n : Int) := by
  have h1 : n % UINT = n := Nat.mod_eq_of_lt (by simp only [UINT]; omega)
  rw [toInt32, h1, if_pos h]

/-- With the counter block of `countSymbols` zeroed, a file that holds at least two
distinct byte values and fewer than `2^31` bytes is encoded without a fault and decoded
back to itself, with the whole encoded file read. -/
theorem roundTrip_zeroed (S : List Nat) (hbyte : ∀ b ∈ S, b < 256) (hlen : S.length < 2 ^ 31)
    (hdist : ∃ a ∈ S, ∃ b ∈ S, a ≠ b) :
    roundTrip (fun _ => 0) S = .ok (S, []) := by
  obtain ⟨hcount, htotal⟩ := countSymbols_zeroed S hbyte (by omega)
  obtain ⟨a, ha, b, hb, hab⟩ := hdist
  have hfreq : ∀ c ∈ S, (countSymbols (fun _ => 0) S).1 c ≠ 0 := by
    intro c hc
    rw [hcount]
    exact (List.count_pos_iff.mpr hc).ne'
  obtain ⟨codes, root, path, hgen, hnull, hentry, hfree, hnonempty, _, _, _⟩ :=
    generateCodes_facts (countSymbols (fun _ => 0) S).1 ⟨a, hbyte a ha, hfreq a ha⟩
  have hne := hnonempty ⟨a, b, hbyte a ha, hbyte b hb, hab, hfreq a ha, hfreq b hb⟩
  generalize hfr : (countSymbols (fun _ => 0) S).1 = freq at *
  -- the table
  have hpres : presentEntries codes = present freq := by
    simp only [presentEntries, present]
    apply List.filter_congr
    intro i hi
    rw [List.mem_range] at hi
    by_cases hf : freq i = 0
    · simp [hnull i hi hf, hf, SymbolNode.isNull]
    · simp [(hentry i hi hf).1, hf, SymbolNode.isNull, codeLeaf]
  have hmem : ∀ i, i ∈ present freq → codes i = codeLeaf (freq i) i (path i) ∧
      (path i).length ≤ 255 ∧ i < 256 := by
    intro i hi
    obtain ⟨h1, h2⟩ := (present_mem freq i).mp hi
    exact ⟨(hentry i h1 h2).1, (hentry i h1 h2).2.2, h1⟩
  have hsum : ((presentEntries codes).map (fun i => (codes i).freq)).sum = S.length := by
    rw [hpres]
    have h1 : (present freq).map (fun i => (codes i).freq) = (present freq).map freq := by
      apply List.map_congr_left
      intro i hi
      rw [(hmem i hi).1]
      rfl
    rw [h1, sum_present]
    have h2 : freq = fun i => S.count i := funext hcount
    rw [h2, sum_count_range 256 S hbyte]
  -- the header
  obtain ⟨header, hhead, field, hbytes, _, hfield, hfieldval⟩ := writeHeader_layout codes
    (by
      intro i hi hc
      have hf : freq i ≠ 0 := fun h => hc (hnull i hi h)
      rw [(hentry i hi hf).1]
      exact codeLeaf_wellFormed _ _ _ (hentry i hi hf).2.2)
    (by rw [hsum]; omega)
  have hentries : (presentEntries codes).flatMap
      (fun i => i :: (codes i).length :: packBits (codeBits (codes i)))
      = entryBytes ((present freq).map (fun i => (i, path i))) := by
    rw [hpres, entryBytes, List.flatMap_map]
    apply flatMap_congr_mem
    intro i hi
    rw [(hmem i hi).1, codeBits_codeLeaf]
    rfl
  -- the body
  have hS : S ≠ [] := List.ne_nil_of_mem ha
  have hbody := (writeSymbols_packs S codes hS (by omega) hbyte (by
    intro c hc
    have h1 := hentry c (hbyte c hc) (hfreq c hc)
    have h2 := hne c (hbyte c hc) (hfreq c hc)
    rw [h1.1]
    refine ⟨by simp [codeLeaf], ?_, ?_, fun k _ => toNat_getD_le_one _ k⟩
    · exact List.length_pos.mpr h2
    · exact h1.2.2.trans (by omega))).1
  have hflat : S.flatMap (fun c => codeBits (codes c))
      = S.flatMap (fun c => (path c).map Bool.toNat) := by
    apply flatMap_congr_mem
    intro c hc
    rw [(hentry c (hbyte c hc) (hfreq c hc)).1, codeBits_codeLeaf]
  rw [hflat] at hbody
  -- the encoded file
  have henc : encodeFile (fun _ => 0) S
      = .ok (header ++ packBits (S.flatMap (fun c => (path c).map Bool.toNat))) := by
    simp only [encodeFile, hfr, hgen, hhead, htotal, hbody]
  -- the decoder
  have hL : ((present freq).map (fun i => (i, path i))).length = (present freq).length := by simp
  have hcnt2 : 2 ≤ (present freq).length :=
    two_le_length_of_mem ((present_mem freq a).mpr ⟨hbyte a ha, hfreq a ha⟩)
      ((present_mem freq b).mpr ⟨hbyte b hb, hfreq b hb⟩) hab
  have hcnt256 : (present freq).length ≤ 256 := by
    simp only [present]
    exact (List.length_filter_le _ _).trans (by simp)
  have hdiv : ((present freq).map (fun i => (i, path i))).Pairwise
      (fun x y => Diverge x.2 y.2) := by
    rw [List.pairwise_map]
    refine (present_nodup freq).imp_of_mem ?_
    intro i j hi hj hij
    obtain ⟨hi1, hi2⟩ := (present_mem freq i).mp hi
    obtain ⟨hj1, hj2⟩ := (present_mem freq j).mp hj
    exact ⟨hfree i j hi1 hj1 hi2 hj2 hij, hfree j i hj1 hi1 hj2 hi2 (Ne.symm hij)⟩
  have hread := readHeader_entries ((present freq).map (fun i => (i, path i)))
    (field ++ packBits (S.flatMap (fun c => (path c).map Bool.toNat)))
    (by
      intro e he
      simp only [List.mem_map] at he
      obtain ⟨i, hi, rfl⟩ := he
      exact ⟨(hmem i hi).2.2, (hmem i hi).2.1⟩) null
  rw [hL] at hread
  have htree := nodeAt_foldl_insertAt _ hdiv null
  have hdec := decodeChars_text
    (((present freq).map (fun i => (i, path i))).foldl
      (fun t e => insertAt t e.2 (codeLeaf 0 e.1 e.2)) null) path S hlen
    (by
      intro c hc
      have hmc : (c, path c) ∈ (present freq).map (fun i => (i, path i)) :=
        List.mem_map.mpr ⟨c, (present_mem freq c).mpr ⟨hbyte c hc, hfreq c hc⟩, rfl⟩
      have h1 := htree (c, path c) hmc
      simp only at h1
      refine ⟨hbyte c hc, hne c (hbyte c hc) (hfreq c hc), ?_, ?_⟩
      · rw [h1]; rfl
      · rw [h1]; rfl)
  have hfirst : (if (if (presentEntries codes).length = 256 then 0
        else (presentEntries codes).length) % 256 = 0 then 256
      else (if (presentEntries codes).length = 256 then 0
        else (presentEntries codes).length) % 256) = (present freq).length := by
    rw [hpres]
    split_ifs <;> omega
  rw [roundTrip, henc]
  simp only
  rw [hbytes, hentries, List.cons_append, List.append_assoc, decodeFile_cons, hfirst, hread]
  simp only
  rw [if_neg (by simp [hfield]), List.take_left' hfield, List.drop_left' hfield, hfieldval,
    hsum, toInt32_of_lt _ hlen, hdec]

/-- The file `"ab"` is encoded and decoded back when the counter block is zeroed. -/
theorem roundTrip_zeroed_sample : roundTrip (fun _ => 0) [97, 98] = .ok ([97, 98], []) :=
  roundTrip_zeroed [97, 98] (by simp) (by norm_num) ⟨97, by simp, 98, by simp, by decide⟩

/-! ## The header of a generated table -/

/-- The present entries of a table that has a leaf for every non-zero frequency. -/
theorem presentEntries_table (freq : Nat → Nat) (codes : Nat → SymbolNode) (path : Nat → List Bool)
    (hnull : ∀ i, i < 256 → freq i = 0 → codes i = null)
    (hentry : ∀ i, i < 256 → freq i ≠ 0 → codes i = codeLeaf (freq i) i (path i)) :
    presentEntries codes = present freq := by
  simp only [presentEntries, present]
  apply List.filter_congr
  intro i hi
  rw [List.mem_range] at hi
  by_cases hf : freq i = 0
  · simp [hnull i hi hf, hf, SymbolNode.isNull]
  · simp [hentry i hi hf, hf, SymbolNode.isNull, codeLeaf]

/-- The bytes `writeHeader` writes for a table that has the leaf with the code `path i` for
every non-zero frequency: the count byte, the entries, and the sum of the frequencies as an
`unsigned long`. -/
theorem writeHeader_table (freq : Nat → Nat) (codes : Nat → SymbolNode) (path : Nat → List Bool)
    (hnull : ∀ i, i < 256 → freq i = 0 → codes i = null)
    (hentry : ∀ i, i < 256 → freq i ≠ 0 →
      codes i = codeLeaf (freq i) i (path i) ∧ (path i).length ≤ 255) :
    (headerCounts codes 256).2 = ((present freq).map freq).sum % ULONG ∧
    writeHeader codes = .ok ((present freq).length % 256 ::
      (entryBytes ((present freq).map (fun i => (i, path i)))
        ++ ulongBytes (((present freq).map freq).sum % ULONG))) := by
  have hpres := presentEntries_table freq codes path hnull (fun i h1 h2 => (hentry i h1 h2).1)
  have hwf : ∀ i, i < 256 → codes i ≠ null → EntryWellFormed (codes i) := by
    intro i hi hc
    have hf : freq i ≠ 0 := fun h => hc (hnull i hi h)
    rw [(hentry i hi hf).1]
    exact codeLeaf_wellFormed _ _ _ (hentry i hi hf).2
  have hent := headerEntries_eq codes 256 0 (by omega) (fun j _ h2 h3 => hwf j (by omega) h3)
  have hcnt := headerCounts_eq codes 256
  rw [← List.range_eq_range'] at hent
  have hp : (List.range 256).filter (fun i => !(codes i).isNull) = present freq := hpres
  rw [hp] at hent hcnt
  have hfreqs : (present freq).map (fun i => (codes i).freq) = (present freq).map freq := by
    apply List.map_congr_left
    intro i hi
    obtain ⟨h1, h2⟩ := (present_mem freq i).mp hi
    rw [(hentry i h1 h2).1]
    rfl
  have hentries : (present freq).flatMap
      (fun i => i :: (codes i).length :: packBits (codeBits (codes i)))
      = entryBytes ((present freq).map (fun i => (i, path i))) := by
    rw [entryBytes, List.flatMap_map]
    apply flatMap_congr_mem
    intro i hi
    obtain ⟨h1, h2⟩ := (present_mem freq i).mp hi
    rw [(hentry i h1 h2).1, codeBits_codeLeaf]
    rfl
  rw [hfreqs] at hcnt
  rw [hentries] at hent
  refine ⟨by rw [hcnt], ?_⟩
  rw [writeHeader, hent]
  simp only [hcnt, List.cons_append]

/-! ## Claim C11 -/

/-- C11. For every frequency table with a non-zero entry whose entries sum to less than
`2^64`, the frequencies on the leaves of the tree `generateCodes` returns sum to the sum of
the entries of the table, and this sum is the value `numChars` that `writeHeader` writes as
the 8-byte field at the end of the header. -/
theorem generateCodes_leaf_sum (freq : Nat → Nat) (h : ∃ i, i < 256 ∧ freq i ≠ 0)
    (hsum : ((List.range 256).map freq).sum < 2 ^ 64) :
    ∃ codes root front, generateCodes freq = .ok (codes, root) ∧
      leafSum root = ((List.range 256).map freq).sum ∧
      (headerCounts codes 256).2 = ((List.range 256).map freq).sum ∧
      writeHeader codes = .ok (front ++ ulongBytes (((List.range 256).map freq).sum)) ∧
      ulongOfBytes (ulongBytes (((List.range 256).map freq).sum))
        = ((List.range 256).map freq).sum := by
  obtain ⟨codes, root, path, hgen, hnull, hentry, _, _, _, hperm, _⟩ := generateCodes_facts freq h
  obtain ⟨h1, h2⟩ := writeHeader_table freq codes path hnull
    (fun i hi hf => ⟨(hentry i hi hf).1, (hentry i hi hf).2.2⟩)
  have hmod : ((present freq).map freq).sum % ULONG = ((List.range 256).map freq).sum := by
    rw [sum_present]
    exact Nat.mod_eq_of_lt hsum
  rw [hmod] at h1 h2
  refine ⟨codes, root,
    (present freq).length % 256 :: entryBytes ((present freq).map (fun i => (i, path i))),
    hgen, ?_, h1, ?_, ulongOfBytes_ulongBytes _ hsum⟩
  · rw [leafSum, (hperm.map Prod.snd).sum_eq, List.map_map, ← sum_present]
    rfl
  · rw [h2, List.cons_append]

theorem generateCodes_leaf_sum_witness :
    (∃ i, i < 256 ∧ sampleFreq i ≠ 0) ∧ ((List.range 256).map sampleFreq).sum < 2 ^ 64 ∧
      ∃ codes root front, generateCodes sampleFreq = .ok (codes, root) ∧
        leafSum root = ((List.range 256).map sampleFreq).sum ∧
        (headerCounts codes 256).2 = ((List.range 256).map sampleFreq).sum ∧
        writeHeader codes = .ok (front ++ ulongBytes (((List.range 256).map sampleFreq).sum)) ∧
        ulongOfBytes (ulongBytes (((List.range 256).map sampleFreq).sum))
          = ((List.range 256).map sampleFreq).sum :=
  have h1 : ∃ i, i < 256 ∧ sampleFreq i ≠ 0 := ⟨97, by decide, by decide⟩
  have h2 : ((List.range 256).map sampleFreq).sum < 2 ^ 64 := by decide!
  ⟨h1, h2, generateCodes_leaf_sum sampleFreq h1 h2⟩

/-! ## Claim C12 -/

theorem queueUpTo_single (freq : Nat → Nat) (i : Nat) (hf : freq i ≠ 0)
    (hz : ∀ j, j < 256 → j ≠ i → freq j = 0) :
    ∀ k, k ≤ 256 → queueUpTo freq k = if i < k then [makeSymbol (freq i) i] else [] := by
  intro k
  induction k with
  | zero => intro _; simp [queueUpTo]
  | succ k ih =>
    intro hk
    rw [queueUpTo, ih (by omega)]
    by_cases hki : k = i
    · subst hki
      simp [hf, insertPriority]
    · have h0 : freq k = 0 := hz k (by omega) hki
      simp only [h0, ne_eq, not_true_eq_false, if_false]
      by_cases h1 : i < k
      · rw [if_pos h1, if_pos (by omega)]
      · rw [if_neg h1, if_neg (by omega)]

/-- C12 fails on the code. For every frequency table with exactly one non-zero entry the
queue holds one node, `buildTree` returns it as the root, and `fillCodes` at depth -1 writes
nothing into it: `generateCodes` assigns the only symbol the empty code, of length 0. -/
theorem generateCodes_single_symbol (freq : Nat → Nat) (i : Nat) (hi : i < 256)
    (hf : freq i ≠ 0) (hz : ∀ j, j < 256 → j ≠ i → freq j = 0) :
    ∃ codes root, generateCodes freq = .ok (codes, root) ∧
      root = makeSymbol (freq i) i ∧ codes i = root ∧
      (codes i).length = 0 ∧ codeBits (codes i) = [] := by
  have hq := queueUpTo_single freq i hf hz 256 (by omega)
  rw [if_pos hi] at hq
  refine ⟨fun j => if j < 256 ∧ freq j ≠ 0 then findLeaf j (makeSymbol (freq i) i) else null,
    makeSymbol (freq i) i, by
    rw [generateCodes, hq]
    simp only [buildTree, List.length_singleton, buildTreeLoop, makeSymbol, fillCodes,
      if_true], rfl, ?_, ?_, ?_⟩
  · simp [hi, hf, findLeaf, makeSymbol]
  · simp [hi, hf, findLeaf, makeSymbol, SymbolNode.length]
  · simp [hi, hf, findLeaf, makeSymbol, codeBits, SymbolNode.length]

theorem generateCodes_single_symbol_witness :
    ∃ codes root, generateCodes singleFreq = .ok (codes, root) ∧
      root = makeSymbol (singleFreq 97) 97 ∧ codes 97 = root ∧
      (codes 97).length = 0 ∧ codeBits (codes 97) = [] :=
  generateCodes_single_symbol singleFreq 97 (by decide) (by decide)
    (fun j _ hj => by simp [singleFreq, hj])

/-! ## Claim C13 -/

theorem queueUpTo_zero (freq : Nat → Nat) (hz : ∀ j, j < 256 → freq j = 0) :
    ∀ k, k ≤ 256 → queueUpTo freq k = [] := by
  intro k
  induction k with
  | zero => intro _; rfl
  | succ k ih =>
    intro hk
    rw [queueUpTo, ih (by omega), hz k (by omega)]
    simp

/-- When all 256 frequencies are zero the queue is empty and `buildTree` reads
`head->next` through the `NULL` head. -/
theorem generateCodes_zero (freq : Nat → Nat) (hz : ∀ j, j < 256 → freq j = 0) :
    generateCodes freq = .error .nullDeref := by
  rw [generateCodes, queueUpTo_zero freq hz 256 (by omega)]
  rfl

/-- C13 fails on the code. On a zero-length input (with zeroed counters, so that all 256
frequencies are zero) `encodeFile` has no check for the empty input: `generateCodes` hands
the `NULL` queue to `buildTree`, which dereferences it. The run leaves defined behaviour
instead of reporting an error. -/
theorem encodeFile_empty_input :
    (∀ j, (countSymbols (fun _ => 0) []).1 j = 0) ∧ (countSymbols (fun _ => 0) []).2 = 0 ∧
      generateCodes (countSymbols (fun _ => 0) []).1 = .error .nullDeref ∧
      encodeFile (fun _ => 0) [] = .error .nullDeref := by
  have h := generateCodes_zero (countSymbols (fun _ => 0) []).1 (fun j _ => rfl)
  refine ⟨fun j => rfl, rfl, h, ?_⟩
  rw [encodeFile, h]

/-! ## Claim C15 -/

theorem sampleFreq_codes :
    (match generateCodes sampleFreq with
      | .ok (codes, root) =>
        [codeBits (codes 97), codeBits (codes 98), codeBits (codes 99),
          [if isLeaf root.left then 1 else 0, root.left.symbol, root.left.freq, root.right.freq,
            smallestValue root.left, smallestValue root.right]]
      | .error _ => [])
      = [[0], [1, 1], [1, 0], [1, 97, 3, 3, 97, 99]] := by
  decide!

/-- C15. For the frequency table of `"aaabbc"` (`a`: 3, `b`: 2, `c`: 1) `generateCodes`
gives `a` the code `0` of length 1, the shortest, and gives `c` and `b` codes of length 2
(`10` and `11`); `a` is the left child of the root: it ties on the frequency 3 with the
node that joins `c` and `b`, and its smallest value 97 is below 99. -/
theorem generateCodes_aaabbc :
    ∃ codes root, generateCodes sampleFreq = .ok (codes, root) ∧
      codeBits (codes 97) = [0] ∧ (codes 97).length = 1 ∧
      codeBits (codes 99) = [1, 0] ∧ (codes 99).length = 2 ∧
      codeBits (codes 98) = [1, 1] ∧ (codes 98).length = 2 ∧
      isLeaf root.left = true ∧ root.left.symbol = 97 ∧
      root.left.freq = root.right.freq ∧
      smallestValue root.left < smallestValue root.right := by
  obtain ⟨codes, root, path, hgen, _⟩ := generateCodes_facts sampleFreq ⟨97, by decide, by decide⟩
  have h := sampleFreq_codes
  rw [hgen] at h
  simp only [List.cons.injEq, and_true] at h
  obtain ⟨h1, h2, h3, h4, h5, h6, h7, h8, h9⟩ := h
  have h4 : isLeaf root.left = true := by
    cases hl : isLeaf root.left
    · rw [hl] at h4; simp at h4
    · rfl
  have hl : ∀ t : SymbolNode, t.length = (codeBits t).length := by
    intro t; simp [codeBits]
  refine ⟨codes, root, hgen, h1, by rw [hl, h1]; rfl, h3, by rw [hl, h3]; rfl, h2,
    by rw [hl, h2]; rfl, h4, h5, by rw [h6, h7], by rw [h8, h9]; decide⟩

/-! ## Claim C16 -/

/-- A pass of `decodeChars` in which the current node has no child for the next bit reads
through the `NULL` child in `isLeaf`. -/
theorem decodeCharsStep_missing_child (root : SymbolNode) (s : DecodeState) (x : Bool)
    (bits : List Nat) (hin : ∀ b ∈ s.input, b < 256) (hp : pendingBits s = x.toNat :: bits)
    (hchild : nodeAt s.currNode [x] = null) :
    decodeCharsStep root s = .error .nullDeref := by
  obtain ⟨_, h2, _, _, _, _, _, h8⟩ := pendingBits_advance s x.toNat bits hin hp
  rw [decodeCharsStep_eq, h8]
  have hx : (x.toNat = 1) ↔ x = true := by cases x <;> simp
  cases hc : s.currNode with
  | null => rfl
  | node f sy n c l r =>
    rw [hc] at hchild
    simp only [h2, hx]
    have hsel : (if x = true then r else l) = nodeAt (node f sy n c l r) [x] := by
      cases x <;> simp [nodeAt, nodeAt_nil]
    rw [hsel, hchild]

/-- C16 fails on the code. The header `01 62 01 80` describes the one code `1` for `b`, so
the rebuilt root has a right child and no left child; the count field holds 1 and the body
starts with a 0 bit. `decodeChars` moves to the `NULL` left child and `isLeaf` reads
through it: the run leaves defined behaviour, there is no check and no error. -/
theorem decodeFile_missing_child :
    decodeFile ([1, 98, 1, 128] ++ [1, 0, 0, 0, 0, 0, 0, 0] ++ [0]) = .error .nullDeref ∧
      (match readHeader 1 [98, 1, 128] null with
        | .ok (root, _) => [root.left.isNull, isLeaf root.right, root.right.symbol = 98]
        | .error _ => []) = [true, true, true] := by
  decide!

/-! ## The order of the priority queue -/

theorem keyLE_total (a b : SymbolNode) : keyLE a b ∨ keyLT b a := by
  simp only [keyLE, keyLT]; omega

theorem keyLT_iff_not_keyLE (a b : SymbolNode) : keyLT a b ↔ ¬ keyLE b a := by
  simp only [keyLE, keyLT]; omega

theorem keyLE_trans {a b c : SymbolNode} (h1 : keyLE a b) (h2 : keyLE b c) : keyLE a c := by
  simp only [keyLE] at *; omega

theorem keyLE_of_keyLT {a b : SymbolNode} (h : keyLT a b) : keyLE a b := by
  simp only [keyLE, keyLT] at *; omega

/-- `insertPriority` puts the node in front of the first queued node with a greater key. -/
theorem insertPriority_cons (head : SymbolNode) (next : List SymbolNode) (n : SymbolNode) :
    insertPriority (head :: next) n
      = if keyLE head n then head :: insertPriority next n else n :: head :: next := by
  simp only [insertPriority, keyLE]
  by_cases h1 : n.freq < head.freq
  · rw [if_pos h1, if_neg (by omega)]
  · rw [if_neg h1]
    by_cases h2 : n.freq > head.freq
    · rw [if_pos h2, if_pos (by omega)]
    · rw [if_neg h2]
      by_cases h3 : smallestValue n < smallestValue head
      · rw [if_pos h3, if_neg (by omega)]
      · rw [if_neg h3, if_pos (by omega)]

theorem insertPriority_split (q : List SymbolNode) (n : SymbolNode)
    (hq : q.Pairwise keyLE) :
    ∃ front back, q = front ++ back ∧ insertPriority q n = front ++ n :: back ∧
      (∀ t ∈ front, keyLE t n) ∧ (∀ t ∈ back, keyLT n t) := by
  induction q with
  | nil => exact ⟨[], [], rfl, rfl, by simp, by simp⟩
  | cons h q ih =>
    obtain ⟨hh, hq1⟩ := List.pairwise_cons.mp hq
    rw [insertPriority_cons]
    by_cases hle : keyLE h n
    · rw [if_pos hle]
      obtain ⟨front, back, e1, e2, e3, e4⟩ := ih hq1
      refine ⟨h :: front, back, by rw [e1]; rfl, by rw [e2]; rfl, ?_, e4⟩
      intro t ht
      rcases List.mem_cons.mp ht with rfl | ht
      · exact hle
      · exact e3 t ht
    · rw [if_neg hle]
      have hlt : keyLT n h := (keyLT_iff_not_keyLE n h).mpr hle
      refine ⟨[], h :: q, rfl, rfl, by simp, ?_⟩
      intro t ht
      rcases List.mem_cons.mp ht with rfl | ht
      · exact hlt
      · have := hh t ht
        simp only [keyLE, keyLT] at *
        omega

theorem insertPriority_keySorted (q : List SymbolNode) (n : SymbolNode)
    (hq : q.Pairwise keyLE) : (insertPriority q n).Pairwise keyLE := by
  obtain ⟨front, back, e1, e2, e3, e4⟩ := insertPriority_split q n hq
  rw [e1, List.pairwise_append] at hq
  rw [e2, List.pairwise_append, List.pairwise_cons]
  refine ⟨hq.1, ⟨fun t ht => keyLE_of_keyLT (e4 t ht), hq.2.1⟩, ?_⟩
  intro a ha b hb
  rcases List.mem_cons.mp hb with rfl | hb
  · exact e3 a ha
  · exact hq.2.2 a ha b hb

/-! ## Claim C17 -/

/-- C17. For every queue sorted ascending by the key `(freq, smallestValue)` and every node
`n`, `insertPriority` returns the queue with `n` put in at one place: the nodes in front of
`n` are existing nodes with a key less than or equal to the key of `n`, the nodes behind it
are the existing nodes with a strictly greater key, and the existing nodes keep their
order. The result is sorted by the key again, and `n` stands behind the nodes with an equal
key. -/
theorem insertPriority_stable (q : List SymbolNode) (n : SymbolNode)
    (hq : q.Pairwise keyLE) :
    ∃ front back, q = front ++ back ∧ insertPriority q n = front ++ n :: back ∧
      (∀ t ∈ front, keyLE t n) ∧ (∀ t ∈ back, keyLT n t ∧ ¬ keyLE t n) ∧
      (insertPriority q n).Pairwise keyLE := by
  obtain ⟨front, back, e1, e2, e3, e4⟩ := insertPriority_split q n hq
  exact ⟨front, back, e1, e2, e3,
    fun t ht => ⟨e4 t ht, (keyLT_iff_not_keyLE n t).mp (e4 t ht)⟩,
    insertPriority_keySorted q n hq⟩

theorem sampleQueue_sorted : sampleQueue.Pairwise keyLE := by
  simp [sampleQueue, keyLE, makeSymbol, SymbolNode.freq, smallestValue]

theorem insertPriority_stable_witness :
    sampleQueue.Pairwise keyLE ∧
      ∃ front back, sampleQueue = front ++ back ∧
        insertPriority sampleQueue (makeSymbol 2 98) = front ++ makeSymbol 2 98 :: back ∧
        (∀ t ∈ front, keyLE t (makeSymbol 2 98)) ∧
        (∀ t ∈ back, keyLT (makeSymbol 2 98) t ∧ ¬ keyLE t (makeSymbol 2 98)) ∧
        (insertPriority sampleQueue (makeSymbol 2 98)).Pairwise keyLE :=
  ⟨sampleQueue_sorted, insertPriority_stable sampleQueue (makeSymbol 2 98) sampleQueue_sorted⟩

/-! ## Claim C18 -/

theorem foldl_insertPriority_perm (l : List SymbolNode) :
    ∀ q, (l.foldl insertPriority q).Perm (q ++ l) := by
  induction l with
  | nil => intro q; simp
  | cons a l ih =>
    intro q
    rw [List.foldl_cons]
    refine (ih _).trans ?_
    refine ((insertPriority_perm q a).append_right l).trans ?_
    simp only [List.cons_append]
    exact List.perm_middle.symm

theorem foldl_insertPriority_keySorted (l : List SymbolNode) :
    ∀ q, q.Pairwise keyLE → (l.foldl insertPriority q).Pairwise keyLE := by
  induction l with
  | nil => intro q hq; exact hq
  | cons a l ih =>
    intro q hq
    rw [List.foldl_cons]
    exact ih _ (insertPriority_keySorted q a hq)

/-- Two sorted lists with the same elements are equal when no two distinct elements are
each below the other. -/
theorem eq_of_perm_of_pairwise {α : Type} (R : α → α → Prop) :
    ∀ l1 l2 : List α, l1.Perm l2 → l1.Pairwise R → l2.Pairwise R →
      (∀ a ∈ l1, ∀ b ∈ l1, R a b → R b a → a = b) → l1 = l2 := by
  intro l1
  induction l1 with
  | nil => intro l2 hp _ _ _; exact hp.nil_eq
  | cons a l1 ih =>
    intro l2 hp h1 h2 hanti
    cases l2 with
    | nil => exact absurd hp.symm.nil_eq (by simp)
    | cons b l2 =>
      obtain ⟨ha, h1t⟩ := List.pairwise_cons.mp h1
      obtain ⟨hb, h2t⟩ := List.pairwise_cons.mp h2
      have hab : a = b := by
        by_contra hne
        have ha2 : a ∈ l2 := by
          have := hp.subset (List.mem_cons_self a l1)
          rcases List.mem_cons.mp this with h | h
          · exact absurd h hne
          · exact h
        have hb1 : b ∈ l1 := by
          have := hp.symm.subset (List.mem_cons_self b l2)
          rcases List.mem_cons.mp this with h | h
          · exact absurd h.symm hne
          · exact h
        exact hne (hanti a (List.mem_cons_self a l1) b (List.mem_cons_of_mem a hb1)
          (ha b hb1) (hb a ha2))
      subst hab
      rw [ih l2 (List.Perm.cons_inv hp) h1t h2t
        (fun x hx y hy => hanti x (List.mem_cons_of_mem a hx) y (List.mem_cons_of_mem a hy))]

theorem smallestValue_leaf {t : SymbolNode} (h : isLeaf t = true) : smallestValue t = t.symbol := by
  obtain ⟨f, s, n, c, rfl⟩ := (isLeaf_eq_true_iff t).mp h
  rfl

/-- C18. For leaf nodes with pairwise distinct symbols, inserting them one by one with
`insertPriority` into the empty queue yields the same queue for every order of insertion,
and hence `buildTree` yields the same result. -/
theorem insertPriority_order_independent (l1 l2 : List SymbolNode)
    (hleaf : ∀ t ∈ l1, isLeaf t = true) (hnd : (l1.map SymbolNode.symbol).Nodup)
    (hperm : l1.Perm l2) :
    l1.foldl insertPriority [] = l2.foldl insertPriority [] ∧
      buildTree (l1.foldl insertPriority []) = buildTree (l2.foldl insertPriority []) := by
  have hq : l1.foldl insertPriority [] = l2.foldl insertPriority [] := by
    have p1 := foldl_insertPriority_perm l1 []
    have p2 := foldl_insertPriority_perm l2 []
    simp only [List.nil_append] at p1 p2
    apply eq_of_perm_of_pairwise keyLE _ _ (p1.trans (hperm.trans p2.symm))
      (foldl_insertPriority_keySorted l1 [] List.Pairwise.nil)
      (foldl_insertPriority_keySorted l2 [] List.Pairwise.nil)
    intro a ha b hb hab hba
    have ha1 : a ∈ l1 := p1.subset ha
    have hb1 : b ∈ l1 := p1.subset hb
    have hsym : a.symbol = b.symbol := by
      rw [← smallestValue_leaf (hleaf a ha1), ← smallestValue_leaf (hleaf b hb1)]
      simp only [keyLE] at hab hba
      omega
    exact List.inj_on_of_nodup_map hnd ha1 hb1 hsym
  exact ⟨hq, by rw [hq]⟩

theorem insertPriority_order_independent_witness :
    (∀ t ∈ [makeSymbol 3 97, makeSymbol 2 98, makeSymbol 3 99], isLeaf t = true) ∧
      ([makeSymbol 3 97, makeSymbol 2 98, makeSymbol 3 99].map SymbolNode.symbol).Nodup ∧
      [makeSymbol 3 97, makeSymbol 2 98, makeSymbol 3 99].foldl insertPriority []
        = [makeSymbol 3 99, makeSymbol 3 97, makeSymbol 2 98].foldl insertPriority [] ∧
      buildTree ([makeSymbol 3 97, makeSymbol 2 98, makeSymbol 3 99].foldl insertPriority [])
        = buildTree ([makeSymbol 3 99, makeSymbol 3 97, makeSymbol 2 98].foldl insertPriority []) :=
  have h1 : ∀ t ∈ [makeSymbol 3 97, makeSymbol 2 98, makeSymbol 3 99], isLeaf t = true := by
    intro t ht
    simp only [List.mem_cons, List.mem_singleton, List.not_mem_nil, or_false] at ht
    rcases ht with rfl | rfl | rfl <;> rfl
  have h2 : ([makeSymbol 3 97, makeSymbol 2 98, makeSymbol 3 99].map SymbolNode.symbol).Nodup := by
    simp [makeSymbol, SymbolNode.symbol]
  have h3 : [makeSymbol 3 97, makeSymbol 2 98, makeSymbol 3 99].Perm
      [makeSymbol 3 99, makeSymbol 3 97, makeSymbol 2 98] :=
    @List.perm_append_comm _ [makeSymbol 3 97, makeSymbol 2 98] [makeSymbol 3 99]
  ⟨h1, h2, insertPriority_order_independent _ _ h1 h2 h3⟩

/-! ## Trees rebuilt by `insertTree` -/

theorem insertAt_false (root : SymbolNode) (p : List Bool) (leaf : SymbolNode) :
    insertAt root (false :: p) leaf
      = node (orFresh root).freq (orFresh root).symbol (orFresh root).length (orFresh root).code
          (insertAt (orFresh root).left p leaf) (orFresh root).right := by
  rw [insertAt]
  cases root <;> rfl

theorem insertAt_true (root : SymbolNode) (p : List Bool) (leaf : SymbolNode) :
    insertAt root (true :: p) leaf
      = node (orFresh root).freq (orFresh root).symbol (orFresh root).length (orFresh root).code
          (orFresh root).left (insertAt (orFresh root).right p leaf) := by
  rw [insertAt]
  cases root <;> rfl

/-- Insertions along diverging paths can be exchanged. -/
theorem insertAt_comm (a b : SymbolNode) (p : List Bool) :
    ∀ root q, Diverge p q →
      insertAt (insertAt root p a) q b = insertAt (insertAt root q b) p a := by
  induction p with
  | nil => intro root q h; exact absurd List.nil_prefix h.1
  | cons x p ih =>
    intro root q h
    cases q with
    | nil => exact absurd List.nil_prefix h.2
    | cons y q =>
      by_cases hxy : x = y
      · subst hxy
        have hsub : Diverge p q :=
          ⟨fun hp => h.1 ((List.prefix_cons_inj x).mpr hp),
            fun hp => h.2 ((List.prefix_cons_inj x).mpr hp)⟩
        cases x
        · simp only [insertAt_false, orFresh, SymbolNode.freq, SymbolNode.symbol,
            SymbolNode.length, SymbolNode.code, SymbolNode.left, SymbolNode.right]
          rw [ih _ _ hsub]
        · simp only [insertAt_true, orFresh, SymbolNode.freq, SymbolNode.symbol,
            SymbolNode.length, SymbolNode.code, SymbolNode.left, SymbolNode.right]
          rw [ih _ _ hsub]
      · cases x <;> cases y <;> simp at hxy <;>
          simp only [insertAt_false, insertAt_true, orFresh, SymbolNode.freq, SymbolNode.symbol,
            SymbolNode.length, SymbolNode.code, SymbolNode.left, SymbolNode.right]

theorem insertEntries_eq (L : List (Nat × List Bool)) (hlen : ∀ e ∈ L, e.2.length ≤ 256) :
    ∀ root, insertEntries L root
      = .ok (L.foldl (fun t e => insertAt t e.2 (codeLeaf 0 e.1 e.2)) root) := by
  induction L with
  | nil => intro root; rfl
  | cons e L ih =>
    intro root
    rw [insertEntries, insertTree_eq 0 e.1 e.2 (hlen e (by simp)) root]
    exact ih (fun x hx => hlen x (by simp [hx])) _

theorem diverge_symm {p q : List Bool} (h : Diverge p q) : Diverge q p := ⟨h.2, h.1⟩

theorem foldl_insertAt_perm (L1 L2 : List (Nat × List Bool)) (hperm : L1.Perm L2)
    (hfree : L1.Pairwise (fun a b => Diverge a.2 b.2)) (root : SymbolNode) :
    L1.foldl (fun t e => insertAt t e.2 (codeLeaf 0 e.1 e.2)) root
      = L2.foldl (fun t e => insertAt t e.2 (codeLeaf 0 e.1 e.2)) root := by
  apply hperm.foldl_eq'
  intro x hx y hy z
  by_cases hxy : x = y
  · rw [hxy]
  · have hd : Diverge x.2 y.2 :=
      hfree.forall (fun a b hab => diverge_symm hab) hx hy hxy
    exact insertAt_comm _ _ _ _ _ hd

/-! ## Claim C20 -/

/-- C20. For every prefix-free list of (symbol, code) pairs, with codes that fit the code
array, inserting a leaf for each pair with `insertTree` at depth 0 into the empty tree
yields the same tree for every order of insertion, and in that tree following the code of
a pair from the root leads to a leaf that carries the symbol of the pair. -/
theorem insertTree_order_independent (L1 L2 : List (Nat × List Bool)) (hperm : L1.Perm L2)
    (hfree : L1.Pairwise (fun a b => Diverge a.2 b.2))
    (hlen : ∀ e ∈ L1, e.2 ≠ [] ∧ e.2.length ≤ 256) :
    ∃ t, insertEntries L1 null = .ok t ∧ insertEntries L2 null = .ok t ∧
      ∀ e ∈ L1, isLeaf (nodeAt t e.2) = true ∧ (nodeAt t e.2).symbol = e.1 := by
  refine ⟨_, insertEntries_eq L1 (fun e he => (hlen e he).2) null, ?_, ?_⟩
  · rw [insertEntries_eq L2 (fun e he => (hlen e (hperm.symm.subset he)).2) null,
      foldl_insertAt_perm L1 L2 hperm hfree]
  · intro e he
    rw [nodeAt_foldl_insertAt L1 hfree null e he]
    exact ⟨rfl, rfl⟩

theorem insertTree_order_independent_witness :
    ∃ t, insertEntries [(97, [false]), (99, [true, false]), (98, [true, true])] null = .ok t ∧
      insertEntries [(98, [true, true]), (97, [false]), (99, [true, false])] null = .ok t ∧
      ∀ e ∈ [(97, [false]), (99, [true, false]), (98, [true, true])],
        isLeaf (nodeAt t e.2) = true ∧ (nodeAt t e.2).symbol = e.1 :=
  insertTree_order_independent [(97, [false]), (99, [true, false]), (98, [true, true])]
    [(98, [true, true]), (97, [false]), (99, [true, false])]
    (@List.perm_append_comm _ [(97, [false]), (99, [true, false])] [(98, [true, true])])
    (by simp [Diverge, List.prefix_cons_iff])
    (by simp)

/-! ## Claim C19 -/

theorem nodeAt_insertAt_ne_null (leaf : SymbolNode) (hleaf : isLeaf leaf = true)
    (p : List Bool) :
    ∀ root q, nodeAt (insertAt root p leaf) q ≠ null → nodeAt root q ≠ null ∨ q <+: p := by
  induction p with
  | nil =>
    intro root q h
    rw [insertAt] at h
    cases q with
    | nil => exact Or.inr (List.prefix_refl _)
    | cons y q => exact absurd (isLeaf_nodeAt_cons hleaf y q) h
  | cons x p ih =>
    intro root q h
    cases q with
    | nil => exact Or.inr List.nil_prefix
    | cons y q =>
      have hold : ∀ c : Bool,
          nodeAt (if c then (orFresh root).right else (orFresh root).left) q ≠ null →
          nodeAt root (c :: q) ≠ null := by
        intro c hc
        cases root with
        | null =>
          cases c <;>
            simp [orFresh, makeSymbol, SymbolNode.left, SymbolNode.right, nodeAt_null] at hc
        | node f s n c2 l r =>
          cases c <;> simpa [orFresh, nodeAt, SymbolNode.left, SymbolNode.right] using hc
      cases x <;> cases y <;>
        simp only [insertAt_false, insertAt_true, nodeAt_inner_left, nodeAt_inner_right] at h
      · rcases ih _ _ h with h1 | h1
        · exact Or.inl (hold false (by simpa using h1))
        · exact Or.inr ((List.prefix_cons_inj false).mpr h1)
      · exact Or.inl (hold true (by simpa using h))
      · exact Or.inl (hold false (by simpa using h))
      · rcases ih _ _ h with h1 | h1
        · exact Or.inl (hold true (by simpa using h1))
        · exact Or.inr ((List.prefix_cons_inj true).mpr h1)

theorem nodeAt_foldl_insertAt_ne_null (L : List (Nat × List Bool)) (q : List Bool) :
    ∀ root, nodeAt (L.foldl (fun t e => insertAt t e.2 (codeLeaf 0 e.1 e.2)) root) q ≠ null →
      nodeAt root q ≠ null ∨ ∃ e ∈ L, q <+: e.2 := by
  induction L with
  | nil => intro root h; exact Or.inl h
  | cons e L ih =>
    intro root h
    rw [List.foldl_cons] at h
    rcases ih _ h with h1 | ⟨e2, he2, h1⟩
    · rcases nodeAt_insertAt_ne_null _ (isLeaf_codeLeaf 0 e.1 e.2) e.2 root q h1 with h2 | h2
      · exact Or.inl h2
      · exact Or.inr ⟨e, by simp, h2⟩
    · exact Or.inr ⟨e2, by simp [he2], h1⟩

/-- C19. For every frequency table with a non-zero entry, `readHeader`, run from the empty
tree on the bytes that follow the symbol-count byte in the header `writeHeader` emits for
the code table of `generateCodes`, with the number of symbols `decodeFile` derives from the
count byte, reads the entries up to the 8-byte count field and rebuilds a tree with the
same shape and the same symbol on every leaf as the tree `generateCodes` built. -/
theorem readHeader_rebuilds (freq : Nat → Nat) (h : ∃ i, i < 256 ∧ freq i ≠ 0) :
    ∃ codes root count rest root1 field,
      generateCodes freq = .ok (codes, root) ∧ writeHeader codes = .ok (count :: rest) ∧
      readHeader (if count % 256 = 0 then 256 else count % 256) rest null = .ok (root1, field) ∧
      field.length = 8 ∧ SameShape root root1 := by
  obtain ⟨codes, root, path, hgen, hnull, hentry, hfree, _, hfull, hperm, hnodes⟩ :=
    generateCodes_facts freq h
  obtain ⟨_, hhead⟩ := writeHeader_table freq codes path hnull
    (fun i hi hf => ⟨(hentry i hi hf).1, (hentry i hi hf).2.2⟩)
  obtain ⟨i0, hi0, hf0⟩ := h
  have hpos : 0 < (present freq).length :=
    List.length_pos_of_mem ((present_mem freq i0).mpr ⟨hi0, hf0⟩)
  have hle : (present freq).length ≤ 256 := by
    simp only [present]
    exact (List.length_filter_le _ _).trans (by simp)
  have hnum : (if (present freq).length % 256 % 256 = 0 then 256
      else (present freq).length % 256 % 256) = (present freq).length := by
    split_ifs <;> omega
  have hdiv : ((present freq).map (fun i => (i, path i))).Pairwise
      (fun x y => Diverge x.2 y.2) := by
    rw [List.pairwise_map]
    refine (present_nodup freq).imp_of_mem ?_
    intro i j hi hj hij
    obtain ⟨hi1, hi2⟩ := (present_mem freq i).mp hi
    obtain ⟨hj1, hj2⟩ := (present_mem freq j).mp hj
    exact ⟨hfree i j hi1 hj1 hi2 hj2 hij, hfree j i hj1 hi1 hj2 hi2 (Ne.symm hij)⟩
  have hread := readHeader_entries ((present freq).map (fun i => (i, path i)))
    (ulongBytes (((present freq).map freq).sum % ULONG))
    (by
      intro e he
      simp only [List.mem_map] at he
      obtain ⟨i, hi, rfl⟩ := he
      obtain ⟨hi1, hi2⟩ := (present_mem freq i).mp hi
      exact ⟨hi1, (hentry i hi1 hi2).2.2⟩) null
  rw [List.length_map] at hread
  have htree := nodeAt_foldl_insertAt _ hdiv null
  refine ⟨codes, root, _, _, _, _, hgen, hhead, by rw [hnum]; exact hread,
    ulongBytes_length _, ?_⟩
  -- the nodes of both trees are the prefixes of the codes
  have hin : ∀ i, i < 256 → freq i ≠ 0 →
      nodeAt (((present freq).map (fun i => (i, path i))).foldl
        (fun t e => insertAt t e.2 (codeLeaf 0 e.1 e.2)) null) (path i)
        = codeLeaf 0 i (path i) := by
    intro i hi hf
    exact htree (i, path i)
      (List.mem_map.mpr ⟨i, (present_mem freq i).mpr ⟨hi, hf⟩, rfl⟩)
  intro p
  constructor
  · constructor
    · intro h0
      by_contra h1
      rcases nodeAt_foldl_insertAt_ne_null _ p null h1 with h2 | ⟨e, he, h2⟩
      · exact h2 (nodeAt_null p)
      · simp only [List.mem_map] at he
        obtain ⟨i, hi, rfl⟩ := he
        obtain ⟨hi1, hi2⟩ := (present_mem freq i).mp hi
        obtain ⟨r, hr⟩ := h2
        have h3 := (hentry i hi1 hi2).2.1
        simp only at hr
        rw [← hr, nodeAt_append, h0, nodeAt_null, (hentry i hi1 hi2).1] at h3
        simp [codeLeaf] at h3
    · intro h0
      by_contra h1
      obtain ⟨i, hi1, hi2, r, hr⟩ := hnodes p h1
      have h3 := hin i hi1 hi2
      rw [← hr, nodeAt_append, h0, nodeAt_null] at h3
      simp [codeLeaf] at h3
  · intro hleaf
    have hne : nodeAt root p ≠ null := by
      intro h0
      rw [h0] at hleaf
      simp [isLeaf] at hleaf
    obtain ⟨i, hi1, hi2, r, hr⟩ := hnodes p hne
    have h3 := (hentry i hi1 hi2).2.1
    have hr0 : r = [] := by
      cases r with
      | nil => rfl
      | cons y r =>
        rw [← hr, nodeAt_append, isLeaf_nodeAt_cons hleaf, (hentry i hi1 hi2).1] at h3
        simp [codeLeaf] at h3
    rw [hr0, List.append_nil] at hr
    rw [hr, hin i hi1 hi2, h3, (hentry i hi1 hi2).1]
    rfl

theorem readHeader_rebuilds_witness :
    (∃ i, i < 256 ∧ sampleFreq i ≠ 0) ∧
      ∃ codes root count rest root1 field,
        generateCodes sampleFreq = .ok (codes, root) ∧ writeHeader codes = .ok (count :: rest) ∧
        readHeader (if count % 256 = 0 then 256 else count % 256) rest null = .ok (root1, field) ∧
        field.length = 8 ∧ SameShape root root1 :=
  ⟨⟨97, by decide, by decide⟩, readHeader_rebuilds sampleFreq ⟨97, by decide, by decide⟩⟩

/-! ## Claim C14 -/

theorem pathOf_toNat (t : SymbolNode) (hbits : ∀ k, k < t.length → t.code k ≤ 1) :
    (pathOf t).map Bool.toNat = codeBits t ∧ (pathOf t).length = t.length := by
  refine ⟨?_, by simp [pathOf, codeBits]⟩
  simp only [pathOf, codeBits, List.map_map]
  apply List.map_congr_left
  intro k hk
  rw [List.mem_range] at hk
  have := hbits k hk
  simp only [Function.comp]
  interval_cases t.code k <;> rfl

/-- C14. When all 256 byte values are present in the code table (with well-formed
entries), `writeHeader` writes 0 as the symbol-count byte, followed by the 256 entries and
the 8-byte count field; and `decodeFile`, on the count byte 0, has `readHeader` read 256
entries: exactly the entries written, which leaves the count field and the body. -/
theorem writeHeader_full_table (codes : Nat → SymbolNode)
    (hall : ∀ i, i < 256 → codes i ≠ null) (hwf : ∀ i, i < 256 → EntryWellFormed (codes i)) :
    ∃ entries field, writeHeader codes = .ok (0 :: (entries ++ field)) ∧ field.length = 8 ∧
      entries = (List.range 256).flatMap
        (fun i => i :: (codes i).length :: packBits (codeBits (codes i))) ∧
      ∀ body, ∃ root,
        readHeader 256 (entries ++ (field ++ body)) null = .ok (root, field ++ body) ∧
        decodeFile (0 :: (entries ++ (field ++ body)))
          = decodeChars body (toInt32 (ulongOfBytes field)) root := by
  have hent := headerEntries_eq codes 256 0 (by omega) (fun j _ h2 _ => hwf j (by omega))
  have hcnt := headerCounts_eq codes 256
  rw [← List.range_eq_range'] at hent
  have hfilter : (List.range 256).filter (fun i => !(codes i).isNull) = List.range 256 := by
    apply List.filter_eq_self.mpr
    intro i hi
    rw [List.mem_range] at hi
    cases hc : codes i with
    | null => exact absurd hc (hall i hi)
    | node f s n c l r => rfl
  rw [hfilter] at hent hcnt
  have hcount : (headerCounts codes 256).1 = 0 := by rw [hcnt]; simp
  have hL : (List.range 256).flatMap
      (fun i => i :: (codes i).length :: packBits (codeBits (codes i)))
      = entryBytes ((List.range 256).map (fun i => (i, pathOf (codes i)))) := by
    rw [entryBytes, List.flatMap_map]
    apply flatMap_congr_mem
    intro i hi
    rw [List.mem_range] at hi
    obtain ⟨h1, h2⟩ := pathOf_toNat (codes i) (hwf i hi).2.1
    simp only [h1, h2]
  refine ⟨_, ulongBytes (headerCounts codes 256).2, ?_, ulongBytes_length _, rfl, ?_⟩
  · rw [writeHeader, hent]
    simp only [hcount, List.cons_append]
  · intro body
    have hread := readHeader_entries ((List.range 256).map (fun i => (i, pathOf (codes i))))
      (ulongBytes (headerCounts codes 256).2 ++ body)
      (by
        intro e he
        simp only [List.mem_map, List.mem_range] at he
        obtain ⟨i, hi, rfl⟩ := he
        exact ⟨hi, by rw [(pathOf_toNat (codes i) (hwf i hi).2.1).2]; exact (hwf i hi).1⟩) null
    rw [List.length_map, List.length_range, ← hL] at hread
    refine ⟨_, hread, ?_⟩
    rw [decodeFile_cons]
    simp only [Nat.zero_mod, if_true, hread]
    rw [if_neg (by simp [ulongBytes_length]), List.take_left' (ulongBytes_length _),
      List.drop_left' (ulongBytes_length _)]

theorem writeHeader_full_table_witness :
    (∀ i, i < 256 → byteCodes i ≠ null) ∧ (∀ i, i < 256 → EntryWellFormed (byteCodes i)) ∧
      ∃ entries field, writeHeader byteCodes = .ok (0 :: (entries ++ field)) ∧
        field.length = 8 ∧
        entries = (List.range 256).flatMap
          (fun i => i :: (byteCodes i).length :: packBits (codeBits (byteCodes i))) ∧
        ∀ body, ∃ root,
          readHeader 256 (entries ++ (field ++ body)) null = .ok (root, field ++ body) ∧
          decodeFile (0 :: (entries ++ (field ++ body)))
            = decodeChars body (toInt32 (ulongOfBytes field)) root :=
  have h1 : ∀ i, i < 256 → byteCodes i ≠ null := by
    intro i _; simp [byteCodes, codeLeaf]
  have h2 : ∀ i, i < 256 → EntryWellFormed (byteCodes i) := by
    intro i _
    exact codeLeaf_wellFormed _ _ _ (by simp [lowBits_length])
  ⟨h1, h2, writeHeader_full_table byteCodes h1 h2⟩

/-! ## Claim C21 -/

/-- C21. For every frequency table with `k >= 1` non-zero entries, `buildTree` and
`fillCodes` run without a write outside a code array, and every code length `fillCodes`
assigns, to a node of the tree and so to an entry of the table, is at most `k - 1`; the
length of a table entry is therefore at most 255 and is written unchanged into the one-byte
length field of the header. -/
theorem generateCodes_length_bound (freq : Nat → Nat) (h : ∃ i, i < 256 ∧ freq i ≠ 0) :
    ∃ t codes root, buildTree (queueUpTo freq 256) = .ok t ∧
      fillCodes t 0 (-1) t.code = .ok root ∧ generateCodes freq = .ok (codes, root) ∧
      (present freq).length ≤ 256 ∧
      (∀ p, nodeAt root p ≠ null → (nodeAt root p).length ≤ (present freq).length - 1) ∧
      (∀ i, i < 256 → freq i ≠ 0 →
        (codes i).length ≤ (present freq).length - 1 ∧ (codes i).length ≤ 255 ∧
          (codes i).length % 256 = (codes i).length) := by
  obtain ⟨t, hbuilt, hbuild, hperm, hgen⟩ := generateCodes_ok freq h
  have hfull := built_isFull hbuilt
  have hk : (present freq).length ≤ 256 := by
    simp only [present]
    exact (List.length_filter_le _ _).trans (by simp)
  have hheight : height t ≤ (present freq).length := by
    have h1 := height_le_leaves hfull
    have h2 := hperm.length_eq
    rw [List.length_map] at h2
    omega
  have hnode : ∀ p, nodeAt (fillFromRoot t) p ≠ null →
      (nodeAt (fillFromRoot t) p).length ≤ (present freq).length - 1 := by
    intro p hp
    have h1 := (nodeAt_fillFromRoot_code t (built_length hbuilt) p hp).1
    have h2 := nodeAt_length_lt_height t p
      (fun h0 => hp ((nodeAt_fillFromRoot_eq_null t p).mpr h0))
    omega
  refine ⟨t, _, _, hbuild, fillCodes_root t (by omega), hgen, hk, hnode, ?_⟩
  intro i hi hf
  have hmem : (i, freq i) ∈ leafPairs (fillFromRoot t) := by
    rw [fillFromRoot_leafPairs]
    exact hperm.symm.subset (List.mem_map.mpr ⟨i, (present_mem freq i).mpr ⟨hi, hf⟩, rfl⟩)
  have hfull2 := fillFromRoot_isFull hfull
  have hne := findLeaf_ne_null hfull2 i (freq i) hmem
  obtain ⟨_, _, _, p, hp⟩ := findLeaf_found hfull2 i hne
  have hb := hnode p (by rw [hp]; exact hne)
  rw [hp] at hb
  simp only [hi, hf, ne_eq, not_false_eq_true, and_self, if_true]
  refine ⟨hb, by omega, Nat.mod_eq_of_lt (by omega)⟩

theorem generateCodes_length_bound_witness :
    (∃ i, i < 256 ∧ sampleFreq i ≠ 0) ∧
      ∃ t codes root, buildTree (queueUpTo sampleFreq 256) = .ok t ∧
        fillCodes t 0 (-1) t.code = .ok root ∧ generateCodes sampleFreq = .ok (codes, root) ∧
        (present sampleFreq).length ≤ 256 ∧
        (∀ p, nodeAt root p ≠ null →
          (nodeAt root p).length ≤ (present sampleFreq).length - 1) ∧
        (∀ i, i < 256 → sampleFreq i ≠ 0 →
          (codes i).length ≤ (present sampleFreq).length - 1 ∧ (codes i).length ≤ 255 ∧
            (codes i).length % 256 = (codes i).length) :=
  ⟨⟨97, by decide, by decide⟩, generateCodes_length_bound sampleFreq ⟨97, by decide, by decide⟩⟩

/-! ## Claim C22 -/

theorem innerNode_children {root t : SymbolNode} (hfull : IsFull root) (h : InnerNode root t) :
    ∃ f s n c l r, t = node f s n c l r ∧ l ≠ null ∧ r ≠ null ∧
      ∀ b : Bool, ∃ p : List Bool, nodeAt root p = (if b then r else l) := by
  obtain ⟨p, hp, hne, hleaf⟩ := h
  have hf := isFull_nodeAt hfull p (by rw [hp]; exact hne)
  rw [hp] at hf
  cases hf with
  | leaf f s n c => simp [isLeaf] at hleaf
  | inner f s n c l r hl hr =>
    refine ⟨f, s, n, c, l, r, rfl, isFull_ne_null hl, isFull_ne_null hr, ?_⟩
    intro b
    refine ⟨p ++ [b], ?_⟩
    rw [nodeAt_append, hp]
    cases b <;> simp [nodeAt, nodeAt_nil]

/-- A pass of `decodeChars` from an inner node of a full tree follows a child that is
there, and leaves the walk at an inner node again. -/
theorem decodeCharsStep_full {root : SymbolNode} (hfull : IsFull root)
    (hroot : isLeaf root = false) (s : DecodeState) (h : InnerNode root s.currNode) :
    decodeCharsStep root s ≠ .error .nullDeref ∧
      ∀ s1, decodeCharsStep root s = .ok s1 → InnerNode root s1.currNode := by
  obtain ⟨f, sy, n, c, l, r, hcur, hl, hr, hpath⟩ := innerNode_children hfull h
  have hrefill : (refill s).currNode = s.currNode := by
    simp only [refill]; split_ifs <;> rfl
  rw [decodeCharsStep_eq, hrefill, hcur]
  simp only
  obtain ⟨p, hp⟩ := hpath
    (decide ((refill s).currByte &&& (1 <<< ((refill s).byteLength - 1)) ≠ 0))
  have hsel : (if (refill s).currByte &&& (1 <<< ((refill s).byteLength - 1)) ≠ 0 then r else l)
      ≠ null := by
    split_ifs
    · exact hr
    · exact hl
  have hp2 : nodeAt root p
      = (if (refill s).currByte &&& (1 <<< ((refill s).byteLength - 1)) ≠ 0 then r else l) := by
    rw [hp]
    simp only [decide_eq_true_eq]
  generalize (if (refill s).currByte &&& (1 <<< ((refill s).byteLength - 1)) ≠ 0 then r else l)
    = child at hsel hp2
  cases hchild : child with
  | null => exact absurd hchild hsel
  | node f2 s2 n2 c2 l2 r2 =>
    simp only
    have hroot_inner : InnerNode root root :=
      ⟨[], nodeAt_nil root, isFull_ne_null hfull, hroot⟩
    by_cases hlf : isLeaf (node f2 s2 n2 c2 l2 r2) = true
    · rw [if_pos hlf]
      split_ifs
      · exact ⟨by simp, fun s1 h1 => by simp at h1⟩
      · refine ⟨by simp, ?_⟩
        intro s1 h1
        simp only [Except.ok.injEq] at h1
        rw [← h1]
        exact hroot_inner
    · rw [if_neg hlf]
      refine ⟨by simp, ?_⟩
      intro s1 h1
      simp only [Except.ok.injEq] at h1
      rw [← h1]
      refine ⟨p, ?_, by simp, by simpa using hlf⟩
      rw [hp2, hchild]

theorem decodeCharsLoop_full {root : SymbolNode} (hfull : IsFull root)
    (hroot : isLeaf root = false) :
    ∀ fuel (s : DecodeState), InnerNode root s.currNode →
      decodeCharsLoop root fuel s ≠ .error .nullDeref := by
  intro fuel
  induction fuel with
  | zero =>
    intro s _
    rw [decodeCharsLoop]
    split_ifs <;> simp
  | succ fuel ih =>
    intro s hs
    rw [decodeCharsLoop]
    split_ifs
    · simp
    · obtain ⟨h1, h2⟩ := decodeCharsStep_full hfull hroot s hs
      cases hstep : decodeCharsStep root s with
      | error e =>
        simp only
        intro h0
        rw [hstep] at h1
        exact h1 h0
      | ok s1 =>
        simp only
        exact ih s1 (h2 s1 hstep)

/-- C22. For every frequency table with at least two non-zero entries the tree
`generateCodes` returns is a full binary tree whose root is not a leaf; a pass of
`decodeChars` from an inner node of it never follows an absent child and ends at an inner
node, so that `decodeChars` on this tree never reads through a `NULL` child, whatever the
input bytes and the count. -/
theorem generateCodes_full_tree (freq : Nat → Nat)
    (htwo : ∃ i j, i < 256 ∧ j < 256 ∧ i ≠ j ∧ freq i ≠ 0 ∧ freq j ≠ 0) :
    ∃ codes root, generateCodes freq = .ok (codes, root) ∧ IsFull root ∧
      isLeaf root = false ∧
      (∀ s : DecodeState, InnerNode root s.currNode →
        decodeCharsStep root s ≠ .error .nullDeref ∧
          ∀ s1, decodeCharsStep root s = .ok s1 → InnerNode root s1.currNode) ∧
      ∀ (input : List Nat) (numChars : Int),
        decodeChars input numChars root ≠ .error .nullDeref := by
  obtain ⟨i, j, hi, hj, hij, hfi, hfj⟩ := htwo
  obtain ⟨codes, root, path, hgen, _, hentry, _, hne, hfull, _, _⟩ :=
    generateCodes_facts freq ⟨i, hi, hfi⟩
  have hroot : isLeaf root = false := by
    cases hl : isLeaf root with
    | false => rfl
    | true =>
      have h1 := hne ⟨i, j, hi, hj, hij, hfi, hfj⟩ i hi hfi
      obtain ⟨e1, e2, _⟩ := hentry i hi hfi
      cases hp : path i with
      | nil => exact absurd hp h1
      | cons b p =>
        rw [hp, isLeaf_nodeAt_cons hl, e1] at e2
        simp [codeLeaf] at e2
  refine ⟨codes, root, hgen, hfull, hroot,
    fun s hs => decodeCharsStep_full hfull hroot s hs, ?_⟩
  intro input numChars
  rw [decodeChars]
  have h := decodeCharsLoop_full hfull hroot (2 ^ 31 * height root + 1)
    { input := input, out := [], numChars := numChars, currNode := root, currByte := 0,
      byteLength := 0 } ⟨[], nodeAt_nil root, isFull_ne_null hfull, hroot⟩
  cases hloop : decodeCharsLoop root (2 ^ 31 * height root + 1)
    { input := input, out := [], numChars := numChars, currNode := root, currByte := 0,
      byteLength := 0 } with
  | error e =>
    simp only
    intro h0
    rw [hloop] at h
    simp only [Except.error.injEq] at h0
    rw [h0] at h
    exact h rfl
  | ok s => simp

theorem generateCodes_full_tree_witness :
    (∃ i j, i < 256 ∧ j < 256 ∧ i ≠ j ∧ sampleFreq i ≠ 0 ∧ sampleFreq j ≠ 0) ∧
      ∃ codes root, generateCodes sampleFreq = .ok (codes, root) ∧ IsFull root ∧
        isLeaf root = false ∧
        (∀ s : DecodeState, InnerNode root s.currNode →
          decodeCharsStep root s ≠ .error .nullDeref ∧
            ∀ s1, decodeCharsStep root s = .ok s1 → InnerNode root s1.currNode) ∧
        ∀ (input : List Nat) (numChars : Int),
          decodeChars input numChars root ≠ .error .nullDeref :=
  have h : ∃ i j, i < 256 ∧ j < 256 ∧ i ≠ j ∧ sampleFreq i ≠ 0 ∧ sampleFreq j ≠ 0 :=
    ⟨97, 98, by decide, by decide, by decide, by decide, by decide⟩
  ⟨h, generateCodes_full_tree sampleFreq h⟩

/-! ## Claim C23 -/

/-- What `smallestValue` computes on a tree of the tree builder (a leaf from `makeSymbol` or
a node from `combineNodes`): the symbol of the leftmost leaf, the first leaf in
left-to-right order, reached from the root by left steps only. -/
theorem smallestValue_leftmost (t : SymbolNode) (h : Built t) :
    ((leafPairs t).map Prod.fst).head? = some (smallestValue t) ∧
      ∃ n, isLeaf (nodeAt t (List.replicate n false)) = true ∧
        (nodeAt t (List.replicate n false)).symbol = smallestValue t := by
  induction h with
  | leaf f s => exact ⟨rfl, 0, rfl, rfl⟩
  | comb l r hl _ ihl _ =>
    have hfl := built_isFull hl
    rw [leafPairs_combineNodes r hfl, smallestValue_combineNodes r hfl, List.map_append]
    obtain ⟨h1, n, h2, h3⟩ := ihl
    refine ⟨?_, n + 1, ?_, ?_⟩
    · cases hm : (leafPairs l).map Prod.fst with
      | nil => rw [hm] at h1; simp at h1
      | cons a rest => rw [hm] at h1; simpa using h1
    · rw [List.replicate_succ, combineNodes, nodeAt_inner_left]; exact h2
    · rw [List.replicate_succ, combineNodes, nodeAt_inner_left]; exact h3

theorem smallestValue_leftmost_witness :
    Built (combineNodes (makeSymbol 1 98) (makeSymbol 1 99)) ∧
      ((leafPairs (combineNodes (makeSymbol 1 98) (makeSymbol 1 99))).map Prod.fst).head?
        = some (smallestValue (combineNodes (makeSymbol 1 98) (makeSymbol 1 99))) ∧
      ∃ n, isLeaf (nodeAt (combineNodes (makeSymbol 1 98) (makeSymbol 1 99))
          (List.replicate n false)) = true ∧
        (nodeAt (combineNodes (makeSymbol 1 98) (makeSymbol 1 99))
          (List.replicate n false)).symbol
          = smallestValue (combineNodes (makeSymbol 1 98) (makeSymbol 1 99)) :=
  have h : Built (combineNodes (makeSymbol 1 98) (makeSymbol 1 99)) :=
    Built.comb _ _ (Built.leaf 1 98) (Built.leaf 1 99)
  ⟨h, smallestValue_leftmost _ h⟩

theorem skewFreq_tree :
    (match buildTree (queueUpTo skewFreq 256) with
      | .ok t => smallestValue t :: (leafPairs t).map Prod.fst
      | .error _ => []) = [98, 98, 99, 97] := by
  decide!

/-- C23 fails on the code. The comment above `smallestValue` says that it returns the
smallest value in the tree, but the function only descends to the leftmost leaf, which need
not carry the smallest symbol. For the table `a`: 3, `b`: 1, `c`: 1 the tree `buildTree`
returns has the leaves `b`, `c`, `a` from left to right: `b` and `c` are joined first and
their node, of frequency 2, is popped before `a`. `smallestValue` of that tree is 98 (`b`),
while the leaf `a` carries 97. -/
theorem smallestValue_not_smallest :
    (match buildTree (queueUpTo skewFreq 256) with
      | .ok t => smallestValue t :: (leafPairs t).map Prod.fst
      | .error _ => []) = [98, 98, 99, 97] ∧
    ¬ ∀ t, Built t → ∀ s ∈ (leafPairs t).map Prod.fst, smallestValue t ≤ s := by
  refine ⟨skewFreq_tree, ?_⟩
  intro hall
  have h := hall (combineNodes (combineNodes (makeSymbol 1 98) (makeSymbol 1 99)) (makeSymbol 3 97))
    (Built.comb _ _ (Built.comb _ _ (Built.leaf 1 98) (Built.leaf 1 99)) (Built.leaf 3 97))
    97 (by simp [combineNodes, makeSymbol, leafPairs])
  simp [combineNodes, makeSymbol, smallestValue] at h

end Huffman
